import Mathlib

/-!
Verification of the XYZ multi-frame parser of `fatman_clients`
(`xyz_parser_iterator` and its two verbose-mode regular expressions
`pos_regex` and `pos_block_regex`, together with the arity-checking
`BlockIterator`).

The development shallowly embeds the Python code:

* a small backtracking regular-expression engine over `List Char`
  (`msplits` / `finditer`) faithful to CPython `re` semantics on the
  constructs the two patterns use: leftmost match, left-biased
  alternation, greedy repetition, multiline `^`, named capture groups
  with last-write-wins;
* the two patterns transcribed constructor by constructor, keeping the
  verbose-mode (`re.X`) character classes exactly as they are in the
  source: whitespace and `|` inside a character class are literal, so
  `[\- | \+ ]` denotes {'-', ' ', '|', '+'}, `[E | e]` denotes
  {'E', ' ', '|', 'e'} and `[+|-]` denotes {'+', '|', '-'};
* `float()` / `int()` conversions as `Option`-valued exact parsers
  (rational semantics for numeric literals);
* `BlockIterator.__next__` and the generator body of
  `xyz_parser_iterator` as pure state-passing functions.
-/

/-- Character classes occurring in the two regular expressions.  Keeping
them as a first-order datatype (rather than `Char → Bool`) gives the
regex AST decidable equality. -/
inductive CC where
  | digit
  | alphaC
  | alnumC
  | wsC
  | sptab
  | dotC
  | one (c : Char)
  | signPMP
  | signSp
  | expLetterC
  | expSignC
deriving DecidableEq

/-- Membership test of a character in a class.  `wsC` is Python `\s`
(ASCII part), `dotC` is `.` (anything but a newline), `signPMP` is the
class written `[\-|\+]` in `pos_regex`, `signSp` is `[\- | \+ ]` from
`pos_block_regex` (verbose mode keeps the spaces and pipes literal),
`expLetterC` is `[E | e]` and `expSignC` is `[+|-]`. -/
def CC.test : CC → Char → Bool
  | .digit, c => c.isDigit
  | .alphaC, c => c.isAlpha
  | .alnumC, c => c.isAlpha || c.isDigit
  | .wsC, c => decide (c = ' ' ∨ c = '\t' ∨ c = '\n' ∨ c = '\r' ∨ c = '\x0b' ∨ c = '\x0c')
  | .sptab, c => decide (c = ' ' ∨ c = '\t')
  | .dotC, c => decide (¬ c = '\n')
  | .one d, c => decide (c = d)
  | .signPMP, c => decide (c = '-' ∨ c = '|' ∨ c = '+')
  | .signSp, c => decide (c = '-' ∨ c = ' ' ∨ c = '|' ∨ c = '+')
  | .expLetterC, c => decide (c = 'E' ∨ c = ' ' ∨ c = '|' ∨ c = 'e')
  | .expSignC, c => decide (c = '+' ∨ c = '|' ∨ c = '-')

/-- Regular expression abstract syntax.  `starCls`/`plusR` are greedy;
`grp` is a (named) capture group identified by a number; `bolR` is the
multiline `^`. -/
inductive RE where
  | eps
  | cls (p : CC)
  | catR (a b : RE)
  | altR (a b : RE)
  | starCls (p : CC)
  | plusR (a : RE)
  | grp (n : Nat) (a : RE)
  | bolR
deriving DecidableEq

/-- Matching state: the remaining input and whether the current position
is at the beginning of a line (start of input or just after `'\n'`). -/
structure MSt where
  rem : List Char
  bol : Bool
deriving DecidableEq

/-- Capture environment: group number to captured text, most recent
binding first (Python keeps the last successful capture of a group). -/
abbrev Caps := List (Nat × List Char)

abbrev MRes := List (MSt × Caps)

/-- Lookup of the most recent capture of a group. -/
def capLookup (n : Nat) : Caps → Option (List Char)
  | [] => none
  | (m, v) :: t => if m = n then some v else capLookup n t

/-- All ways a greedy character-class star can proceed from the current
input, most-consuming first (greedy backtracking order). -/
def clsRuns (p : CC) : List Char → Bool → List MSt
  | [], b => [⟨[], b⟩]
  | c :: K, b =>
    if p.test c then clsRuns p K (c = '\n') ++ [⟨c :: K, b⟩]
    else [⟨c :: K, b⟩]

/-- One structural layer of the matcher.  `deeper` resolves the
recursive occurrence of `plusR` (one fuel level down); every result list
is in backtracking priority order: the head is the match CPython's
engine would commit to first. -/
def mstep (deeper : RE → MSt → Caps → MRes) : RE → MSt → Caps → MRes
  | .eps, st, A => [(st, A)]
  | .cls p, st, A =>
    match st.rem with
    | [] => []
    | c :: K => if p.test c then [(⟨K, c = '\n'⟩, A)] else []
  | .catR a b, st, A => (mstep deeper a st A).flatMap fun r => mstep deeper b r.1 r.2
  | .altR a b, st, A => mstep deeper a st A ++ mstep deeper b st A
  | .starCls p, st, A => (clsRuns p st.rem st.bol).map fun st' => (st', A)
  | .plusR a, st, A =>
    (mstep deeper a st A).flatMap fun r => deeper (.plusR a) r.1 r.2 ++ [r]
  | .grp n a, st, A =>
    (mstep deeper a st A).map fun r =>
      (r.1, (n, st.rem.take (st.rem.length - r.1.rem.length)) :: r.2)
  | .bolR, st, A => if st.bol then [(st, A)] else []

/-- Fuel-indexed matcher.  Fuel is consumed once per `plusR` iteration,
so `input length + 2` is always enough for the patterns at hand. -/
def msplits : Nat → RE → MSt → Caps → MRes
  | 0, _, _, _ => []
  | G + 1, r, st, A => mstep (msplits G) r st A

/-- A match object: span in the scanned text plus captures. -/
structure RMatch where
  mstart : Nat
  mend : Nat
  caps : Caps
deriving DecidableEq

/-- Scanning iterator in the style of `re.finditer`: tries the pattern at
every position left to right, commits to the engine's preferred match,
resumes after each non-empty match (one character further for an empty
match). -/
def finditer (mfuel : Nat) (re : RE) (H : Nat) : Nat → MSt → List RMatch
  | 0, _ => []
  | G + 1, st =>
    match (msplits mfuel re st []).head? with
    | some r =>
      let p := H - st.rem.length
      let q := H - r.1.rem.length
      if p < q then ⟨p, q, r.2⟩ :: finditer mfuel re H G r.1
      else
        match st.rem with
        | [] => [⟨p, q, r.2⟩]
        | c :: K => ⟨p, q, r.2⟩ :: finditer mfuel re H G ⟨K, c = '\n'⟩
    | none =>
      match st.rem with
      | [] => []
      | c :: K => finditer mfuel re H G ⟨K, c = '\n'⟩

/-- Run `finditer` over a whole string with generous fuel. -/
def finditerRun (re : RE) (s : List Char) : List RMatch :=
  finditer (s.length + 2) re s.length (s.length + 1) ⟨s, true⟩

/-! Group numbers for the named groups of the two patterns. -/

def gSym : Nat := 0
def gX : Nat := 1
def gY : Nat := 2
def gZ : Nat := 3
def gNatoms : Nat := 4
def gComment : Nat := 5
def gPositions : Nat := 6

/-- `match.group(n)` — the groups read by the code always participate in
the match, so the default is never observed. -/
def groupStr (n : Nat) (m : RMatch) : List Char := (capLookup n m.caps).getD []

/-! Transcription of `pos_regex` (source lines 101–108):

```
^[ \t]*
(?P<sym>[A-Za-z]+[A-Za-z0-9]*)\s+
(?P<x> [\-|\+]?  ( \d*[\.]\d+  | \d+[\.]?\d* )  ([E | e][+|-]?\d+)? ) [ \t]+
(?P<y> ... ) [ \t]+
(?P<z> ... )
```
-/

def optR (a : RE) : RE := .altR a .eps
def plusCls (p : CC) : RE := .catR (.cls p) (.starCls p)
def chR (c : Char) : RE := .cls (.one c)

/-- `\d*[\.]\d+ | \d+[\.]?\d*` — the parenthesised mantissa alternation
of `pos_regex`. -/
def numMant : RE :=
  .altR (.catR (.starCls .digit) (.catR (chR '.') (plusCls .digit)))
        (.catR (plusCls .digit) (.catR (optR (chR '.')) (.starCls .digit)))

/-- `([E | e][+|-]?\d+)` — the exponent group shared verbatim by both
patterns. -/
def expPart : RE := .catR (.cls .expLetterC) (.catR (optR (.cls .expSignC)) (plusCls .digit))

/-- Body of each of the `x`/`y`/`z` groups: `[\-|\+]? (mantissa) (exp)?`. -/
def numField : RE := .catR (optR (.cls .signPMP)) (.catR numMant (optR expPart))

/-- `[A-Za-z]+[A-Za-z0-9]*` — the element symbol pattern. -/
def symPat : RE := .catR (plusCls .alphaC) (.starCls .alnumC)

/-- The full `pos_regex`. -/
def pos_regex : RE :=
  .catR .bolR (.catR (.starCls .sptab)
  (.catR (.grp gSym symPat) (.catR (plusCls .wsC)
  (.catR (.grp gX numField) (.catR (plusCls .sptab)
  (.catR (.grp gY numField) (.catR (plusCls .sptab)
  (.grp gZ numField))))))))

/-! Transcription of `pos_block_regex` (source lines 109–142).  Note the
precedence inside the three-fold repeated group: the alternation splits
it into `\s+ [\- | \+ ]? (\d*[\.]\d+)` versus
`(\d+[\.]?\d*)([E | e][+|-]?\d+)?` — the second alternative has no
leading whitespace and no sign, the first has no exponent. -/

/-- `\d* [\.] \d+` — first mantissa alternative of the block pattern. -/
def mantA : RE := .catR (.starCls .digit) (.catR (chR '.') (plusCls .digit))

/-- `\d+ [\.]? \d*` — second mantissa alternative of the block pattern. -/
def mantB : RE := .catR (plusCls .digit) (.catR (optR (chR '.')) (.starCls .digit))

/-- One numeric item of the `{3}` repetition. -/
def numItem : RE :=
  .altR (.catR (plusCls .wsC) (.catR (optR (.cls .signSp)) mantA))
        (.catR mantB (optR expPart))

/-- `sym (numItem){3} | \#` — the element-spec alternative of a
positions-block line. -/
def elemChoice : RE :=
  .altR (.catR symPat (.catR numItem (.catR numItem numItem))) (chR '#')

/-- `\s* ( elem | \# ) .* | \s*` — the body of one positions-block line. -/
def lineBody : RE :=
  .altR (.catR (.starCls .wsC) (.catR elemChoice (.starCls .dotC))) (.starCls .wsC)

/-- One full line of a positions block, newline included. -/
def linePat : RE := .catR lineBody (chR '\n')

/-- The full `pos_block_regex`. -/
def pos_block_regex : RE :=
  .catR .bolR (.catR (.starCls .sptab)
  (.catR (.grp gNatoms (plusCls .digit)) (.catR (.starCls .sptab) (.catR (chR '\n')
  (.catR (.grp gComment (.starCls .dotC)) (.catR (chR '\n')
  (.grp gPositions (.plusR linePat))))))))

/-! Python numeric conversions, modelled exactly over `ℚ`.  `float()`
accepts an optional sign followed by `digits [. digits] [exp]` or
`. digits [exp]` (surrounded by optional whitespace); any other input
raises `ValueError`, which the model renders as `none`. -/

def isPyWs (c : Char) : Bool := CC.wsC.test c

def digitsVal (ds : List Char) : Nat :=
  ds.foldl (fun a c => a * 10 + (c.toNat - '0'.toNat)) 0

def spanDigits : List Char → List Char × List Char
  | [] => ([], [])
  | c :: t =>
    if c.isDigit then
      let r := spanDigits t
      (c :: r.1, r.2)
    else ([], c :: t)

def pyExpNat (u : List Char) : Option Int :=
  if u ≠ [] ∧ u.all Char.isDigit then some (digitsVal u : Int) else none

def pyExpDigits : List Char → Option Int
  | [] => none
  | c :: u =>
    if c = '+' then pyExpNat u
    else if c = '-' then (pyExpNat u).map (fun n => -n)
    else pyExpNat (c :: u)

def pyExp? : List Char → Option Int
  | [] => some 0
  | c :: t => if c = 'e' ∨ c = 'E' then pyExpDigits t else none

/-- Exact value of the decimal literal `ip . fp × 10^e` as a rational
(written with `mkRat` over integers so that it evaluates by kernel
reduction). -/
def decimalValue (ip fp : List Char) (e : Int) : ℚ :=
  let m : Nat := digitsVal ip * 10 ^ fp.length + digitsVal fp
  if 0 ≤ e then mkRat ((m : Int) * (10 : Int) ^ e.toNat) (10 ^ fp.length)
  else mkRat (m : Int) (10 ^ fp.length * 10 ^ (-e).toNat)

def pyFloatCore? (s : List Char) : Option ℚ :=
  let ip := spanDigits s
  match ip.2 with
  | c :: r2 =>
    if c = '.' then
      let fp := spanDigits r2
      if ip.1 = [] ∧ fp.1 = [] then none
      else
        match pyExp? fp.2 with
        | some e => some (decimalValue ip.1 fp.1 e)
        | none => none
    else if ip.1 = [] then none
    else
      match pyExp? (c :: r2) with
      | some e => some (decimalValue ip.1 [] e)
      | none => none
  | [] =>
    if ip.1 = [] then none
    else some (decimalValue ip.1 [] 0)

def trimWs (s : List Char) : List Char :=
  ((s.dropWhile isPyWs).reverse.dropWhile isPyWs).reverse

/-- Exact model of Python `float(str)`: `none` means `ValueError`. -/
def pyFloat? (s : List Char) : Option ℚ :=
  match trimWs s with
  | [] => none
  | c :: t =>
    if c = '+' then pyFloatCore? t
    else if c = '-' then (pyFloatCore? t).map Neg.neg
    else pyFloatCore? (c :: t)

/-- Model of Python `int(str)` on the strings reaching it here (captures
of `[0-9]+`): `none` means `ValueError`. -/
def pyInt? (s : List Char) : Option Nat :=
  if s ≠ [] ∧ s.all Char.isDigit then some (digitsVal s) else none

/-! The arity-checking iterator (`BlockIterator`) and its pull
semantics, and the generator body of `xyz_parser_iterator`. -/

/-- The errors the drain of one frame can surface: the two `TypeError`s
of `BlockIterator.__next__` (named as in the specification) and the
`ValueError` of a failed `float()` conversion. -/
inductive XYZError where
  | underpopulated (seen declared : Nat)
  | overpopulated (seen declared : Nat)
  | floatError
deriving DecidableEq

/-- One atom record `(symbol, (x, y, z))`, with the per-atom match
object appended when requested. -/
structure AtomRecord where
  sym : List Char
  x : ℚ
  y : ℚ
  z : ℚ
  matchObj : Option RMatch
deriving DecidableEq

/-- State of `BlockIterator`: remaining matches of
`pos_regex.finditer(positions)`, the declared count, the running count
and the match-object flag. -/
structure BlockIterator where
  it : List RMatch
  natoms : Nat
  catom : Nat
  include_match_object : Bool
deriving DecidableEq

/-- Outcome of one `__next__` call: a yielded record, `StopIteration`,
or a raised error. -/
inductive PullResult where
  | item (r : AtomRecord)
  | stopIter
  | err (e : XYZError)
deriving DecidableEq

/-- Building the yielded tuple from a match: `float()` is applied to the
`x`, `y`, `z` captures and its failure propagates. -/
def recordOf (inc : Bool) (m : RMatch) : Option AtomRecord :=
  match pyFloat? (groupStr gX m), pyFloat? (groupStr gY m), pyFloat? (groupStr gZ m) with
  | some xv, some yv, some zv =>
    some ⟨groupStr gSym m, xv, yv, zv, if inc then some m else none⟩
  | _, _, _ => none

/-- `BlockIterator.__next__`: on exhaustion, `StopIteration` when the
counts agree and the "smaller than" `TypeError` otherwise; on a match,
the count is incremented first, the "larger than" `TypeError` is raised
when it exceeds the declared count, and only then are the fields
converted. -/
def BlockIterator.next : BlockIterator → PullResult × BlockIterator
  | ⟨[], n, c, inc⟩ =>
    if c = n then (.stopIter, ⟨[], n, c, inc⟩)
    else (.err (.underpopulated c n), ⟨[], n, c, inc⟩)
  | ⟨m :: K, n, c, inc⟩ =>
    if n < c + 1 then (.err (.overpopulated (c + 1) n), ⟨K, n, c + 1, inc⟩)
    else
      match recordOf inc m with
      | some r => (.item r, ⟨K, n, c + 1, inc⟩)
      | none => (.err .floatError, ⟨K, n, c + 1, inc⟩)

def drainGo : Nat → BlockIterator → List AtomRecord × Option XYZError
  | 0, _ => ([], none)
  | G + 1, b =>
    match b.next with
    | (.stopIter, _) => ([], none)
    | (.err e, _) => ([], some e)
    | (.item r, b') =>
      let p := drainGo G b'
      (r :: p.1, p.2)

/-- Draining a frame's atom sequence: pull until `StopIteration` (no
error) or the first raised error. -/
def BlockIterator.drain (b : BlockIterator) : List AtomRecord × Option XYZError :=
  drainGo (b.it.length + 1) b

/-- The outcomes of the first `k` pulls (a consumer that keeps calling
`next`). -/
def pullsGo : Nat → BlockIterator → List PullResult
  | 0, _ => []
  | k + 1, b =>
    let p := b.next
    p.1 :: pullsGo k p.2

/-- Does a pull outcome raise one of the two arity errors? -/
def isArityError : PullResult → Bool
  | .err (.underpopulated _ _) => true
  | .err (.overpopulated _ _) => true
  | _ => false

/-- One yielded frame tuple.  The source appends the frame's match
object in BOTH branches of `include_match_object`, so the model carries
it unconditionally. -/
structure Frame where
  natoms : Nat
  comment : List Char
  atomiter : BlockIterator
  blockMatch : RMatch
deriving DecidableEq

/-- Construction of a frame from a block match: `int()` on the `natoms`
capture (its failure would propagate out of the generator), the comment
capture verbatim, and a fresh `BlockIterator` over
`pos_regex.finditer(positions)`. -/
def frameOfBlock (inc : Bool) (block : RMatch) : Option Frame :=
  match pyInt? (groupStr gNatoms block) with
  | some n =>
    some ⟨n, groupStr gComment block,
          ⟨finditerRun pos_regex (groupStr gPositions block), n, 0, inc⟩, block⟩
  | none => none

/-- The generator `xyz_parser_iterator`: one tuple per block match of
`pos_block_regex.finditer(string)`, in order.  A `none` element marks an
error escaping the generator at that frame. -/
def xyz_parser_iterator (s : List Char) (include_match_object : Bool) : List (Option Frame) :=
  (finditerRun pos_block_regex s).map (frameOfBlock include_match_object)

/-- The `i`-th yielded tuple of a parse (`none` when out of range or when
the construction of that frame raised). -/
def frameAt (s : List Char) (inc : Bool) (i : Nat) : Option Frame :=
  (xyz_parser_iterator s inc).getD i none

/-! Families of well-formed inputs used to state the universally
quantified properties: an atom line `sym i1.f1 i2.f2 i3.f3\n`, a
whitespace-only line, and a `#`-comment line. -/

/-- A non-empty string of decimal digits. -/
def digitsOk (l : List Char) : Prop := l ≠ [] ∧ l.all Char.isDigit = true

/-- Specification of one simple atom line: a symbol and three numbers,
each number written `ipart.fpart`. -/
structure AtomSpec where
  sym : List Char
  i1 : List Char
  f1 : List Char
  i2 : List Char
  f2 : List Char
  i3 : List Char
  f3 : List Char
deriving DecidableEq

def AtomSpec.ok (a : AtomSpec) : Prop :=
  a.sym ≠ [] ∧ a.sym.all Char.isAlpha = true ∧
  digitsOk a.i1 ∧ digitsOk a.f1 ∧ digitsOk a.i2 ∧ digitsOk a.f2 ∧
  digitsOk a.i3 ∧ digitsOk a.f3

/-- The text `ipart.fpart` of one numeric field. -/
def numTok (i f : List Char) : List Char := i ++ '.' :: f

/-- The rendered atom line, newline terminated. -/
def AtomSpec.line (a : AtomSpec) : List Char :=
  a.sym ++ ' ' :: (numTok a.i1 a.f1 ++ ' ' :: (numTok a.i2 a.f2 ++ ' ' :: (numTok a.i3 a.f3 ++ ['\n'])))

/-- The exact rational value of `ipart.fpart` (what `float()` returns on
it, in the exact model). -/
def numValQ (i f : List Char) : ℚ :=
  mkRat ((digitsVal i * 10 ^ f.length + digitsVal f : Nat) : Int) (10 ^ f.length)

/-- The atom record the parser is expected to produce for this line
(match objects not requested). -/
def AtomSpec.record (a : AtomSpec) : AtomRecord :=
  ⟨a.sym, numValQ a.i1 a.f1, numValQ a.i2 a.f2, numValQ a.i3 a.f3, none⟩

/-- One line of a positions block: an atom line, a whitespace-only line,
or a `#`-comment line. -/
inductive PLine where
  | atomL (a : AtomSpec)
  | blankL (ws : List Char)
  | hashL (lead tl : List Char)
deriving DecidableEq

def PLine.render : PLine → List Char
  | .atomL a => a.line
  | .blankL ws => ws ++ ['\n']
  | .hashL lead tl => lead ++ '#' :: (tl ++ ['\n'])

def PLine.ok : PLine → Prop
  | .atomL a => a.ok
  | .blankL ws => ws.all CC.sptab.test = true
  | .hashL lead tl => lead.all CC.sptab.test = true ∧ tl.all CC.dotC.test = true

/-- The atom specs contributed by a line (empty for blank/comment
lines). -/
def PLine.atoms : PLine → List AtomSpec
  | .atomL a => [a]
  | .blankL _ => []
  | .hashL _ _ => []

/-- Rendering of a whole positions block. -/
def linesRender (ls : List PLine) : List Char := (ls.map PLine.render).flatten

/-- A whole single-frame input: count line, comment line, positions
block. -/
def frameText (natStr comment : List Char) (ls : List PLine) : List Char :=
  natStr ++ '\n' :: (comment ++ '\n' :: linesRender ls)

/-- The rendered atom line without its terminating newline (used for the
inputs whose final line is unterminated). -/
def AtomSpec.lineNoNl (a : AtomSpec) : List Char :=
  a.sym ++ ' ' :: (numTok a.i1 a.f1 ++ ' ' :: (numTok a.i2 a.f2 ++ ' ' :: numTok a.i3 a.f3))

/-- Conditions under which the scan after a positions block cannot
continue it: end of input, a digit-led line (the next frame's count
line), or text containing no newline at all. -/
def RestStop (r : List Char) : Prop :=
  r = [] ∨ (∃ c t, r = c :: t ∧ c.isDigit = true) ∨ ¬ '\n' ∈ r

/-- A backtracking alternative whose remaining input starts with a digit
or a dot: such alternatives are discarded by the `[ \t]+` that follows
the `x`/`y` groups. -/
def BadHead (z : MSt × Caps) : Prop :=
  ∃ c cs, z.1.rem = c :: cs ∧ (c.isDigit = true ∨ c = '.')

/-- Whether a line is whitespace-only. -/
def PLine.isBlank : PLine → Bool
  | .blankL _ => true
  | _ => false

/-- A comment line may contain anything but a newline. -/
def commentOk (c : List Char) : Prop := c.all CC.dotC.test = true

instance (l : List Char) : Decidable (digitsOk l) := by
  unfold digitsOk
  infer_instance

instance (a : AtomSpec) : Decidable a.ok := by
  unfold AtomSpec.ok
  infer_instance

instance (l : PLine) : Decidable l.ok := by
  cases l with
  | atomL a =>
    simp only [PLine.ok]
    infer_instance
  | blankL ws =>
    simp only [PLine.ok]
    infer_instance
  | hashL lead tl =>
    simp only [PLine.ok]
    infer_instance

instance (c : List Char) : Decidable (commentOk c) := by
  unfold commentOk
  infer_instance

/-! Concrete inputs used in the evidence theorems below. -/

/-- The water-monomer example of the specification. -/
def waterInput : List Char :=
  "2\nwater monomer\nO 0.000 0.000 0.000\nH 0.000 0.000 0.957\n".data

/-- One declared atom; two lines, the first with `|` signs (accepted by
both grammars, `|1.0` is not float-parseable). -/
def pipeSignOverInput : List Char := "1\nc\nH |1.0 |2.0 |3.0\nH 1.0 2.0 3.0\n".data

/-- Two declared atoms; one `|`-signed line. -/
def pipeSignUnderInput : List Char := "2\nc\nH |1.0 |2.0 |3.0\n".data

/-- Five declared atoms, only two lines. -/
def shortFrameInput : List Char := "5\nc\nH 1.0 2.0 3.0\nH 1.5 2.5 3.5\n".data

/-- Positions-block texts used for concrete `BlockIterator` witnesses. -/
def oneAtomLine : List Char := "H 1.0 2.0 3.0\n".data

def twoAtomLines : List Char := "H 1.0 2.0 3.0\nHe 1.5 2.5 3.5\n".data

/-! Engine soundness: every result the matcher produces consumes a
prefix of the input that belongs to the language of the pattern, and
every capture it reports is a word of the language of that group's
body.  These lemmas hold for every fuel value (insufficient fuel only
truncates the result list, it never fabricates results). -/

/-- Language semantics of the regex AST (the `bolR` anchor is treated as
accepting the empty word: for soundness an over-approximation is
enough). -/
inductive InL : RE → List Char → Prop where
  | eps : InL .eps []
  | cls {p : CC} {c : Char} : p.test c = true → InL (.cls p) [c]
  | catI {a b : RE} {s t : List Char} : InL a s → InL b t → InL (.catR a b) (s ++ t)
  | altL {a b : RE} {s : List Char} : InL a s → InL (.altR a b) s
  | altRt {a b : RE} {s : List Char} : InL b s → InL (.altR a b) s
  | starNil {p : CC} : InL (.starCls p) []
  | starCons {p : CC} {c : Char} {s : List Char} :
      p.test c = true → InL (.starCls p) s → InL (.starCls p) (c :: s)
  | plusOne {a : RE} {s : List Char} : InL a s → InL (.plusR a) s
  | plusMore {a : RE} {s t : List Char} :
      InL a s → InL (.plusR a) t → InL (.plusR a) (s ++ t)
  | grpI {n : Nat} {a : RE} {s : List Char} : InL a s → InL (.grp n a) s
  | bolI : InL .bolR []

/-- `GroupOf r n b`: the pattern `r` contains a capture group numbered
`n` with body `b`. -/
inductive GroupOf : RE → Nat → RE → Prop where
  | here {n : Nat} {a : RE} : GroupOf (.grp n a) n a
  | inGrp {m : Nat} {a : RE} {n : Nat} {b : RE} : GroupOf a n b → GroupOf (.grp m a) n b
  | catL {a b : RE} {n : Nat} {c : RE} : GroupOf a n c → GroupOf (.catR a b) n c
  | catRt {a b : RE} {n : Nat} {c : RE} : GroupOf b n c → GroupOf (.catR a b) n c
  | altLt {a b : RE} {n : Nat} {c : RE} : GroupOf a n c → GroupOf (.altR a b) n c
  | altRtt {a b : RE} {n : Nat} {c : RE} : GroupOf b n c → GroupOf (.altR a b) n c
  | plusI {a : RE} {n : Nat} {c : RE} : GroupOf a n c → GroupOf (.plusR a) n c

/-- Computable list of the capture groups of a pattern. -/
def groupsIn : RE → List (Nat × RE)
  | .eps => []
  | .cls _ => []
  | .starCls _ => []
  | .bolR => []
  | .catR a b => groupsIn a ++ groupsIn b
  | .altR a b => groupsIn a ++ groupsIn b
  | .plusR a => groupsIn a
  | .grp n a => (n, a) :: groupsIn a

theorem groupOf_mem {r : RE} {n : Nat} {b : RE} (h : GroupOf r n b) :
    (n, b) ∈ groupsIn r := by
  induction h with
  | here => exact List.mem_cons_self _ _
  | inGrp _ ih => exact List.mem_cons_of_mem _ ih
  | catL _ ih => exact List.mem_append_left _ ih
  | catRt _ ih => exact List.mem_append_right _ ih
  | altLt _ ih => exact List.mem_append_left _ ih
  | altRtt _ ih => exact List.mem_append_right _ ih
  | plusI _ ih => exact ih

/-- Soundness property of one matcher result. -/
def MSpec (r : RE) (st : MSt) (A : Caps) (res : MSt × Caps) : Prop :=
  (∃ s, st.rem = s ++ res.1.rem ∧ InL r s) ∧
  (∀ n v, capLookup n res.2 = some v →
    capLookup n A = some v ∨ ∃ b, GroupOf r n b ∧ InL b v)

theorem clsRuns_sound {p : CC} {rem : List Char} {b : Bool} {st' : MSt}
    (h : st' ∈ clsRuns p rem b) :
    ∃ s, rem = s ++ st'.rem ∧ InL (.starCls p) s := by
  induction rem generalizing b with
  | nil =>
    simp only [clsRuns, List.mem_singleton] at h
    exact ⟨[], by simp [h], InL.starNil⟩
  | cons c K ih =>
    simp only [clsRuns] at h
    by_cases hc : p.test c = true
    · rw [if_pos hc] at h
      rcases List.mem_append.mp h with h1 | h2
      · obtain ⟨s, hs, hin⟩ := ih h1
        exact ⟨c :: s, by simp [hs], InL.starCons hc hin⟩
      · simp only [List.mem_singleton] at h2
        exact ⟨[], by simp [h2], InL.starNil⟩
    · rw [if_neg hc] at h
      simp only [List.mem_singleton] at h
      exact ⟨[], by simp [h], InL.starNil⟩

theorem mstep_sound
    (deeper : RE → MSt → Caps → MRes)
    (hd : ∀ a st A res, res ∈ deeper (.plusR a) st A → MSpec (.plusR a) st A res) :
    ∀ r st A res, res ∈ mstep deeper r st A → MSpec r st A res := by
  intro r
  induction r with
  | eps =>
    intro st A res h
    simp only [mstep, List.mem_singleton] at h
    subst h
    exact ⟨⟨[], by simp, InL.eps⟩, fun n v hv => Or.inl hv⟩
  | cls p =>
    intro st A res h
    rcases hrem : st.rem with _ | ⟨c, K⟩
    · simp [mstep, hrem] at h
    · by_cases hc : p.test c = true
      · simp only [mstep, hrem, hc, if_true, List.mem_singleton] at h
        subst h
        exact ⟨⟨[c], by simp [hrem], InL.cls hc⟩, fun n v hv => Or.inl hv⟩
      · simp [mstep, hrem, hc] at h
  | catR a b iha ihb =>
    intro st A res h
    simp only [mstep, List.mem_flatMap] at h
    obtain ⟨F, hmid, hres⟩ := h
    obtain ⟨⟨s1, hs1, hin1⟩, hc1⟩ := iha st A F hmid
    obtain ⟨⟨s2, hs2, hin2⟩, hc2⟩ := ihb F.1 F.2 res hres
    refine ⟨⟨s1 ++ s2, ?_, InL.catI hin1 hin2⟩, ?_⟩
    · rw [hs1, hs2, List.append_assoc]
    · intro n v hv
      rcases hc2 n v hv with h2 | ⟨bb, hg, hi⟩
      · rcases hc1 n v h2 with h1 | ⟨bb, hg, hi⟩
        · exact Or.inl h1
        · exact Or.inr ⟨bb, GroupOf.catL hg, hi⟩
      · exact Or.inr ⟨bb, GroupOf.catRt hg, hi⟩
  | altR a b iha ihb =>
    intro st A res h
    simp only [mstep, List.mem_append] at h
    rcases h with h | h
    · obtain ⟨⟨s, hs, hin⟩, hc⟩ := iha st A res h
      refine ⟨⟨s, hs, InL.altL hin⟩, fun n v hv => ?_⟩
      rcases hc n v hv with h1 | ⟨bb, hg, hi⟩
      · exact Or.inl h1
      · exact Or.inr ⟨bb, GroupOf.altLt hg, hi⟩
    · obtain ⟨⟨s, hs, hin⟩, hc⟩ := ihb st A res h
      refine ⟨⟨s, hs, InL.altRt hin⟩, fun n v hv => ?_⟩
      rcases hc n v hv with h1 | ⟨bb, hg, hi⟩
      · exact Or.inl h1
      · exact Or.inr ⟨bb, GroupOf.altRtt hg, hi⟩
  | starCls p =>
    intro st A res h
    simp only [mstep, List.mem_map] at h
    obtain ⟨st', hst', hres⟩ := h
    obtain ⟨s, hs, hin⟩ := clsRuns_sound hst'
    exact ⟨⟨s, by rw [← hres]; exact hs, hin⟩, fun n v hv => Or.inl (by rw [← hres] at hv; exact hv)⟩
  | plusR a iha =>
    intro st A res h
    simp only [mstep, List.mem_flatMap] at h
    obtain ⟨F, hmid, hres⟩ := h
    obtain ⟨⟨s1, hs1, hin1⟩, hc1⟩ := iha st A F hmid
    rcases List.mem_append.mp hres with hdeep | hstop
    · obtain ⟨⟨s2, hs2, hin2⟩, hc2⟩ := hd a F.1 F.2 res hdeep
      refine ⟨⟨s1 ++ s2, ?_, InL.plusMore hin1 hin2⟩, ?_⟩
      · rw [hs1, hs2, List.append_assoc]
      · intro n v hv
        rcases hc2 n v hv with h2 | ⟨bb, hg, hi⟩
        · rcases hc1 n v h2 with h1 | ⟨bb, hg, hi⟩
          · exact Or.inl h1
          · exact Or.inr ⟨bb, GroupOf.plusI hg, hi⟩
        · exact Or.inr ⟨bb, hg, hi⟩
    · simp only [List.mem_singleton] at hstop
      subst hstop
      refine ⟨⟨s1, hs1, InL.plusOne hin1⟩, fun n v hv => ?_⟩
      rcases hc1 n v hv with h1 | ⟨bb, hg, hi⟩
      · exact Or.inl h1
      · exact Or.inr ⟨bb, GroupOf.plusI hg, hi⟩
  | grp n a iha =>
    intro st A res h
    simp only [mstep, List.mem_map] at h
    obtain ⟨F, hmid, hres⟩ := h
    obtain ⟨⟨s, hs, hin⟩, hc⟩ := iha st A F hmid
    have htake : st.rem.take (st.rem.length - F.1.rem.length) = s := by
      rw [hs]
      simp [List.take_left]
    refine ⟨⟨s, by rw [← hres]; exact hs, InL.grpI hin⟩, ?_⟩
    intro m v hv
    rw [← hres] at hv
    simp only [capLookup] at hv
    by_cases hm : n = m
    · rw [if_pos hm] at hv
      obtain rfl := hm
      refine Or.inr ⟨a, GroupOf.here, ?_⟩
      have hveq : List.take (st.rem.length - F.1.rem.length) st.rem = v :=
        Option.some_inj.mp hv
      rw [← hveq, htake]
      exact hin
    · rw [if_neg hm] at hv
      rcases hc m v hv with h1 | ⟨bb, hg, hi⟩
      · exact Or.inl h1
      · exact Or.inr ⟨bb, GroupOf.inGrp hg, hi⟩
  | bolR =>
    intro st A res h
    by_cases hb : st.bol = true
    · simp only [mstep, hb, if_true, List.mem_singleton] at h
      subst h
      exact ⟨⟨[], by simp, InL.bolI⟩, fun n v hv => Or.inl hv⟩
    · simp [mstep, hb] at h

theorem msplits_sound :
    ∀ (G : Nat) (r : RE) (st : MSt) (A : Caps) (res : MSt × Caps),
      res ∈ msplits G r st A → MSpec r st A res := by
  intro G
  induction G with
  | zero => intro r st A res h; simp [msplits] at h
  | succ f ih =>
    intro r st A res h
    exact mstep_sound (msplits f) (fun a st' cp' res' h' => ih (.plusR a) st' cp' res' h') r st A res h

theorem mem_of_head?_eq {α : Type} {l : List α} {a : α} (h : l.head? = some a) : a ∈ l := by
  cases l with
  | nil => simp at h
  | cons x xs =>
    simp only [List.head?] at h
    exact (Option.some_inj.mp h) ▸ List.mem_cons_self x xs

/-- Every match reported by the scanner carries only captures produced by
some capture group of the pattern, on a word of that group's body. -/
theorem finditer_caps {mfuel H : Nat} {re : RE} :
    ∀ (G : Nat) (st : MSt) (m : RMatch), m ∈ finditer mfuel re H G st →
      ∀ n v, capLookup n m.caps = some v → ∃ b, GroupOf re n b ∧ InL b v := by
  intro G
  induction G with
  | zero => intro st m hm; simp [finditer] at hm
  | succ f ih =>
    intro st m hm n v hv
    simp only [finditer] at hm
    rcases hh : (msplits mfuel re st []).head? with _ | r <;> rw [hh] at hm
    · rcases hr : st.rem with _ | ⟨c, K⟩ <;> simp only [hr] at hm
      · simp at hm
      · exact ih _ m hm n v hv
    · have hrm : r ∈ msplits mfuel re st [] := mem_of_head?_eq hh
      have hms := msplits_sound mfuel re st [] r hrm
      simp only at hm
      have hemit : ∀ (hmeq : m.caps = r.2),
          ∃ b, GroupOf re n b ∧ InL b v := by
        intro hmeq
        rcases hms.2 n v (by rw [← hmeq]; exact hv) with hnil | hok
        · simp [capLookup] at hnil
        · exact hok
      by_cases hpq : H - st.rem.length < H - r.1.rem.length
      · rw [if_pos hpq] at hm
        rcases List.mem_cons.mp hm with hmeq | hm'
        · exact hemit (by rw [hmeq])
        · exact ih _ m hm' n v hv
      · rw [if_neg hpq] at hm
        rcases hr : st.rem with _ | ⟨c, K⟩ <;> simp only [hr] at hm
        · simp only [List.mem_singleton] at hm
          exact hemit (by rw [hm])
        · rcases List.mem_cons.mp hm with hmeq | hm'
          · exact hemit (by rw [hmeq])
          · exact ih _ m hm' n v hv

/-- A matcher step never drops an existing capture binding. -/
theorem mstep_caps_isSome
    (deeper : RE → MSt → Caps → MRes)
    (hd : ∀ a st A res, res ∈ deeper (.plusR a) st A →
      ∀ n, (capLookup n A).isSome = true → (capLookup n res.2).isSome = true) :
    ∀ r st A res, res ∈ mstep deeper r st A →
      ∀ n, (capLookup n A).isSome = true → (capLookup n res.2).isSome = true := by
  intro r
  induction r with
  | eps =>
    intro st A res h n hn
    simp only [mstep, List.mem_singleton] at h
    subst h; exact hn
  | cls p =>
    intro st A res h n hn
    rcases hrem : st.rem with _ | ⟨c, K⟩
    · simp [mstep, hrem] at h
    · by_cases hc : p.test c = true
      · simp only [mstep, hrem, hc, if_true, List.mem_singleton] at h
        subst h; exact hn
      · simp [mstep, hrem, hc] at h
  | catR a b iha ihb =>
    intro st A res h n hn
    simp only [mstep, List.mem_flatMap] at h
    obtain ⟨F, hmid, hres⟩ := h
    exact ihb F.1 F.2 res hres n (iha st A F hmid n hn)
  | altR a b iha ihb =>
    intro st A res h n hn
    rcases List.mem_append.mp h with h | h
    · exact iha st A res h n hn
    · exact ihb st A res h n hn
  | starCls p =>
    intro st A res h n hn
    simp only [mstep, List.mem_map] at h
    obtain ⟨st', _, hres⟩ := h
    rw [← hres]; exact hn
  | plusR a iha =>
    intro st A res h n hn
    simp only [mstep, List.mem_flatMap] at h
    obtain ⟨F, hmid, hres⟩ := h
    have hmidn := iha st A F hmid n hn
    rcases List.mem_append.mp hres with hdeep | hstop
    · exact hd a F.1 F.2 res hdeep n hmidn
    · simp only [List.mem_singleton] at hstop
      subst hstop; exact hmidn
  | grp g a iha =>
    intro st A res h n hn
    simp only [mstep, List.mem_map] at h
    obtain ⟨F, hmid, hres⟩ := h
    have hmidn := iha st A F hmid n hn
    rw [← hres]
    simp only [capLookup]
    by_cases hg : g = n
    · rw [if_pos hg]; simp
    · rw [if_neg hg]; exact hmidn
  | bolR =>
    intro st A res h n hn
    by_cases hb : st.bol = true
    · simp only [mstep, hb, if_true, List.mem_singleton] at h
      subst h; exact hn
    · simp [mstep, hb] at h

theorem msplits_caps_isSome :
    ∀ (G : Nat) (r : RE) (st : MSt) (A : Caps) (res : MSt × Caps),
      res ∈ msplits G r st A →
      ∀ n, (capLookup n A).isSome = true → (capLookup n res.2).isSome = true := by
  intro G
  induction G with
  | zero => intro r st A res h; simp [msplits] at h
  | succ f ih =>
    intro r st A res h
    exact mstep_caps_isSome (msplits f)
      (fun a st' cp' res' h' => ih (.plusR a) st' cp' res' h') r st A res h

/-! Step equations of the matcher, used to decompose runs of concrete
patterns. -/

theorem msplits_cat {f : Nat} {a b : RE} {st : MSt} {A : Caps} :
    msplits (f + 1) (.catR a b) st A
      = (msplits (f + 1) a st A).flatMap fun r => msplits (f + 1) b r.1 r.2 := rfl

theorem msplits_alt {f : Nat} {a b : RE} {st : MSt} {A : Caps} :
    msplits (f + 1) (.altR a b) st A
      = msplits (f + 1) a st A ++ msplits (f + 1) b st A := rfl

theorem msplits_grp {f : Nat} {n : Nat} {a : RE} {st : MSt} {A : Caps} :
    msplits (f + 1) (.grp n a) st A
      = (msplits (f + 1) a st A).map
          (fun r => (r.1, (n, st.rem.take (st.rem.length - r.1.rem.length)) :: r.2)) := rfl

theorem msplits_plus {f : Nat} {a : RE} {st : MSt} {A : Caps} :
    msplits (f + 1) (.plusR a) st A
      = (msplits (f + 1) a st A).flatMap
          (fun r => msplits f (.plusR a) r.1 r.2 ++ [r]) := rfl

theorem msplits_star {f : Nat} {p : CC} {st : MSt} {A : Caps} :
    msplits (f + 1) (.starCls p) st A
      = (clsRuns p st.rem st.bol).map (fun st' => (st', A)) := rfl

theorem msplits_eps {f : Nat} {st : MSt} {A : Caps} :
    msplits (f + 1) .eps st A = [(st, A)] := rfl

theorem msplits_bol {f : Nat} {st : MSt} {A : Caps} :
    msplits (f + 1) .bolR st A = if st.bol then [(st, A)] else [] := rfl

theorem msplits_cls {f : Nat} {p : CC} {st : MSt} {A : Caps} :
    msplits (f + 1) (.cls p) st A
      = match st.rem with
        | [] => []
        | c :: K => if p.test c then [(⟨K, c = '\n'⟩, A)] else [] := rfl

theorem msplits_cat_mem {f : Nat} {a b : RE} {st : MSt} {A : Caps} {res : MSt × Caps}
    (h : res ∈ msplits (f + 1) (.catR a b) st A) :
    ∃ F, F ∈ msplits (f + 1) a st A ∧ res ∈ msplits (f + 1) b F.1 F.2 := by
  rw [msplits_cat] at h
  simpa using List.mem_flatMap.mp h

/-! Inversion lemmas for the language semantics. -/

theorem inL_eps {s : List Char} (h : InL .eps s) : s = [] := by cases h; rfl

theorem inL_cls {p : CC} {s : List Char} (h : InL (.cls p) s) :
    ∃ c, s = [c] ∧ p.test c = true := by
  cases h with
  | cls hc => exact ⟨_, rfl, hc⟩

theorem inL_cat {a b : RE} {s : List Char} (h : InL (.catR a b) s) :
    ∃ u v, s = u ++ v ∧ InL a u ∧ InL b v := by
  cases h with
  | catI hu hv => exact ⟨_, _, rfl, hu, hv⟩

theorem inL_alt {a b : RE} {s : List Char} (h : InL (.altR a b) s) :
    InL a s ∨ InL b s := by
  cases h with
  | altL h => exact Or.inl h
  | altRt h => exact Or.inr h

theorem inL_grp {n : Nat} {a : RE} {s : List Char} (h : InL (.grp n a) s) : InL a s := by
  cases h with
  | grpI h => exact h

theorem inL_star_all {p : CC} {s : List Char} (h : InL (.starCls p) s) :
    ∀ c ∈ s, p.test c = true := by
  generalize hr : RE.starCls p = r at h
  induction h with
  | starNil => intro c hc; simp at hc
  | starCons hc _ ih =>
    injection hr with h1
    subst h1
    intro d hd
    rcases List.mem_cons.mp hd with rfl | hd
    · exact hc
    · exact ih rfl d hd
  | eps => simp at hr
  | cls _ => simp at hr
  | catI _ _ => simp at hr
  | altL _ => simp at hr
  | altRt _ => simp at hr
  | plusOne _ => simp at hr
  | plusMore _ _ => simp at hr
  | grpI _ => simp at hr
  | bolI => simp at hr

/-- Every match the scanner emits takes its captures from one engine
result computed with an empty initial capture environment. -/
theorem finditer_mem_msplits {mfuel H : Nat} {re : RE} :
    ∀ (G : Nat) (st : MSt) (m : RMatch), m ∈ finditer mfuel re H G st →
      ∃ st' r, r ∈ msplits mfuel re st' [] ∧ m.caps = r.2 := by
  intro G
  induction G with
  | zero => intro st m hm; simp [finditer] at hm
  | succ f ih =>
    intro st m hm
    simp only [finditer] at hm
    rcases hh : (msplits mfuel re st []).head? with _ | r <;> rw [hh] at hm
    · rcases hr : st.rem with _ | ⟨c, K⟩ <;> simp only [hr] at hm
      · simp at hm
      · exact ih _ m hm
    · have hrm : r ∈ msplits mfuel re st [] := mem_of_head?_eq hh
      simp only at hm
      by_cases hpq : H - st.rem.length < H - r.1.rem.length
      · rw [if_pos hpq] at hm
        rcases List.mem_cons.mp hm with hmeq | hm'
        · exact ⟨st, r, hrm, by rw [hmeq]⟩
        · exact ih _ m hm'
      · rw [if_neg hpq] at hm
        rcases hr : st.rem with _ | ⟨c, K⟩ <;> simp only [hr] at hm
        · simp only [List.mem_singleton] at hm
          exact ⟨st, r, hrm, by rw [hm]⟩
        · rcases List.mem_cons.mp hm with hmeq | hm'
          · exact ⟨st, r, hrm, by rw [hmeq]⟩
          · exact ih _ m hm'

theorem groupsIn_block :
    groupsIn pos_block_regex
      = [(gNatoms, plusCls .digit), (gComment, .starCls .dotC), (gPositions, .plusR linePat)] := rfl

theorem groupsIn_pos :
    groupsIn pos_regex
      = [(gSym, symPat), (gX, numField), (gY, numField), (gZ, numField)] := rfl

theorem block_groupOf_natoms {b : RE} (h : GroupOf pos_block_regex gNatoms b) :
    b = plusCls .digit := by
  have hmem := groupOf_mem h
  rw [groupsIn_block] at hmem
  simp only [List.mem_cons, List.not_mem_nil, or_false, Prod.mk.injEq] at hmem
  rcases hmem with ⟨_, hb⟩ | ⟨hg, _⟩ | ⟨hg, _⟩
  · exact hb
  · exact absurd hg (by simp [gNatoms, gComment])
  · exact absurd hg (by simp [gNatoms, gPositions])

theorem inL_plusCls_digitsOk {v : List Char} (h : InL (plusCls .digit) v) : digitsOk v := by
  obtain ⟨u, w, rfl, hu, hw⟩ := inL_cat h
  obtain ⟨c, rfl, hc⟩ := inL_cls hu
  have hall := inL_star_all hw
  constructor
  · simp
  · rw [List.all_eq_true]
    intro d hd
    rcases List.mem_append.mp hd with h1 | h2
    · obtain rfl := List.mem_singleton.mp h1
      exact hc
    · exact hall d h2

theorem pyInt_digitsOk {v : List Char} (h : digitsOk v) : pyInt? v = some (digitsVal v) := by
  unfold pyInt?
  rw [if_pos ⟨h.1, h.2⟩]

/-- The `natoms` capture of every block match is a non-empty digit
string, so `int()` on it always succeeds. -/
theorem block_natoms_ok {s : List Char} {m : RMatch}
    (hm : m ∈ finditerRun pos_block_regex s) :
    ∃ v, capLookup gNatoms m.caps = some v ∧ digitsOk v := by
  obtain ⟨st', r, hr, hcaps⟩ := finditer_mem_msplits (s.length + 1) ⟨s, true⟩ m hm
  have hsome : (capLookup gNatoms r.2).isSome = true := by
    have hr' : r ∈ msplits (s.length + 1 + 1) (.catR .bolR
        (.catR (.starCls .sptab)
        (.catR (.grp gNatoms (plusCls .digit)) (.catR (.starCls .sptab) (.catR (chR '\n')
        (.catR (.grp gComment (.starCls .dotC)) (.catR (chR '\n')
        (.grp gPositions (.plusR linePat))))))))) st' [] := hr
    obtain ⟨m1, _, h1⟩ := msplits_cat_mem hr'
    obtain ⟨m2, _, h2⟩ := msplits_cat_mem h1
    obtain ⟨m3, hm3, h3⟩ := msplits_cat_mem h2
    have hpres : (capLookup gNatoms m3.2).isSome = true := by
      rw [msplits_grp] at hm3
      obtain ⟨F, _, hres⟩ := List.mem_map.mp hm3
      rw [← hres]
      simp [capLookup]
    exact msplits_caps_isSome _ _ _ _ _ h3 gNatoms hpres
  rw [← hcaps] at hsome
  obtain ⟨v, hv⟩ := Option.isSome_iff_exists.mp hsome
  refine ⟨v, hv, ?_⟩
  obtain ⟨b, hb, hinb⟩ := finditer_caps (s.length + 1) ⟨s, true⟩ m hm gNatoms v hv
  rw [block_groupOf_natoms hb] at hinb
  exact inL_plusCls_digitsOk hinb

/-! General facts about `BlockIterator`. -/

/-- Pulling with a match available and room in the count: only a record
or a `float()` error can result, never an arity error, and the count
advances by one over the tail of the match list. -/
theorem pulls_no_arity :
    ∀ (k : Nat) (ms : List RMatch) (n c : Nat) (inc : Bool),
      k ≤ ms.length → c + k ≤ n →
      ∀ res ∈ pullsGo k ⟨ms, n, c, inc⟩, isArityError res = false := by
  intro k
  induction k with
  | zero => intro ms n c inc _ _ res hres; simp [pullsGo] at hres
  | succ k ih =>
    intro ms n c inc hlen hcnt res hres
    cases ms with
    | nil => simp at hlen
    | cons m K =>
      have hlt : ¬ n < c + 1 := by omega
      simp only [pullsGo, BlockIterator.next, if_neg hlt] at hres
      rcases hrec : recordOf inc m with _ | r <;> rw [hrec] at hres <;>
        simp only [List.mem_cons] at hres
      · rcases hres with rfl | hres
        · rfl
        · exact ih K n (c + 1) inc (by simpa using hlen) (by omega) res hres
      · rcases hres with rfl | hres
        · rfl
        · exact ih K n (c + 1) inc (by simpa using hlen) (by omega) res hres

/-- Draining an underpopulated match list (all conversions succeeding):
all real records come out, then the "smaller than" error with the exact
counts. -/
theorem drain_under :
    ∀ (ms : List RMatch) (n c : Nat) (inc : Bool) (G : Nat),
      ms.length + 1 ≤ G → c + ms.length < n →
      (∀ m ∈ ms, (recordOf inc m).isSome = true) →
      ∃ recs, drainGo G ⟨ms, n, c, inc⟩ = (recs, some (.underpopulated (c + ms.length) n))
        ∧ recs.length = ms.length := by
  intro ms
  induction ms with
  | nil =>
    intro n c inc G hfuel hcnt _
    rcases G with _ | f
    · omega
    have hne : ¬ c = n := by omega
    refine ⟨[], ?_, rfl⟩
    simp [drainGo, BlockIterator.next, hne]
  | cons m K ih =>
    intro n c inc G hfuel hcnt hok
    rcases G with _ | f
    · omega
    have hlt : ¬ n < c + 1 := by simp only [List.length_cons] at hcnt; omega
    obtain ⟨r, hr⟩ := Option.isSome_iff_exists.mp (hok m (List.mem_cons_self m K))
    obtain ⟨recs, hrec, hlen⟩ := ih n (c + 1) inc f (by simpa using hfuel)
      (by simp only [List.length_cons] at hcnt; omega)
      (fun m' hm' => hok m' (List.mem_cons_of_mem m hm'))
    refine ⟨r :: recs, ?_, by simp [hlen]⟩
    simp only [drainGo, BlockIterator.next, if_neg hlt, hr]
    simp only [hrec, List.length_cons]
    have : c + 1 + K.length = c + (K.length + 1) := by omega
    rw [this]

/-- Draining an overpopulated match list (conversions of the consumed
records succeeding): the first `n - c` records come out and the pull of
the next one raises the "larger than" error with counts `(n+1, n)`;
matches past the `(n - c + 1)`-th are never consumed. -/
theorem drain_over :
    ∀ (ms : List RMatch) (n c : Nat) (inc : Bool) (G : Nat),
      ms.length + 1 ≤ G → c ≤ n → n - c < ms.length →
      (∀ m ∈ ms.take (n - c), (recordOf inc m).isSome = true) →
      ∃ recs,
        drainGo G ⟨ms, n, c, inc⟩ = (recs, some (.overpopulated (n + 1) n))
        ∧ recs.length = n - c
        ∧ drainGo G ⟨ms.take (n - c + 1), n, c, inc⟩
            = (recs, some (.overpopulated (n + 1) n)) := by
  intro ms
  induction ms with
  | nil => intro n c inc G _ _ hover _; simp at hover
  | cons m K ih =>
    intro n c inc G hfuel hcn hover hok
    rcases G with _ | f
    · omega
    by_cases hceq : c = n
    · subst hceq
      have hlt : c < c + 1 := by omega
      refine ⟨[], ?_, by simp, ?_⟩
      · simp [drainGo, BlockIterator.next, hlt]
      · simp only [Nat.sub_self, Nat.zero_add, List.take_succ_cons, List.take_zero]
        simp [drainGo, BlockIterator.next, hlt]
    · have hcn' : c < n := lt_of_le_of_ne hcn hceq
      have hlt : ¬ n < c + 1 := by omega
      have hnc : n - c = (n - (c + 1)) + 1 := by omega
      have htk : (m :: K).take (n - c) = m :: K.take (n - (c + 1)) := by
        rw [hnc, List.take_succ_cons]
      obtain ⟨r, hr⟩ := Option.isSome_iff_exists.mp
        (hok m (by rw [htk]; exact List.mem_cons_self _ _))
      obtain ⟨recs, hrec, hlen, htake⟩ := ih n (c + 1) inc f (by simpa using hfuel)
        (by omega) (by simp only [List.length_cons] at hover; omega)
        (fun m' hm' => hok m' (by rw [htk]; exact List.mem_cons_of_mem m hm'))
      refine ⟨r :: recs, ?_, ?_, ?_⟩
      · simp only [drainGo, BlockIterator.next, if_neg hlt, hr, hrec]
      · simp only [List.length_cons, hlen]
        omega
      · have htk1 : (m :: K).take (n - c + 1) = m :: K.take (n - (c + 1) + 1) := by
          rw [hnc, List.take_succ_cons]
        rw [htk1]
        simp only [drainGo, BlockIterator.next, if_neg hlt, hr, htake]

/-- A drain that terminates without error consumed every match as a
record and ended with counts agreeing. -/
theorem drain_none_counts :
    ∀ (ms : List RMatch) (n c : Nat) (inc : Bool) (G : Nat) (recs : List AtomRecord),
      drainGo G ⟨ms, n, c, inc⟩ = (recs, none) → ms.length + 1 ≤ G →
      c + ms.length = n := by
  intro ms
  induction ms with
  | nil =>
    intro n c inc G recs hdr hfuel
    rcases G with _ | f
    · omega
    by_cases hc : c = n
    · simpa using hc
    · simp [drainGo, BlockIterator.next, hc] at hdr
  | cons m K ih =>
    intro n c inc G recs hdr hfuel
    rcases G with _ | f
    · omega
    by_cases hlt : n < c + 1
    · simp [drainGo, BlockIterator.next, hlt] at hdr
    · rcases hrec : recordOf inc m with _ | r
      · simp [drainGo, BlockIterator.next, hlt, hrec] at hdr
      · simp only [drainGo, BlockIterator.next, if_neg hlt, hrec] at hdr
        have := ih n (c + 1) inc f (drainGo f ⟨K, n, c + 1, inc⟩).1 (by
          have h2 := congrArg Prod.snd hdr
          simp at h2
          exact Prod.ext rfl h2) (by simpa using hfuel)
        simp only [List.length_cons]
        omega

/-- Draining a match list whose records are exactly `rs`, with counts
matching: normal termination with exactly those records. -/
theorem drain_exact :
    ∀ (ms : List RMatch) (rs : List AtomRecord) (n c : Nat) (inc : Bool) (G : Nat),
      ms.length + 1 ≤ G → c + ms.length = n →
      List.Forall₂ (fun m r => recordOf inc m = some r) ms rs →
      drainGo G ⟨ms, n, c, inc⟩ = (rs, none) := by
  intro ms
  induction ms with
  | nil =>
    intro rs n c inc G hfuel hcnt hall
    rcases G with _ | f
    · omega
    cases hall
    have hc : c = n := by simpa using hcnt
    simp [drainGo, BlockIterator.next, hc]
  | cons m K ih =>
    intro rs n c inc G hfuel hcnt hall
    rcases G with _ | f
    · omega
    cases hall with
    | cons hmr htail =>
      have hlt : ¬ n < c + 1 := by simp only [List.length_cons] at hcnt; omega
      simp only [drainGo, BlockIterator.next, if_neg hlt, hmr]
      rw [ih _ n (c + 1) inc f (by simpa using hfuel)
        (by simp only [List.length_cons] at hcnt; omega) htail]

theorem exists_forall2_records (inc : Bool) :
    ∀ ms : List RMatch, (∀ m ∈ ms, (recordOf inc m).isSome = true) →
      ∃ rs, List.Forall₂ (fun m r => recordOf inc m = some r) ms rs := by
  intro ms
  induction ms with
  | nil => exact fun _ => ⟨[], List.Forall₂.nil⟩
  | cons m K ih =>
    intro h
    obtain ⟨r, hr⟩ := Option.isSome_iff_exists.mp (h m (List.mem_cons_self m K))
    obtain ⟨rs, hrs⟩ := ih (fun m' hm' => h m' (List.mem_cons_of_mem m hm'))
    exact ⟨r :: rs, List.Forall₂.cons hr hrs⟩

/-! Evidence for the claims about the arity-checking iterator and the
top-level generator. -/

/-- C1: the source appends the frame match object to the yielded tuple
in BOTH branches of `include_match_object` (lines 157–164 yield
`(natoms, comment, BlockIterator(...), block)` in the `else` branch
too), so with the default `include_match_object=False` the yielded
"triple" still carries the frame match object — here visible as the
frame's block-match span over the whole first frame of the water
example. -/
theorem C1_match_object_always_appended :
    (xyz_parser_iterator waterInput false).map
        (fun o => o.map (fun f => (f.blockMatch.mstart, f.blockMatch.mend)))
      = [some (0, 56)] := by decide

/-- C3 (counterexample): a frame declaring five atoms over a block with
two qualifying lines; pulling only the first `k = 3 < 5` elements raises
the underpopulation arity error on the third pull. -/
theorem C3_counterexample :
    (frameAt shortFrameInput false 0).map
        (fun f => (f.natoms, (pullsGo 3 f.atomiter).map isArityError))
      = some (5, [false, false, true]) := by decide

/-- C3 (amended): pulling the first `k` elements of an atom sequence
with `k < N` raises no arity error, provided `k` also does not exceed
the number of qualifying atom lines actually present. -/
theorem C3_partial_drain_safe (ms : List RMatch) (n k : Nat) (inc : Bool)
    (hk : k < n) (hm : k ≤ ms.length) :
    ∀ res ∈ pullsGo k ⟨ms, n, 0, inc⟩, isArityError res = false :=
  pulls_no_arity k ms n 0 inc hm (by omega)

theorem C3_partial_drain_safe_witness :
    1 < 2 ∧ 1 ≤ (finditerRun pos_regex oneAtomLine).length ∧
    ∀ res ∈ pullsGo 1 ⟨finditerRun pos_regex oneAtomLine, 2, 0, false⟩,
      isArityError res = false :=
  ⟨by decide, by decide,
    C3_partial_drain_safe (finditerRun pos_regex oneAtomLine) 2 1 false
      (by decide) (by decide)⟩

/-- C4 (counterexample): a frame declaring one atom over a block with
two qualifying lines (`1 < 2`), whose first line carries `|` signs: the
drain raises the `float()` conversion error on the first pull, not the
overpopulation error on pull `N + 1`. -/
theorem C4_counterexample :
    (frameAt pipeSignOverInput false 0).map
        (fun f => (f.natoms, f.atomiter.it.length, f.atomiter.drain.2))
      = some (1, 2, some .floatError) := by decide

/-- C4 (amended): over an overpopulated match list whose first `N`
records convert successfully, the drain returns exactly `N` records and
raises the overpopulation error on the pull of record `N + 1`, before
returning it, carrying `seen = N + 1` and `declared = N`; matches past
the `(N+1)`-th are never consumed (the drain of the truncated list is
identical). -/
theorem C4_overpopulated_drain (ms : List RMatch) (n : Nat) (inc : Bool)
    (hover : n < ms.length)
    (hok : ∀ m ∈ ms.take n, (recordOf inc m).isSome = true) :
    ∃ recs,
      BlockIterator.drain ⟨ms, n, 0, inc⟩ = (recs, some (.overpopulated (n + 1) n))
      ∧ recs.length = n
      ∧ drainGo (ms.length + 1) ⟨ms.take (n + 1), n, 0, inc⟩
          = (recs, some (.overpopulated (n + 1) n)) := by
  obtain ⟨recs, h1, h2, h3⟩ := drain_over ms n 0 inc (ms.length + 1) (le_refl _)
    (Nat.zero_le n) (by simpa using hover) (by simpa using hok)
  rw [Nat.sub_zero] at h2 h3
  exact ⟨recs, by simpa [BlockIterator.drain] using h1, h2, h3⟩

theorem C4_overpopulated_drain_witness :
    1 < (finditerRun pos_regex twoAtomLines).length ∧
    (∀ m ∈ (finditerRun pos_regex twoAtomLines).take 1, (recordOf false m).isSome = true) ∧
    ∃ recs,
      BlockIterator.drain ⟨finditerRun pos_regex twoAtomLines, 1, 0, false⟩
          = (recs, some (.overpopulated 2 1))
      ∧ recs.length = 1
      ∧ drainGo ((finditerRun pos_regex twoAtomLines).length + 1)
          ⟨(finditerRun pos_regex twoAtomLines).take 2, 1, 0, false⟩
          = (recs, some (.overpopulated 2 1)) :=
  ⟨by decide, by decide,
    C4_overpopulated_drain (finditerRun pos_regex twoAtomLines) 1 false
      (by decide) (by decide)⟩

/-- C5 (counterexample): a frame declaring two atoms over a block with a
single qualifying line carrying `|` signs: the drain raises the
`float()` conversion error on the first pull instead of the
underpopulation error after the last real record. -/
theorem C5_counterexample :
    (frameAt pipeSignUnderInput false 0).map
        (fun f => (f.natoms, f.atomiter.it.length, f.atomiter.drain.2))
      = some (2, 1, some .floatError) := by decide

/-- C5 (amended): over a match list whose records all convert
successfully, an underpopulated drain returns every real record and then
raises the underpopulation error carrying `(seen, declared) =
(m, N)` with `m < N`; with matching counts the drain terminates normally;
and normal termination happens only with matching counts (no conversion
hypothesis needed for that direction). -/
theorem C5_underpopulation_and_success (ms : List RMatch) (n : Nat) (inc : Bool) :
    ((∀ m ∈ ms, (recordOf inc m).isSome = true) → ms.length < n →
      ∃ recs, BlockIterator.drain ⟨ms, n, 0, inc⟩
          = (recs, some (.underpopulated ms.length n))
        ∧ recs.length = ms.length)
    ∧ ((∀ m ∈ ms, (recordOf inc m).isSome = true) → ms.length = n →
      ∃ recs, BlockIterator.drain ⟨ms, n, 0, inc⟩ = (recs, none) ∧ recs.length = n)
    ∧ (∀ recs, BlockIterator.drain ⟨ms, n, 0, inc⟩ = (recs, none) → ms.length = n) := by
  refine ⟨?_, ?_, ?_⟩
  · intro hok hlt
    obtain ⟨recs, h1, h2⟩ := drain_under ms n 0 inc (ms.length + 1) (le_refl _)
      (by omega) hok
    rw [Nat.zero_add] at h1
    exact ⟨recs, by simpa [BlockIterator.drain] using h1, h2⟩
  · intro hok hlen
    obtain ⟨rs, hrs⟩ := exists_forall2_records inc ms hok
    refine ⟨rs, ?_, by rw [← hrs.length_eq, hlen]⟩
    have := drain_exact ms rs n 0 inc (ms.length + 1) (le_refl _) (by omega) hrs
    simpa [BlockIterator.drain] using this
  · intro recs h
    have := drain_none_counts ms n 0 inc (ms.length + 1) recs
      (by simpa [BlockIterator.drain] using h) (le_refl _)
    omega

theorem C5_underpopulation_and_success_witness :
    (∀ m ∈ finditerRun pos_regex oneAtomLine, (recordOf false m).isSome = true) ∧
    (finditerRun pos_regex oneAtomLine).length < 2 ∧
    ∃ recs, BlockIterator.drain ⟨finditerRun pos_regex oneAtomLine, 2, 0, false⟩
        = (recs, some (.underpopulated (finditerRun pos_regex oneAtomLine).length 2))
      ∧ recs.length = (finditerRun pos_regex oneAtomLine).length :=
  ⟨by decide, by decide,
    (C5_underpopulation_and_success (finditerRun pos_regex oneAtomLine) 2 false).1
      (by decide) (by decide)⟩

/-- C7: iterating the top-level frame sequence never raises: the only
conversion performed at yield time, `int()` on the `natoms` capture,
always succeeds because that capture is a non-empty digit string by
construction of the framing grammar; unmatched input contributes no
frame at all. -/
theorem C7_top_level_never_raises (s : List Char) (inc : Bool) (o : Option Frame)
    (ho : o ∈ xyz_parser_iterator s inc) : o.isSome = true := by
  unfold xyz_parser_iterator at ho
  obtain ⟨m, hm, rfl⟩ := List.mem_map.mp ho
  obtain ⟨v, hv, hdg⟩ := block_natoms_ok hm
  unfold frameOfBlock
  have hgs : groupStr gNatoms m = v := by rw [groupStr, hv]; rfl
  rw [hgs, pyInt_digitsOk hdg]
  rfl

theorem C7_top_level_never_raises_witness :
    frameAt waterInput false 0 ∈ xyz_parser_iterator waterInput false ∧
    (frameAt waterInput false 0).isSome = true :=
  ⟨by decide,
    C7_top_level_never_raises waterInput false (frameAt waterInput false 0) (by decide)⟩

/-! Character and string facts feeding the `float()` acceptance proof. -/

theorem digit_ne_of {c d : Char} (hc : c.isDigit = true) (hd : d.isDigit = false) :
    ¬ c = d := by
  intro he
  rw [he] at hc
  exact absurd hc (by simp [hd])

theorem isPyWs_digit {c : Char} (hc : c.isDigit = true) : isPyWs c = false := by
  simp only [isPyWs, CC.test, decide_eq_false_iff_not]
  rintro (rfl | rfl | rfl | rfl | rfl | rfl) <;> exact absurd hc (by decide)

theorem dropWhile_of_forall_neg {p : Char → Bool} {s : List Char}
    (h : ∀ c ∈ s, p c = false) : s.dropWhile p = s := by
  cases s with
  | nil => rfl
  | cons c t =>
    rw [List.dropWhile_cons_of_neg (by simp [h c (List.mem_cons_self c t)])]

theorem trimWs_eq_self {s : List Char} (h : ∀ c ∈ s, isPyWs c = false) : trimWs s = s := by
  unfold trimWs
  rw [dropWhile_of_forall_neg h,
    dropWhile_of_forall_neg (fun c hc => h c (List.mem_reverse.mp hc)),
    List.reverse_reverse]

theorem spanDigits_append {d r : List Char} (hd : ∀ c ∈ d, c.isDigit = true)
    (hr : ∀ c, r.head? = some c → c.isDigit = false) :
    spanDigits (d ++ r) = (d, r) := by
  induction d with
  | nil =>
    cases r with
    | nil => rfl
    | cons c t =>
      simp only [List.nil_append, spanDigits]
      rw [if_neg (by simp [hr c rfl])]
  | cons c d' ih =>
    simp only [List.cons_append, spanDigits, List.append_eq]
    rw [if_pos (hd c (List.mem_cons_self _ _)),
      ih (fun x hx => hd x (List.mem_cons_of_mem _ hx))]

theorem pyExpNat_ok {d : List Char} (h : digitsOk d) :
    pyExpNat d = some (digitsVal d : Int) := by
  unfold pyExpNat
  rw [if_pos ⟨h.1, h.2⟩]

theorem pyExpDigits_ok {sg2 d3 : List Char}
    (hsg : sg2 = [] ∨ sg2 = ['+'] ∨ sg2 = ['-']) (hd : digitsOk d3) :
    ∃ e, pyExpDigits (sg2 ++ d3) = some e := by
  rcases hsg with rfl | rfl | rfl
  · rcases hd3 : d3 with _ | ⟨c, u⟩
    · exact absurd hd3 hd.1
    · have hcd : c.isDigit = true := by
        have := hd.2
        rw [hd3] at this
        simp only [List.all_cons, Bool.and_eq_true] at this
        exact this.1
      simp only [List.nil_append, hd3, pyExpDigits]
      rw [if_neg (digit_ne_of hcd (by decide)), if_neg (digit_ne_of hcd (by decide)),
        ← hd3, pyExpNat_ok hd]
      exact ⟨_, rfl⟩
  · refine ⟨(digitsVal d3 : Int), ?_⟩
    simp [pyExpDigits, pyExpNat_ok hd]
  · refine ⟨-(digitsVal d3 : Int), ?_⟩
    simp [pyExpDigits, pyExpNat_ok hd]

/-- Shape of an exponent suffix as produced by the `([E | e][+|-]?\d+)?`
group, restricted to captures without `'|'` and `' '`. -/
def ExpShape (ex : List Char) : Prop :=
  ex = [] ∨ ∃ L sg2 d3, ex = L :: (sg2 ++ d3)
    ∧ (L = 'E' ∨ L = 'e') ∧ (sg2 = [] ∨ sg2 = ['+'] ∨ sg2 = ['-']) ∧ digitsOk d3

theorem pyExp_ok {ex : List Char} (hex : ExpShape ex) : ∃ e, pyExp? ex = some e := by
  rcases hex with rfl | ⟨L, sg2, d3, rfl, hL, hsg, hd⟩
  · exact ⟨0, rfl⟩
  · obtain ⟨e, he⟩ := pyExpDigits_ok hsg hd
    refine ⟨e, ?_⟩
    simp only [pyExp?]
    rw [if_pos (by rcases hL with rfl | rfl <;> simp), he]

theorem expShape_head_not_digit {ex : List Char} (hex : ExpShape ex) :
    ∀ c, ex.head? = some c → c.isDigit = false := by
  rcases hex with rfl | ⟨L, sg2, d3, rfl, hL, _, _⟩
  · intro c hc; simp at hc
  · intro c hc
    simp only [List.head?] at hc
    obtain rfl := Option.some_inj.mp hc
    rcases hL with rfl | rfl <;> decide

theorem pyFloatCore_dotted {d1 d2 ex : List Char}
    (h1 : ∀ c ∈ d1, c.isDigit = true) (h2 : ∀ c ∈ d2, c.isDigit = true)
    (hne : d1 ≠ [] ∨ d2 ≠ []) (hex : ExpShape ex) :
    ∃ q, pyFloatCore? (d1 ++ '.' :: (d2 ++ ex)) = some q := by
  obtain ⟨e, he⟩ := pyExp_ok hex
  have hdotnd : ∀ c, ('.' :: (d2 ++ ex)).head? = some c → c.isDigit = false := by
    intro c hc
    simp only [List.head?] at hc
    obtain rfl := Option.some_inj.mp hc
    decide
  have hspan1 : spanDigits (d1 ++ '.' :: (d2 ++ ex)) = (d1, '.' :: (d2 ++ ex)) :=
    spanDigits_append h1 hdotnd
  have hspan2 : spanDigits (d2 ++ ex) = (d2, ex) :=
    spanDigits_append h2 (expShape_head_not_digit hex)
  simp only [pyFloatCore?, hspan1]
  rw [if_pos trivial]
  simp only [hspan2]
  rw [if_neg (by rcases hne with h | h <;> simp [h]), he]
  exact ⟨_, rfl⟩

theorem pyFloatCore_plain {d ex : List Char}
    (h1 : ∀ c ∈ d, c.isDigit = true) (hne : d ≠ []) (hex : ExpShape ex) :
    ∃ q, pyFloatCore? (d ++ ex) = some q := by
  have hspan : spanDigits (d ++ ex) = (d, ex) :=
    spanDigits_append h1 (expShape_head_not_digit hex)
  rcases hex with rfl | ⟨L, sg2, d3, hexeq, hL, hsg, hd⟩
  · simp only [pyFloatCore?, hspan]
    rw [if_neg hne]
    exact ⟨_, rfl⟩
  · obtain ⟨e, he⟩ := pyExp_ok (Or.inr ⟨L, sg2, d3, hexeq, hL, hsg, hd⟩)
    subst hexeq
    simp only [pyFloatCore?, hspan]
    rw [if_neg (by rcases hL with rfl | rfl <;> decide), if_neg hne, he]
    exact ⟨_, rfl⟩

theorem inL_optSign_parts {sg : List Char} (h : InL (optR (.cls .signPMP)) sg) :
    sg = [] ∨ ∃ c, sg = [c] ∧ (c = '-' ∨ c = '|' ∨ c = '+') := by
  rcases inL_alt h with h1 | h1
  · obtain ⟨c, rfl, hc⟩ := inL_cls h1
    exact Or.inr ⟨c, rfl, of_decide_eq_true hc⟩
  · exact Or.inl (inL_eps h1)

theorem inL_optDot_parts {w : List Char} (h : InL (optR (chR '.')) w) :
    w = [] ∨ w = ['.'] := by
  rcases inL_alt h with h1 | h1
  · obtain ⟨c, rfl, hc⟩ := inL_cls h1
    obtain rfl := of_decide_eq_true hc
    exact Or.inr rfl
  · exact Or.inl (inL_eps h1)

theorem inL_optExp_parts {ex : List Char} (h : InL (optR expPart) ex) :
    ex = [] ∨ ∃ L sg2 d3, ex = L :: (sg2 ++ d3)
      ∧ (L = 'E' ∨ L = ' ' ∨ L = '|' ∨ L = 'e')
      ∧ (sg2 = [] ∨ ∃ c2, sg2 = [c2] ∧ (c2 = '+' ∨ c2 = '|' ∨ c2 = '-'))
      ∧ digitsOk d3 := by
  rcases inL_alt h with h1 | h1
  · obtain ⟨u, v, rfl, hu, hv⟩ := inL_cat h1
    obtain ⟨L, rfl, hL⟩ := inL_cls hu
    obtain ⟨sg2, d3, rfl, hsg2, hd3⟩ := inL_cat hv
    refine Or.inr ⟨L, sg2, d3, rfl, of_decide_eq_true hL, ?_, inL_plusCls_digitsOk hd3⟩
    rcases inL_alt hsg2 with h2 | h2
    · obtain ⟨c2, rfl, hc2⟩ := inL_cls h2
      exact Or.inr ⟨c2, rfl, of_decide_eq_true hc2⟩
    · exact Or.inl (inL_eps h2)
  · exact Or.inl (inL_eps h1)

theorem inL_numMant_parts {mn : List Char} (h : InL numMant mn) :
    ∃ d1 dot d2, mn = d1 ++ dot ++ d2
      ∧ (∀ c ∈ d1, c.isDigit = true) ∧ (∀ c ∈ d2, c.isDigit = true)
      ∧ ((dot = ['.'] ∧ (d1 ≠ [] ∨ d2 ≠ [])) ∨ (dot = [] ∧ d1 ≠ [])) := by
  rcases inL_alt h with h1 | h1
  · obtain ⟨d1, v, rfl, hd1, hv⟩ := inL_cat h1
    obtain ⟨w, d2, rfl, hw, hd2⟩ := inL_cat hv
    obtain ⟨c, rfl, hc⟩ := inL_cls hw
    obtain rfl := of_decide_eq_true hc
    obtain ⟨hne2, hall2⟩ := inL_plusCls_digitsOk hd2
    refine ⟨d1, ['.'], d2, by simp, inL_star_all hd1, ?_, Or.inl ⟨rfl, Or.inr hne2⟩⟩
    intro x hx
    exact List.all_eq_true.mp hall2 x hx
  · obtain ⟨d1, v, rfl, hd1, hv⟩ := inL_cat h1
    obtain ⟨w, d2, rfl, hw, hd2⟩ := inL_cat hv
    obtain ⟨hne1, hall1⟩ := inL_plusCls_digitsOk hd1
    refine ⟨d1, w, d2, by simp, ?_, inL_star_all hd2, ?_⟩
    · intro x hx
      exact List.all_eq_true.mp hall1 x hx
    · rcases inL_optDot_parts hw with rfl | rfl
      · exact Or.inr ⟨rfl, hne1⟩
      · exact Or.inl ⟨rfl, Or.inl hne1⟩

/-- Core of the amended numeric-capture claim: a word of the `x`/`y`/`z`
group language containing neither `'|'` nor `' '` is accepted by
`float()`. -/
theorem inL_numField_float {v : List Char}
    (h : InL numField v) (hbar : ¬ '|' ∈ v) (hsp : ¬ ' ' ∈ v) :
    ∃ q, pyFloat? v = some q := by
  obtain ⟨sg, v1, rfl, hsg, hv1⟩ := inL_cat h
  obtain ⟨mn, ex, rfl, hmn, hex⟩ := inL_cat hv1
  -- normalise the sign
  have hsg' : sg = [] ∨ sg = ['-'] ∨ sg = ['+'] := by
    rcases inL_optSign_parts hsg with rfl | ⟨c, rfl, hc | hc | hc⟩
    · exact Or.inl rfl
    · exact Or.inr (Or.inl (by rw [hc]))
    · exact absurd (by simp [hc] : '|' ∈ [c] ++ (mn ++ ex)) hbar
    · exact Or.inr (Or.inr (by rw [hc]))
  -- normalise the exponent
  have hex' : ExpShape ex := by
    rcases inL_optExp_parts hex with rfl | ⟨L, sg2, d3, rfl, hL, hsg2, hd3⟩
    · exact Or.inl rfl
    have hLmem : L ∈ sg ++ (mn ++ (L :: (sg2 ++ d3))) := by simp
    have hL' : L = 'E' ∨ L = 'e' := by
      rcases hL with rfl | rfl | rfl | rfl
      · exact Or.inl rfl
      · exact absurd hLmem hsp
      · exact absurd hLmem hbar
      · exact Or.inr rfl
    have hsg2' : sg2 = [] ∨ sg2 = ['+'] ∨ sg2 = ['-'] := by
      rcases hsg2 with rfl | ⟨c2, rfl, hc2 | hc2 | hc2⟩
      · exact Or.inl rfl
      · exact Or.inr (Or.inl (by rw [hc2]))
      · refine absurd ?_ hbar
        rw [hc2]
        simp
      · exact Or.inr (Or.inr (by rw [hc2]))
    exact Or.inr ⟨L, sg2, d3, rfl, hL', hsg2', hd3⟩
  -- the mantissa-plus-exponent core is accepted
  obtain ⟨d1, dot, d2, rfl, hd1, hd2, hdot⟩ := inL_numMant_parts hmn
  have hcore : ∃ q, pyFloatCore? ((d1 ++ dot ++ d2) ++ ex) = some q := by
    rcases hdot with ⟨rfl, hne⟩ | ⟨rfl, hne⟩
    · have : (d1 ++ ['.'] ++ d2) ++ ex = d1 ++ '.' :: (d2 ++ ex) := by simp
      rw [this]
      exact pyFloatCore_dotted hd1 hd2 hne hex'
    · have : (d1 ++ [] ++ d2) ++ ex = (d1 ++ d2) ++ ex := by simp
      rw [this]
      refine pyFloatCore_plain ?_ (by simp [hne]) hex'
      intro c hc
      rcases List.mem_append.mp hc with h1 | h2
      · exact hd1 c h1
      · exact hd2 c h2
  -- characters of the core are never whitespace
  have hnws : ∀ c ∈ (d1 ++ dot ++ d2) ++ ex, isPyWs c = false := by
    intro c hc
    rcases List.mem_append.mp hc with hcm | hcex
    · rcases List.mem_append.mp hcm with hcm1 | hcm2
      · rcases List.mem_append.mp hcm1 with hc1 | hcdot
        · exact isPyWs_digit (hd1 c hc1)
        · rcases hdot with ⟨rfl, _⟩ | ⟨rfl, _⟩
          · obtain rfl := List.mem_singleton.mp hcdot
            decide
          · simp at hcdot
      · exact isPyWs_digit (hd2 c hcm2)
    · rcases hex' with rfl | ⟨L, sg2, d3, hexeq, hL, hsg2, hd3⟩
      · simp at hcex
      · rw [hexeq] at hcex
        rcases List.mem_cons.mp hcex with rfl | hctail
        · rcases hL with rfl | rfl <;> decide
        · rcases List.mem_append.mp hctail with hcs | hcd
          · rcases hsg2 with rfl | rfl | rfl
            · simp at hcs
            · obtain rfl := List.mem_singleton.mp hcs
              decide
            · obtain rfl := List.mem_singleton.mp hcs
              decide
          · exact isPyWs_digit (List.all_eq_true.mp hd3.2 c hcd)
  -- the core string is non-empty and starts with a digit or a dot
  obtain ⟨q, hq⟩ := hcore
  rcases hsg' with rfl | rfl | rfl
  · -- no sign: the head of the core is a digit or '.'
    simp only [List.nil_append]
    have htrim : trimWs ((d1 ++ dot ++ d2) ++ ex) = (d1 ++ dot ++ d2) ++ ex :=
      trimWs_eq_self hnws
    have hhead : ∃ N t0, (d1 ++ dot ++ d2) ++ ex = N :: t0
        ∧ (N.isDigit = true ∨ N = '.') := by
      rcases hd1eq : d1 with _ | ⟨N, t0⟩
      · rcases hdot with ⟨rfl, hne⟩ | ⟨rfl, hne⟩
        · exact ⟨'.', d2 ++ ex, by simp, Or.inr rfl⟩
        · exact absurd hd1eq hne
      · refine ⟨N, (t0 ++ dot ++ d2) ++ ex, by simp, Or.inl ?_⟩
        exact hd1 N (by rw [hd1eq]; exact List.mem_cons_self _ _)
    obtain ⟨N, t0, heq, hc0⟩ := hhead
    rw [heq] at htrim hq ⊢
    have hc0p : ¬ N = '+' := by
      rcases hc0 with hd | rfl
      · exact digit_ne_of hd (by decide)
      · decide
    have hc0m : ¬ N = '-' := by
      rcases hc0 with hd | rfl
      · exact digit_ne_of hd (by decide)
      · decide
    simp only [pyFloat?, htrim]
    rw [if_neg hc0p, if_neg hc0m]
    exact ⟨q, hq⟩
  · -- minus sign
    have htrim : trimWs ('-' :: ((d1 ++ dot ++ d2) ++ ex))
        = '-' :: ((d1 ++ dot ++ d2) ++ ex) := by
      refine trimWs_eq_self ?_
      intro c hc
      rcases List.mem_cons.mp hc with rfl | hc2
      · decide
      · exact hnws c hc2
    have : ['-'] ++ ((d1 ++ dot ++ d2) ++ ex) = '-' :: ((d1 ++ dot ++ d2) ++ ex) := by simp
    rw [this]
    simp only [pyFloat?, htrim]
    rw [if_pos trivial, hq]
    exact ⟨-q, rfl⟩
  · -- plus sign
    have htrim : trimWs ('+' :: ((d1 ++ dot ++ d2) ++ ex))
        = '+' :: ((d1 ++ dot ++ d2) ++ ex) := by
      refine trimWs_eq_self ?_
      intro c hc
      rcases List.mem_cons.mp hc with rfl | hc2
      · decide
      · exact hnws c hc2
    have : ['+'] ++ ((d1 ++ dot ++ d2) ++ ex) = '+' :: ((d1 ++ dot ++ d2) ++ ex) := by simp
    rw [this]
    simp only [pyFloat?, htrim]
    rw [if_pos trivial, hq]
    exact ⟨q, rfl⟩

theorem pos_groupOf_xyz {g : Nat} {b : RE} (hg : g = gX ∨ g = gY ∨ g = gZ)
    (h : GroupOf pos_regex g b) : b = numField := by
  have hmem := groupOf_mem h
  rw [groupsIn_pos] at hmem
  simp only [List.mem_cons, List.not_mem_nil, or_false, Prod.mk.injEq] at hmem
  rcases hmem with ⟨hgg, _⟩ | ⟨_, hb⟩ | ⟨_, hb⟩ | ⟨_, hb⟩
  · exact absurd hgg (by rcases hg with rfl | rfl | rfl <;> simp [gSym, gX, gY, gZ])
  · exact hb
  · exact hb
  · exact hb

/-- C2 (counterexample): inside the frame of
`"2\nc\nH |1.0 |2.0 |3.0\n"` — a positions block fully accepted by the
framing grammar — the position grammar produces a match whose `x`
capture is `"|1.0"`, on which `float()` fails: the failure branch is
reachable. -/
theorem C2_counterexample :
    (frameAt pipeSignUnderInput false 0).map
        (fun f => f.atomiter.it.map (fun m => (groupStr gX m, pyFloat? (groupStr gX m))))
      = some [("|1.0".data, none)] := by decide

/-- C2 (amended): for every match the position grammar produces (on any
text), each of the `x`/`y`/`z` captures that contains neither `'|'` nor
`' '` is accepted by `float()`; the failure branch is unreachable for
such captures.  (The verbose-mode classes `[\-|\+]`, `[E | e]` and
`[+|-]` contain `'|'` and `' '` literally, which is what makes the
unrestricted claim false.) -/
theorem C2_xyz_captures_float (s : List Char) (m : RMatch) (g : Nat) (v : List Char)
    (hm : m ∈ finditerRun pos_regex s) (hg : g = gX ∨ g = gY ∨ g = gZ)
    (hv : capLookup g m.caps = some v) (hbar : ¬ '|' ∈ v) (hsp : ¬ ' ' ∈ v) :
    ∃ q, pyFloat? v = some q := by
  unfold finditerRun at hm
  obtain ⟨b, hb, hin⟩ := finditer_caps (s.length + 1) ⟨s, true⟩ m hm g v hv
  rw [pos_groupOf_xyz hg hb] at hin
  exact inL_numField_float hin hbar hsp

theorem C2_xyz_captures_float_witness :
    ((finditerRun pos_regex oneAtomLine).getD 0 ⟨0, 0, []⟩
        ∈ finditerRun pos_regex oneAtomLine) ∧
    capLookup gX ((finditerRun pos_regex oneAtomLine).getD 0 ⟨0, 0, []⟩).caps
        = some "1.0".data ∧
    (¬ '|' ∈ "1.0".data) ∧ (¬ ' ' ∈ "1.0".data) ∧
    ∃ q, pyFloat? "1.0".data = some q :=
  ⟨by decide, by decide, by decide, by decide,
    C2_xyz_captures_float oneAtomLine
      ((finditerRun pos_regex oneAtomLine).getD 0 ⟨0, 0, []⟩) gX "1.0".data
      (by decide) (Or.inl rfl) (by decide) (by decide) (by decide)⟩

/-! Toolkit for computing the engine's preferred match on inputs of known
shape: character-class facts, head-of-`flatMap` composition, and
first-result lemmas for the basic pattern pieces. -/

theorem ws_not_alpha {c : Char} (h : CC.wsC.test c = true) : CC.alphaC.test c = false := by
  simp only [CC.test, decide_eq_true_eq] at h
  rcases h with rfl | rfl | rfl | rfl | rfl | rfl <;> decide

theorem sptab_ws {c : Char} (h : CC.sptab.test c = true) : CC.wsC.test c = true := by
  simp only [CC.test, decide_eq_true_eq] at h ⊢
  rcases h with rfl | rfl
  · exact Or.inl rfl
  · exact Or.inr (Or.inl rfl)

theorem digit_not_ws {c : Char} (h : c.isDigit = true) : CC.wsC.test c = false := by
  simp only [CC.test, decide_eq_false_iff_not]
  rintro (rfl | rfl | rfl | rfl | rfl | rfl) <;> exact absurd h (by decide)

theorem digit_not_sptab {c : Char} (h : c.isDigit = true) : CC.sptab.test c = false := by
  simp only [CC.test, decide_eq_false_iff_not]
  rintro (rfl | rfl) <;> exact absurd h (by decide)

theorem digit_toNat_bounds {c : Char} (h : c.isDigit = true) :
    48 ≤ c.val.toNat ∧ c.val.toNat ≤ 57 := by
  simp only [Char.isDigit, ge_iff_le, Bool.and_eq_true, decide_eq_true_eq] at h
  exact ⟨UInt32.le_toNat_of_le (by decide) h.1, UInt32.toNat_le_of_le (by decide) h.2⟩

theorem alpha_toNat_bounds {c : Char} (h : c.isAlpha = true) :
    (65 ≤ c.val.toNat ∧ c.val.toNat ≤ 90) ∨ (97 ≤ c.val.toNat ∧ c.val.toNat ≤ 122) := by
  simp only [Char.isAlpha, Char.isUpper, Char.isLower, ge_iff_le, Bool.or_eq_true,
    Bool.and_eq_true, decide_eq_true_eq] at h
  rcases h with ⟨h1, h2⟩ | ⟨h1, h2⟩
  · exact Or.inl ⟨UInt32.le_toNat_of_le (by decide) h1, UInt32.toNat_le_of_le (by decide) h2⟩
  · exact Or.inr ⟨UInt32.le_toNat_of_le (by decide) h1, UInt32.toNat_le_of_le (by decide) h2⟩

theorem digit_not_alpha {c : Char} (h : c.isDigit = true) : CC.alphaC.test c = false := by
  simp only [CC.test]
  rcases ha : c.isAlpha with _ | _
  · rfl
  · obtain ⟨hd1, hd2⟩ := digit_toNat_bounds h
    rcases alpha_toNat_bounds ha with ⟨ha1, _⟩ | ⟨ha1, _⟩ <;> omega

theorem alpha_not_ws {c : Char} (h : c.isAlpha = true) : CC.wsC.test c = false := by
  simp only [CC.test, decide_eq_false_iff_not]
  rintro (rfl | rfl | rfl | rfl | rfl | rfl) <;> exact absurd h (by decide)

theorem alpha_not_digit {c : Char} (h : c.isAlpha = true) : c.isDigit = false := by
  rcases hd : c.isDigit with _ | _
  · rfl
  · obtain ⟨hd1, hd2⟩ := digit_toNat_bounds hd
    rcases alpha_toNat_bounds h with ⟨ha1, _⟩ | ⟨ha1, _⟩ <;> omega

theorem digit_not_signSp {c : Char} (h : c.isDigit = true) : CC.signSp.test c = false := by
  simp only [CC.test, decide_eq_false_iff_not]
  rintro (rfl | rfl | rfl | rfl) <;> exact absurd h (by decide)

theorem digit_not_signPMP {c : Char} (h : c.isDigit = true) : CC.signPMP.test c = false := by
  simp only [CC.test, decide_eq_false_iff_not]
  rintro (rfl | rfl | rfl) <;> exact absurd h (by decide)

theorem digit_not_expLetter {c : Char} (h : c.isDigit = true) : CC.expLetterC.test c = false := by
  simp only [CC.test, decide_eq_false_iff_not]
  rintro (rfl | rfl | rfl | rfl) <;> exact absurd h (by decide)

theorem digit_alnum {c : Char} (h : c.isDigit = true) : CC.alnumC.test c = true := by
  simp [CC.test, h]

theorem alpha_alnum {c : Char} (h : c.isAlpha = true) : CC.alnumC.test c = true := by
  simp [CC.test, h]

/-- Head of a `flatMap` whose first productive element is known: the
elements before it all map to `[]`. -/
theorem flatMap_first {α β : Type} {l L : List α} {x : α} {t : List α}
    {f : α → List β} {y : β} {u : List β}
    (hl : l = L ++ x :: t) (hpre : ∀ z ∈ L, f z = []) (hf : f x = y :: u) :
    ∃ junk, l.flatMap f = y :: junk := by
  subst hl
  induction L with
  | nil => exact ⟨u ++ t.flatMap f, by simp [hf]⟩
  | cons z pre' ih =>
    obtain ⟨junk, hj⟩ := ih (fun w hw => hpre w (List.mem_cons_of_mem z hw))
    refine ⟨junk, ?_⟩
    rw [List.cons_append, List.flatMap_cons, hpre z (List.mem_cons_self z pre'), List.nil_append, hj]

theorem flatMap_nil_of_forall {α β : Type} {l : List α} {f : α → List β}
    (h : ∀ z ∈ l, f z = []) : l.flatMap f = [] := by
  induction l with
  | nil => rfl
  | cons z t ih =>
    rw [List.flatMap_cons, h z (List.mem_cons_self z t), List.nil_append,
      ih (fun w hw => h w (List.mem_cons_of_mem z hw))]

/-- Greedy class-star on a known maximal run (existential final
line-start flag). -/
theorem clsRuns_max {p : CC} :
    ∀ (s : List Char) (r : List Char) (b : Bool),
      (∀ c ∈ s, p.test c = true) → (∀ c, r.head? = some c → p.test c = false) →
      ∃ b' junk, clsRuns p (s ++ r) b = ⟨r, b'⟩ :: junk := by
  intro s
  induction s with
  | nil =>
    intro r b _ hr
    cases r with
    | nil => exact ⟨b, [], rfl⟩
    | cons c t =>
      refine ⟨b, [], ?_⟩
      simp only [List.nil_append, clsRuns]
      rw [if_neg (by simp [hr c rfl])]
  | cons c s' ih =>
    intro r b hs hr
    obtain ⟨b', junk, hj⟩ := ih r (c = '\n') (fun x hx => hs x (List.mem_cons_of_mem c hx)) hr
    refine ⟨b', junk ++ [⟨c :: (s' ++ r), b⟩], ?_⟩
    simp only [List.cons_append, clsRuns, List.append_eq]
    rw [if_pos (hs c (List.mem_cons_self c s')), hj]
    simp

/-- First result of `starCls` on a known maximal run. -/
theorem starCls_first {f : Nat} {p : CC} {s r : List Char} {b : Bool} {A : Caps}
    (hs : ∀ c ∈ s, p.test c = true) (hr : ∀ c, r.head? = some c → p.test c = false) :
    ∃ b' junk, msplits (f + 1) (.starCls p) ⟨s ++ r, b⟩ A
      = ((⟨r, b'⟩ : MSt), A) :: junk := by
  obtain ⟨b', junk, hj⟩ := clsRuns_max s r b hs hr
  refine ⟨b', junk.map (fun st' => (st', A)), ?_⟩
  rw [msplits_star]
  show (clsRuns p (s ++ r) b).map (fun st' => (st', A)) = _
  rw [hj, List.map_cons]

/-- Single-character class step. -/
theorem cls_first {f : Nat} {p : CC} {c : Char} {t : List Char} {b : Bool} {A : Caps}
    (hc : p.test c = true) :
    msplits (f + 1) (.cls p) ⟨c :: t, b⟩ A = [((⟨t, c = '\n'⟩ : MSt), A)] := by
  rw [msplits_cls]
  simp only [hc, if_true]

theorem cls_fail {f : Nat} {p : CC} {c : Char} {t : List Char} {b : Bool} {A : Caps}
    (hc : p.test c = false) :
    msplits (f + 1) (.cls p) ⟨c :: t, b⟩ A = [] := by
  rw [msplits_cls]
  simp [hc]

theorem cls_fail_nil {f : Nat} {p : CC} {b : Bool} {A : Caps} :
    msplits (f + 1) (.cls p) ⟨[], b⟩ A = [] := by
  rw [msplits_cls]

/-- First result of `plusCls` on a known non-empty maximal run not
containing a newline keeps the line-start flag off. -/
theorem plusCls_first {f : Nat} {p : CC} {c : Char} {s r : List Char} {b : Bool} {A : Caps}
    (hc : p.test c = true) (hs : ∀ x ∈ s, p.test x = true)
    (hr : ∀ x, r.head? = some x → p.test x = false) :
    ∃ b' junk, msplits (f + 1) (plusCls p) ⟨(c :: s) ++ r, b⟩ A
      = ((⟨r, b'⟩ : MSt), A) :: junk := by
  obtain ⟨b', junk, hj⟩ :=
    starCls_first (f := f) (s := s) (r := r) (b := decide (c = '\n')) (A := A) hs hr
  refine ⟨b', junk, ?_⟩
  rw [plusCls, msplits_cat]
  have hcls : msplits (f + 1) (.cls p) ⟨(c :: s) ++ r, b⟩ A
      = [((⟨s ++ r, decide (c = '\n')⟩ : MSt), A)] := by
    show msplits (f + 1) (.cls p) ⟨c :: (s ++ r), b⟩ A = _
    rw [cls_first hc]
  rw [hcls, List.flatMap_cons, List.flatMap_nil, List.append_nil]
  exact hj

/-- `eps` via the right branch of an option whose class branch fails. -/
theorem opt_fail_first {f : Nat} {a : RE} {st : MSt} {A : Caps}
    (ha : msplits (f + 1) a st A = []) :
    msplits (f + 1) (optR a) st A = [(st, A)] := by
  rw [optR, msplits_alt, ha, msplits_eps]
  rfl

theorem take_consumed {s r : List Char} :
    (s ++ r).take ((s ++ r).length - r.length) = s := by
  rw [List.length_append, Nat.add_sub_cancel, List.take_left]

/-- Composing two components when the alternatives before the first
component's intended result are killed by the second component. -/
theorem cat_first {f : Nat} {a b : RE} {st : MSt} {A : Caps}
    {B C D E : MRes} {F good : MSt × Caps}
    (hA : msplits (f + 1) a st A = B ++ F :: C)
    (hpreA : ∀ z ∈ B, msplits (f + 1) b z.1 z.2 = [])
    (hB : msplits (f + 1) b F.1 F.2 = D ++ good :: E) :
    ∃ junk, msplits (f + 1) (.catR a b) st A = D ++ good :: junk := by
  rw [msplits_cat, hA, List.flatMap_append, flatMap_nil_of_forall hpreA, List.nil_append,
    List.flatMap_cons, hB]
  exact ⟨E ++ C.flatMap fun r => msplits (f + 1) b r.1 r.2,
    by rw [List.append_assoc, List.cons_append]⟩

theorem alt_first_left {f : Nat} {a b : RE} {st : MSt} {A : Caps}
    {L junk : MRes} {good : MSt × Caps}
    (hA : msplits (f + 1) a st A = L ++ good :: junk) :
    ∃ junk', msplits (f + 1) (.altR a b) st A = L ++ good :: junk' := by
  rw [msplits_alt, hA]
  exact ⟨junk ++ msplits (f + 1) b st A, by simp⟩

theorem alt_first_right {f : Nat} {a b : RE} {st : MSt} {A : Caps}
    {L junk : MRes} {good : MSt × Caps}
    (hA : msplits (f + 1) a st A = [])
    (hB : msplits (f + 1) b st A = L ++ good :: junk) :
    msplits (f + 1) (.altR a b) st A = L ++ good :: junk := by
  rw [msplits_alt, hA, hB, List.nil_append]

/-- Wrapping a component's preferred result in a capture group records
exactly the consumed text, and preserves the remaining-input data of the
alternatives before it. -/
theorem msplits_grp_lit {f : Nat} {n : Nat} {a : RE} {s : List Char} {b : Bool} {A : Caps} :
    msplits (f + 1) (.grp n a) ⟨s, b⟩ A
      = (msplits (f + 1) a ⟨s, b⟩ A).map
          (fun r => (r.1, (n, s.take (s.length - r.1.rem.length)) :: r.2)) := rfl

theorem grp_first_pre {f : Nat} {n : Nat} {a : RE} {s r : List Char} {b b' : Bool}
    {A cp' : Caps} {L junk : MRes}
    (ha : msplits (f + 1) a ⟨s ++ r, b⟩ A = L ++ ((⟨r, b'⟩ : MSt), cp') :: junk) :
    ∃ pre' junk', msplits (f + 1) (.grp n a) ⟨s ++ r, b⟩ A
        = pre' ++ ((⟨r, b'⟩ : MSt), (n, s) :: cp') :: junk'
      ∧ ∀ z ∈ pre', ∃ w ∈ L, z.1 = w.1 := by
  rw [msplits_grp_lit, ha, List.map_append, List.map_cons]
  refine ⟨L.map (fun q => (q.1, (n, (s ++ r).take ((s ++ r).length - q.1.rem.length)) :: q.2)),
    junk.map (fun q => (q.1, (n, (s ++ r).take ((s ++ r).length - q.1.rem.length)) :: q.2)),
    ?_, ?_⟩
  · simp [take_consumed]
  · intro z hz
    obtain ⟨w, hw, hwz⟩ := List.mem_map.mp hz
    exact ⟨w, hw, by rw [← hwz]⟩

theorem grp_first {f : Nat} {n : Nat} {a : RE} {s r : List Char} {b b' : Bool}
    {A cp' : Caps} {junk : MRes}
    (ha : msplits (f + 1) a ⟨s ++ r, b⟩ A = ((⟨r, b'⟩ : MSt), cp') :: junk) :
    ∃ junk', msplits (f + 1) (.grp n a) ⟨s ++ r, b⟩ A
      = ((⟨r, b'⟩ : MSt), (n, s) :: cp') :: junk' := by
  obtain ⟨pre', junk', hj, hp⟩ := grp_first_pre (n := n) (L := []) (by rw [ha]; rfl)
  rcases hpre : pre' with _ | ⟨z, zs⟩
  · rw [hpre] at hj
    exact ⟨junk', by rw [hj]; rfl⟩
  · rw [hpre] at hp
    obtain ⟨w, hw, _⟩ := hp z (List.mem_cons_self z zs)
    simp at hw

theorem cat_fail_left {f : Nat} {a b : RE} {st : MSt} {A : Caps}
    (hA : msplits (f + 1) a st A = []) :
    msplits (f + 1) (.catR a b) st A = [] := by
  rw [msplits_cat, hA]
  rfl

theorem cat_fail_all {f : Nat} {a b : RE} {st : MSt} {A : Caps}
    (h : ∀ z ∈ msplits (f + 1) a st A, msplits (f + 1) b z.1 z.2 = []) :
    msplits (f + 1) (.catR a b) st A = [] := by
  rw [msplits_cat]
  exact flatMap_nil_of_forall h

theorem alt_fail {f : Nat} {a b : RE} {st : MSt} {A : Caps}
    (hA : msplits (f + 1) a st A = []) (hB : msplits (f + 1) b st A = []) :
    msplits (f + 1) (.altR a b) st A = [] := by
  rw [msplits_alt, hA, hB]
  rfl

theorem plusCls_fail {f : Nat} {p : CC} {st : MSt} {A : Caps}
    (h : ∀ c, st.rem.head? = some c → p.test c = false) :
    msplits (f + 1) (plusCls p) st A = [] := by
  rcases hrem : st.rem with _ | ⟨c, t⟩
  · refine cat_fail_left ?_
    rw [msplits_cls, hrem]
  · refine cat_fail_left ?_
    have hst : st = ⟨c :: t, st.bol⟩ := by
      cases st
      simp only at hrem
      rw [hrem]
    rw [hst, cls_fail (h c (by rw [hrem]; rfl))]

/-- The `[ \t]+` following the `x`/`y` capture groups discards every
alternative whose remaining input starts with a digit or a dot. -/
theorem badHead_kill {f : Nat} {X : RE} {z : MSt × Caps} (hz : BadHead z) :
    msplits (f + 1) (.catR (plusCls .sptab) X) z.1 z.2 = [] := by
  obtain ⟨c, cs, hrem, hc⟩ := hz
  refine cat_fail_left (plusCls_fail ?_)
  intro d hd
  rw [hrem] at hd
  obtain rfl := Option.some_inj.mp hd
  rcases hc with hd1 | rfl
  · exact digit_not_sptab hd1
  · decide

theorem digit_not_expSign {c : Char} (h : c.isDigit = true) : CC.expSignC.test c = false := by
  simp only [CC.test, decide_eq_false_iff_not]
  rintro (rfl | rfl | rfl) <;> exact absurd h (by decide)

theorem alnum_false_alpha {c : Char} (h : CC.alnumC.test c = false) :
    CC.alphaC.test c = false := by
  simp only [CC.test, Bool.or_eq_false_iff] at h ⊢
  exact h.1

/-- First result of the mantissa alternation on `i.f` followed by
non-digit text: the whole token, via the first alternative. -/
theorem numMant_first {f : Nat} {i I J : List Char} {b : Bool} {A : Caps}
    (hi : digitsOk i) (hf : digitsOk I)
    (htail : ∀ c, J.head? = some c → c.isDigit = false) :
    ∃ b' junk, msplits (f + 1) numMant ⟨numTok i I ++ J, b⟩ A
      = ((⟨J, b'⟩ : MSt), A) :: junk := by
  rcases hfr : I with _ | ⟨c, fr'⟩
  · exact absurd hfr hf.1
  subst hfr
  have hcd : c.isDigit = true := by
    have := hf.2
    simp only [List.all_cons, Bool.and_eq_true] at this
    exact this.1
  have hfr' : ∀ x ∈ fr', x.isDigit = true := by
    intro x hx
    have := hf.2
    simp only [List.all_cons, Bool.and_eq_true] at this
    exact List.all_eq_true.mp this.2 x hx
  have heq : numTok i (c :: fr') ++ J = i ++ '.' :: ((c :: fr') ++ J) := by
    simp [numTok]
  rw [heq]
  obtain ⟨b1, junk1, h1⟩ := starCls_first (f := f) (p := .digit) (s := i)
    (r := '.' :: ((c :: fr') ++ J)) (b := b) (A := A)
    (fun x hx => List.all_eq_true.mp hi.2 x hx)
    (by intro x hx; obtain rfl := Option.some_inj.mp hx; decide)
  obtain ⟨b2, junk2, h2⟩ := plusCls_first (f := f) (p := .digit) (c := c) (s := fr')
    (r := J) (b := decide ('.' = '\n')) (A := A) hcd hfr' htail
  have hdot : msplits (f + 1) (.catR (chR '.') (plusCls .digit))
      ⟨'.' :: ((c :: fr') ++ J), b1⟩ A = ((⟨J, b2⟩ : MSt), A) :: junk2 := by
    have hcls : msplits (f + 1) (chR '.') ⟨'.' :: ((c :: fr') ++ J), b1⟩ A
        = [((⟨(c :: fr') ++ J, decide ('.' = '\n')⟩ : MSt), A)] := cls_first (by decide)
    rw [msplits_cat, hcls, List.flatMap_cons, List.flatMap_nil, List.append_nil]
    exact h2
  obtain ⟨junk, hj⟩ := cat_first (B := []) (C := junk1) (D := [])
    (F := ((⟨'.' :: ((c :: fr') ++ J), b1⟩ : MSt), A)) h1 (by simp) hdot
  obtain ⟨junk', hj'⟩ := alt_first_left
    (b := .catR (plusCls .digit) (.catR (optR (chR '.')) (.starCls .digit))) hj
  exact ⟨b2, junk', hj'⟩

/-- All results of the exponent group on a space-then-number suffix
leave a digit or a dot at the head of the remaining input (the
`[E | e]` class accepts the space, and the following digits are a
prefix of the next number's integer part). -/
theorem expPart_results_badHead {f : Nat} {i2 t3 : List Char} {b : Bool} {A : Caps}
    (hi2 : digitsOk i2) :
    ∀ z ∈ msplits (f + 1) expPart ⟨' ' :: (i2 ++ '.' :: t3), b⟩ A, BadHead z := by
  intro z hz
  obtain ⟨⟨s, hs, hin⟩, _⟩ := msplits_sound (f + 1) expPart _ A z hz
  obtain ⟨u, v, hsplit, hu, hv⟩ := inL_cat hin
  obtain ⟨L, rfl, _⟩ := inL_cls hu
  obtain ⟨sg2, d3, rfl, hsg2, hd3⟩ := inL_cat hv
  obtain ⟨hd3ne, hd3all⟩ := inL_plusCls_digitsOk hd3
  rw [hsplit] at hs
  simp only [List.cons_append, List.append_assoc] at hs
  obtain ⟨-, hX⟩ := List.cons_eq_cons.mp hs
  rcases inL_alt hsg2 with hcls | heps
  · obtain ⟨c2, rfl, hc2⟩ := inL_cls hcls
    rcases hi2eq : i2 with _ | ⟨j, i2'⟩
    · exact absurd hi2eq hi2.1
    rw [hi2eq] at hX
    simp only [List.nil_append, List.cons_append, List.append_assoc] at hX
    have hjc : j = c2 := (List.cons_eq_cons.mp hX).1
    have hjd : j.isDigit = true := by
      have := hi2.2
      rw [hi2eq] at this
      simp only [List.all_cons, Bool.and_eq_true] at this
      exact this.1
    rw [← hjc] at hc2
    exact absurd hc2 (by rw [digit_not_expSign hjd]; simp)
  · obtain rfl := inL_eps heps
    simp only [List.nil_append] at hX
    have hdot_notin : ¬ '.' ∈ d3 := by
      intro hmem
      have := List.all_eq_true.mp hd3all '.' hmem
      exact absurd this (by decide)
    have hlen : d3.length ≤ i2.length := by
      by_contra hgt
      push_neg at hgt
      have hd3take : d3 = (i2 ++ '.' :: t3).take d3.length := by
        rw [hX, List.take_left]
      have : '.' ∈ d3 := by
        rw [hd3take, List.take_append_eq_append_take]
        refine List.mem_append_right _ ?_
        have : 1 ≤ d3.length - i2.length := by omega
        rcases hk : d3.length - i2.length with _ | k
        · omega
        · simp [List.take_succ_cons]
      exact hdot_notin this
    have hrem : z.1.rem = i2.drop d3.length ++ '.' :: t3 := by
      have h1 : z.1.rem = (i2 ++ '.' :: t3).drop d3.length := by
        rw [hX, List.drop_left]
      rw [h1, List.drop_append_eq_append_drop, Nat.sub_eq_zero_of_le hlen, List.drop_zero]
    rcases hdr : i2.drop d3.length with _ | ⟨d, ds⟩
    · exact ⟨'.', t3, by rw [hrem, hdr, List.nil_append], Or.inr rfl⟩
    · refine ⟨d, ds ++ '.' :: t3, by rw [hrem, hdr, List.cons_append], Or.inl ?_⟩
      have hd_mem : d ∈ i2 := List.mem_of_mem_drop (by rw [hdr]; exact List.mem_cons_self d ds)
      exact List.all_eq_true.mp hi2.2 d hd_mem

/-- The optional exponent on a space-then-number suffix: backtracking
alternatives (all discarded later) followed by the empty match. -/
theorem optExp_results_space {f : Nat} {i2 t3 : List Char} {b : Bool} {A : Caps}
    (hi2 : digitsOk i2) :
    ∃ L, msplits (f + 1) (optR expPart) ⟨' ' :: (i2 ++ '.' :: t3), b⟩ A
      = L ++ [((⟨' ' :: (i2 ++ '.' :: t3), b⟩ : MSt), A)] ∧ ∀ z ∈ L, BadHead z := by
  refine ⟨msplits (f + 1) expPart ⟨' ' :: (i2 ++ '.' :: t3), b⟩ A, ?_,
    expPart_results_badHead hi2⟩
  rw [optR, msplits_alt, msplits_eps]

/-- The optional exponent contributes only the empty match when the next
character is not in `[E | e]`. -/
theorem optExp_single {f : Nat} {st : MSt} {A : Caps}
    (h : ∀ c, st.rem.head? = some c → CC.expLetterC.test c = false) :
    msplits (f + 1) (optR expPart) st A = [(st, A)] := by
  refine opt_fail_first (cat_fail_left ?_)
  rcases hrem : st.rem with _ | ⟨c, t⟩
  · have hst : st = ⟨[], st.bol⟩ := by
      cases st
      simp only at hrem
      rw [hrem]
    rw [hst, cls_fail_nil]
  · have hst : st = ⟨c :: t, st.bol⟩ := by
      cases st
      simp only at hrem
      rw [hrem]
    rw [hst, cls_fail (h c (by rw [hrem]; rfl))]

/-- The `x`/`y` capture group on `i.f` followed by a space and the next
number: the group captures exactly `i.f`; the backtracking alternatives
before the committed result all leave a digit or dot at the head. -/
theorem numField_grp_space {f g : Nat} {i I P Q : List Char} {b : Bool} {A : Caps}
    (hi : digitsOk i) (hf : digitsOk I) (hi2 : digitsOk P) :
    ∃ L junk b', msplits (f + 1) (.grp g numField)
        ⟨numTok i I ++ ' ' :: (P ++ '.' :: Q), b⟩ A
      = L ++ ((⟨' ' :: (P ++ '.' :: Q), b'⟩ : MSt), (g, numTok i I) :: A) :: junk
      ∧ ∀ z ∈ L, BadHead z := by
  obtain ⟨b1, junk1, hmant⟩ := numMant_first (f := f) (J := ' ' :: (P ++ '.' :: Q))
    (b := b) (A := A) hi hf
    (by intro c hc
        simp only [List.head?] at hc
        obtain rfl := Option.some_inj.mp hc
        decide)
  obtain ⟨preE, hexp, hpreE⟩ := optExp_results_space (f := f) (b := b1) (A := A) hi2
  obtain ⟨junk2, hcore⟩ := cat_first (B := []) (C := junk1) (D := preE)
    (E := []) (F := ((⟨' ' :: (P ++ '.' :: Q), b1⟩ : MSt), A)) hmant (by simp) hexp
  have hsign : msplits (f + 1) (optR (.cls .signPMP))
      ⟨numTok i I ++ ' ' :: (P ++ '.' :: Q), b⟩ A
      = [((⟨numTok i I ++ ' ' :: (P ++ '.' :: Q), b⟩ : MSt), A)] := by
    refine opt_fail_first ?_
    rcases hieq : i with _ | ⟨j, i'⟩
    · exact absurd hieq hi.1
    have hjd : j.isDigit = true := by
      have := hi.2
      rw [hieq] at this
      simp only [List.all_cons, Bool.and_eq_true] at this
      exact this.1
    have heq2 : numTok (j :: i') I ++ ' ' :: (P ++ '.' :: Q)
        = j :: (i' ++ '.' :: I ++ ' ' :: (P ++ '.' :: Q)) := by
      simp [numTok]
    rw [heq2]
    exact cls_fail (digit_not_signPMP hjd)
  have hfield : msplits (f + 1) numField ⟨numTok i I ++ ' ' :: (P ++ '.' :: Q), b⟩ A
      = preE ++ ((⟨' ' :: (P ++ '.' :: Q), b1⟩ : MSt), A) :: junk2 := by
    show msplits (f + 1) (.catR (optR (.cls .signPMP)) (.catR numMant (optR expPart))) _ _ = _
    rw [msplits_cat, hsign, List.flatMap_cons, List.flatMap_nil, List.append_nil]
    exact hcore
  obtain ⟨pre', junk', hj, hp⟩ := grp_first_pre (n := g) hfield
  refine ⟨pre', junk', b1, hj, ?_⟩
  intro z hz
  obtain ⟨w, hw, hwz⟩ := hp z hz
  obtain ⟨c, cs, hrem, hc⟩ := hpreE w hw
  exact ⟨c, cs, by rw [hwz, hrem], hc⟩

/-- The `z` capture group on `i.f` at the end of the numeric fields (the
next character is neither a digit nor in `[E | e]`, or the input ends). -/
theorem numField_grp_end {f g : Nat} {i I J : List Char} {b : Bool} {A : Caps}
    (hi : digitsOk i) (hf : digitsOk I)
    (htail : ∀ c, J.head? = some c → c.isDigit = false ∧ CC.expLetterC.test c = false) :
    ∃ b' junk, msplits (f + 1) (.grp g numField) ⟨numTok i I ++ J, b⟩ A
      = ((⟨J, b'⟩ : MSt), (g, numTok i I) :: A) :: junk := by
  obtain ⟨b1, junk1, hmant⟩ := numMant_first (f := f) (b := b) (A := A) hi hf
    (fun c hc => (htail c hc).1)
  have hexp : msplits (f + 1) (optR expPart) ⟨J, b1⟩ A = [((⟨J, b1⟩ : MSt), A)] :=
    optExp_single (fun c hc => (htail c hc).2)
  obtain ⟨junk2, hcore⟩ := cat_first (B := []) (C := junk1) (D := [])
    (E := []) (F := ((⟨J, b1⟩ : MSt), A)) hmant (by simp) hexp
  have hsign : msplits (f + 1) (optR (.cls .signPMP)) ⟨numTok i I ++ J, b⟩ A
      = [((⟨numTok i I ++ J, b⟩ : MSt), A)] := by
    refine opt_fail_first ?_
    rcases hieq : i with _ | ⟨j, i'⟩
    · exact absurd hieq hi.1
    have hjd : j.isDigit = true := by
      have := hi.2
      rw [hieq] at this
      simp only [List.all_cons, Bool.and_eq_true] at this
      exact this.1
    have heq2 : numTok (j :: i') I ++ J = j :: (i' ++ '.' :: I ++ J) := by
      simp [numTok]
    rw [heq2]
    exact cls_fail (digit_not_signPMP hjd)
  have hfield : msplits (f + 1) numField ⟨numTok i I ++ J, b⟩ A
      = ((⟨J, b1⟩ : MSt), A) :: junk2 := by
    show msplits (f + 1) (.catR (optR (.cls .signPMP)) (.catR numMant (optR expPart))) _ _ = _
    rw [msplits_cat, hsign, List.flatMap_cons, List.flatMap_nil, List.append_nil]
    exact hcore
  obtain ⟨junk', hj⟩ := grp_first (n := g) hfield
  exact ⟨b1, junk', hj⟩

/-- The symbol capture group on a letter word followed by a
non-alphanumeric character. -/
theorem symPat_grp_first {f g : Nat} {sym r : List Char} {b : Bool} {A : Caps}
    (hne : sym ≠ []) (hall : sym.all Char.isAlpha = true)
    (hr : ∀ c, r.head? = some c → CC.alnumC.test c = false) :
    ∃ b' junk, msplits (f + 1) (.grp g symPat) ⟨sym ++ r, b⟩ A
      = ((⟨r, b'⟩ : MSt), (g, sym) :: A) :: junk := by
  rcases hsym : sym with _ | ⟨c, s'⟩
  · exact absurd hsym hne
  subst hsym
  have hca : c.isAlpha = true := by
    simp only [List.all_cons, Bool.and_eq_true] at hall
    exact hall.1
  have hs' : ∀ x ∈ s', x.isAlpha = true := by
    simp only [List.all_cons, Bool.and_eq_true] at hall
    exact fun x hx => List.all_eq_true.mp hall.2 x hx
  obtain ⟨b1, junk1, hplus⟩ := plusCls_first (f := f) (p := .alphaC) (c := c) (s := s')
    (r := r) (b := b) (A := A) hca hs'
    (fun x hx => alnum_false_alpha (hr x hx))
  obtain ⟨b2, junk2, hstar⟩ := starCls_first (f := f) (p := .alnumC) (s := [])
    (r := r) (b := b1) (A := A) (by simp) hr
  obtain ⟨junk3, hcat⟩ := cat_first (B := []) (C := junk1) (D := [])
    (F := ((⟨r, b1⟩ : MSt), A)) hplus (by simp) (by rw [← List.nil_append r]; exact hstar)
  obtain ⟨junk', hj⟩ := grp_first (n := g) hcat
  exact ⟨b2, junk', hj⟩

theorem sptab_not_alpha {c : Char} (h : CC.sptab.test c = true) : CC.alphaC.test c = false := by
  simp only [CC.test, decide_eq_true_eq] at h
  rcases h with rfl | rfl <;> decide

theorem alpha_not_sptab {c : Char} (h : c.isAlpha = true) : CC.sptab.test c = false := by
  simp only [CC.test, decide_eq_false_iff_not]
  rintro (rfl | rfl) <;> exact absurd h (by decide)

theorem digitsOk_head_digit {i : List Char} (hi : digitsOk i) :
    ∀ c, i.head? = some c → c.isDigit = true := by
  intro c hc
  rcases hieq : i with _ | ⟨j, i'⟩
  · rw [hieq] at hc; simp at hc
  · rw [hieq] at hc
    simp only [List.head?] at hc
    obtain rfl := Option.some_inj.mp hc
    have := hi.2
    rw [hieq] at this
    simp only [List.all_cons, Bool.and_eq_true] at this
    exact this.1

theorem digitsOk_append_head {i t : List Char} {c : Char} (hi : digitsOk i)
    (h : (i ++ t).head? = some c) : c.isDigit = true := by
  rcases hie : i with _ | ⟨j, i'⟩
  · exact absurd hie hi.1
  · rw [hie] at h
    simp only [List.cons_append, List.head?] at h
    obtain rfl := Option.some_inj.mp h
    have := hi.2
    rw [hie] at this
    simp only [List.all_cons, Bool.and_eq_true] at this
    exact this.1

/-- The position grammar's preferred match on an atom line: it consumes
the symbol and the three numeric fields (not the newline) and captures
them in the four named groups. -/
theorem pos_regex_atom_first {f : Nat} {a : AtomSpec} {K : List Char} {A : Caps}
    (hok : a.ok) :
    ∃ b3 junk, msplits (f + 1) pos_regex ⟨a.line ++ K, true⟩ A
      = ((⟨'\n' :: K, b3⟩ : MSt),
          (gZ, numTok a.i3 a.f3) :: (gY, numTok a.i2 a.f2) :: (gX, numTok a.i1 a.f1)
            :: (gSym, a.sym) :: A) :: junk := by
  obtain ⟨hsne, hsall, hi1, hf1, hi2, hf2, hi3, hf3⟩ := hok
  -- right-nested spine of the input
  have hline : a.line ++ K
      = a.sym ++ ' ' :: (numTok a.i1 a.f1 ++ ' '
          :: (a.i2 ++ '.' :: (a.f2 ++ ' ' :: (a.i3 ++ '.' :: (a.f3 ++ '\n' :: K))))) := by
    simp [AtomSpec.line, numTok]
  rw [hline]
  -- leading optional whitespace consumes nothing: the symbol head is a letter
  obtain ⟨bs0, junkS0, hs0⟩ := starCls_first (f := f) (p := .sptab) (s := [])
    (r := a.sym ++ ' ' :: (numTok a.i1 a.f1 ++ ' '
      :: (a.i2 ++ '.' :: (a.f2 ++ ' ' :: (a.i3 ++ '.' :: (a.f3 ++ '\n' :: K))))))
    (b := true) (A := A) (by simp)
    (by intro x hx
        rcases hse : a.sym with _ | ⟨sc, ss⟩
        · exact absurd hse hsne
        · rw [hse] at hx
          simp only [List.cons_append, List.head?] at hx
          obtain rfl := Option.some_inj.mp hx
          refine alpha_not_sptab ?_
          have hall := hsall
          rw [hse] at hall
          simp only [List.all_cons, Bool.and_eq_true] at hall
          exact hall.1)
  -- the symbol group
  obtain ⟨b1, junkS, hsym⟩ := symPat_grp_first (f := f) (g := gSym)
    (r := ' ' :: (numTok a.i1 a.f1 ++ ' '
      :: (a.i2 ++ '.' :: (a.f2 ++ ' ' :: (a.i3 ++ '.' :: (a.f3 ++ '\n' :: K))))))
    (b := bs0) (A := A) hsne hsall
    (by intro c hc
        simp only [List.head?] at hc
        obtain rfl := Option.some_inj.mp hc
        decide)
  -- the whitespace after the symbol
  obtain ⟨b2, junkW, hws⟩ := plusCls_first (f := f) (p := .wsC) (c := ' ') (s := [])
    (r := numTok a.i1 a.f1 ++ ' '
      :: (a.i2 ++ '.' :: (a.f2 ++ ' ' :: (a.i3 ++ '.' :: (a.f3 ++ '\n' :: K)))))
    (b := b1) (A := (gSym, a.sym) :: A) (by decide) (by simp)
    (by intro x hx
        simp only [numTok, List.append_assoc, List.cons_append] at hx
        exact digit_not_ws (digitsOk_append_head hi1 hx))
  -- the x group
  obtain ⟨preX, junkX, bx, hx, hpreX⟩ := numField_grp_space (f := f) (g := gX)
    (i := a.i1) (I := a.f1) (P := a.i2)
    (Q := a.f2 ++ ' ' :: (a.i3 ++ '.' :: (a.f3 ++ '\n' :: K)))
    (b := b2) (A := (gSym, a.sym) :: A) hi1 hf1 hi2
  -- the tab-space after x
  obtain ⟨b4, junkT1, ht1⟩ := plusCls_first (f := f) (p := .sptab) (c := ' ') (s := [])
    (r := a.i2 ++ '.' :: (a.f2 ++ ' ' :: (a.i3 ++ '.' :: (a.f3 ++ '\n' :: K))))
    (b := bx) (A := (gX, numTok a.i1 a.f1) :: (gSym, a.sym) :: A) (by decide) (by simp)
    (fun x hx => digit_not_sptab (digitsOk_append_head hi2 hx))
  -- the y group
  obtain ⟨preY, junkY, by', hy, hpreY⟩ := numField_grp_space (f := f) (g := gY)
    (i := a.i2) (I := a.f2) (P := a.i3) (Q := a.f3 ++ '\n' :: K)
    (b := b4) (A := (gX, numTok a.i1 a.f1) :: (gSym, a.sym) :: A) hi2 hf2 hi3
  -- the tab-space after y
  obtain ⟨b6, junkT2, ht2⟩ := plusCls_first (f := f) (p := .sptab) (c := ' ') (s := [])
    (r := a.i3 ++ '.' :: (a.f3 ++ '\n' :: K))
    (b := by') (A := (gY, numTok a.i2 a.f2) :: (gX, numTok a.i1 a.f1) :: (gSym, a.sym) :: A)
    (by decide) (by simp)
    (fun x hx => digit_not_sptab (digitsOk_append_head hi3 hx))
  -- the z group
  obtain ⟨bz, junkZ, hz⟩ := numField_grp_end (f := f) (g := gZ)
    (i := a.i3) (I := a.f3) (J := '\n' :: K) (b := b6)
    (A := (gY, numTok a.i2 a.f2) :: (gX, numTok a.i1 a.f1) :: (gSym, a.sym) :: A)
    hi3 hf3
    (by intro c hc
        simp only [List.head?] at hc
        obtain rfl := Option.some_inj.mp hc
        exact ⟨by decide, by decide⟩)
  -- reshape the y and z group inputs into `numTok` form
  have heqY : a.i2 ++ '.' :: (a.f2 ++ ' ' :: (a.i3 ++ '.' :: (a.f3 ++ '\n' :: K)))
      = numTok a.i2 a.f2 ++ ' ' :: (a.i3 ++ '.' :: (a.f3 ++ '\n' :: K)) := by
    simp [numTok]
  have heqZ : a.i3 ++ '.' :: (a.f3 ++ '\n' :: K)
      = numTok a.i3 a.f3 ++ '\n' :: K := by
    simp [numTok]
  have hz' : msplits (f + 1) (.grp gZ numField) ⟨a.i3 ++ '.' :: (a.f3 ++ '\n' :: K), b6⟩
      ((gY, numTok a.i2 a.f2) :: (gX, numTok a.i1 a.f1) :: (gSym, a.sym) :: A)
      = ((⟨'\n' :: K, bz⟩ : MSt), (gZ, numTok a.i3 a.f3) :: (gY, numTok a.i2 a.f2)
          :: (gX, numTok a.i1 a.f1) :: (gSym, a.sym) :: A) :: junkZ := by
    rw [heqZ]
    exact hz
  have hy' : msplits (f + 1) (.grp gY numField)
      ⟨a.i2 ++ '.' :: (a.f2 ++ ' ' :: (a.i3 ++ '.' :: (a.f3 ++ '\n' :: K))), b4⟩
      ((gX, numTok a.i1 a.f1) :: (gSym, a.sym) :: A)
      = preY ++ ((⟨' ' :: (a.i3 ++ '.' :: (a.f3 ++ '\n' :: K)), by'⟩ : MSt),
          (gY, numTok a.i2 a.f2) :: (gX, numTok a.i1 a.f1) :: (gSym, a.sym) :: A) :: junkY := by
    rw [heqY]
    exact hy
  -- assemble back to front
  obtain ⟨junk6, h6⟩ := cat_first (B := []) (C := junkT2) (D := []) (E := junkZ)
    (F := ((⟨a.i3 ++ '.' :: (a.f3 ++ '\n' :: K), b6⟩ : MSt),
      (gY, numTok a.i2 a.f2) :: (gX, numTok a.i1 a.f1) :: (gSym, a.sym) :: A))
    ht2 (by simp) hz'
  obtain ⟨junk5, h5⟩ := cat_first (B := preY) (C := junkY) (D := []) (E := junk6)
    (F := ((⟨' ' :: (a.i3 ++ '.' :: (a.f3 ++ '\n' :: K)), by'⟩ : MSt),
      (gY, numTok a.i2 a.f2) :: (gX, numTok a.i1 a.f1) :: (gSym, a.sym) :: A))
    hy' (fun z hzz => badHead_kill (hpreY z hzz)) h6
  obtain ⟨junk4, h4⟩ := cat_first (B := []) (C := junkT1) (D := []) (E := junk5)
    (F := ((⟨a.i2 ++ '.' :: (a.f2 ++ ' ' :: (a.i3 ++ '.' :: (a.f3 ++ '\n' :: K))), b4⟩ : MSt),
      (gX, numTok a.i1 a.f1) :: (gSym, a.sym) :: A))
    ht1 (by simp) h5
  obtain ⟨junk3, h3⟩ := cat_first (B := preX) (C := junkX) (D := []) (E := junk4)
    (F := ((⟨' ' :: (a.i2 ++ '.' :: (a.f2 ++ ' ' :: (a.i3 ++ '.' :: (a.f3 ++ '\n' :: K)))),
      bx⟩ : MSt), (gX, numTok a.i1 a.f1) :: (gSym, a.sym) :: A))
    hx (fun z hzz => badHead_kill (hpreX z hzz)) h4
  obtain ⟨junk2, h2⟩ := cat_first (B := []) (C := junkW) (D := []) (E := junk3)
    (F := ((⟨numTok a.i1 a.f1 ++ ' '
      :: (a.i2 ++ '.' :: (a.f2 ++ ' ' :: (a.i3 ++ '.' :: (a.f3 ++ '\n' :: K)))), b2⟩ : MSt),
      (gSym, a.sym) :: A))
    hws (by simp) h3
  obtain ⟨junk1, h1⟩ := cat_first (B := []) (C := junkS) (D := []) (E := junk2)
    (F := ((⟨' ' :: (numTok a.i1 a.f1 ++ ' '
      :: (a.i2 ++ '.' :: (a.f2 ++ ' ' :: (a.i3 ++ '.' :: (a.f3 ++ '\n' :: K))))), b1⟩ : MSt),
      (gSym, a.sym) :: A))
    hsym (by simp) h2
  obtain ⟨junk0, h0⟩ := cat_first (B := []) (C := junkS0) (D := []) (E := junk1)
    (F := ((⟨a.sym ++ ' ' :: (numTok a.i1 a.f1 ++ ' '
      :: (a.i2 ++ '.' :: (a.f2 ++ ' ' :: (a.i3 ++ '.' :: (a.f3 ++ '\n' :: K))))), bs0⟩ : MSt),
      A))
    hs0 (by simp) h1
  refine ⟨bz, junk0, ?_⟩
  show msplits (f + 1) (.catR .bolR _) _ _ = _
  rw [msplits_cat, msplits_bol, if_pos rfl, List.flatMap_cons, List.flatMap_nil, List.append_nil]
  exact h0

/-- The results of a greedy class run are exactly the suffixes obtained
by removing a prefix of test-satisfying characters. -/
theorem clsRuns_mem {p : CC} {s : List Char} {b : Bool} {z : MSt}
    (h : z ∈ clsRuns p s b) :
    ∃ u v, s = u ++ v ∧ (∀ c ∈ u, p.test c = true) ∧ z.rem = v := by
  induction s generalizing b with
  | nil =>
    simp only [clsRuns, List.mem_singleton] at h
    exact ⟨[], [], rfl, by simp, by rw [h]⟩
  | cons c K ih =>
    by_cases hc : p.test c = true
    · simp only [clsRuns, if_pos hc] at h
      rcases List.mem_append.mp h with h1 | h1
      · obtain ⟨u, v, hsv, hu, hz⟩ := ih h1
        refine ⟨c :: u, v, by rw [hsv]; rfl, ?_, hz⟩
        intro d hd
        rcases List.mem_cons.mp hd with rfl | hd'
        · exact hc
        · exact hu d hd'
      · obtain rfl := List.mem_singleton.mp h1
        exact ⟨[], c :: K, rfl, by simp, rfl⟩
    · simp only [clsRuns, if_neg hc, List.mem_singleton] at h
      obtain rfl := h
      exact ⟨[], c :: K, rfl, by simp, rfl⟩

/-- The position pattern is anchored: away from a line start it fails. -/
theorem pos_regex_fail_notbol {M : Nat} {s : List Char} {A : Caps} :
    msplits (M + 1) pos_regex ⟨s, false⟩ A = [] := by
  show msplits (M + 1) (.catR .bolR _) _ _ = []
  refine cat_fail_left ?_
  rw [msplits_bol]
  rfl

/-- At a line start whose first non-blank character is not a letter (or
with no character after the blanks), the position pattern fails. -/
theorem pos_regex_fail_head {M : Nat} {w r : List Char} {b : Bool} {A : Caps}
    (hw : ∀ c ∈ w, CC.sptab.test c = true)
    (hr : ∀ c, r.head? = some c → CC.sptab.test c = false ∧ c.isAlpha = false) :
    msplits (M + 1) pos_regex ⟨w ++ r, b⟩ A = [] := by
  cases b with
  | false => exact pos_regex_fail_notbol
  | true =>
    show msplits (M + 1) (.catR .bolR (.catR (.starCls .sptab) _)) _ _ = []
    rw [msplits_cat, msplits_bol, if_pos rfl, List.flatMap_cons, List.flatMap_nil,
      List.append_nil]
    refine cat_fail_all ?_
    intro z hz
    rw [msplits_star] at hz
    obtain ⟨st', hst', rfl⟩ := List.mem_map.mp hz
    obtain ⟨u, v, hsv, hu, hrem⟩ := clsRuns_mem hst'
    have hvhead : ∀ c, v.head? = some c → c.isAlpha = false := by
      rcases List.append_eq_append_iff.mp hsv with ⟨a', hu', hr'⟩ | ⟨c', hw', hv'⟩
      · rcases ha : a' with _ | ⟨x, t⟩
        · subst ha
          simp only [List.nil_append] at hr'
          intro c hc
          rw [← hr'] at hc
          exact (hr c hc).2
        · subst ha
          have hxs : CC.sptab.test x = true := hu x (by rw [hu']; simp)
          have hxr : CC.sptab.test x = false := (hr x (by rw [hr']; rfl)).1
          rw [hxs] at hxr
          cases hxr
      · rcases hcc : c' with _ | ⟨x, t⟩
        · subst hcc
          simp only [List.nil_append] at hv'
          intro c hc
          rw [hv'] at hc
          exact (hr c hc).2
        · subst hcc
          intro c hc
          rw [hv'] at hc
          simp only [List.cons_append, List.head?] at hc
          have hcx : x = c := Option.some_inj.mp hc
          subst hcx
          have hxs : CC.sptab.test x = true := hw x (by rw [hw']; simp)
          exact (Bool.not_eq_true _).mp fun hca =>
            by rw [(alpha_not_sptab hca : CC.sptab.test x = false)] at hxs; cases hxs
    refine cat_fail_left ?_
    have hin : msplits (M + 1) symPat st' A = [] := by
      show msplits (M + 1) (.catR (plusCls .alphaC) _) _ _ = []
      refine cat_fail_left (plusCls_fail ?_)
      intro c hc
      rw [hrem] at hc
      exact hvhead c hc
    rw [msplits_grp, hin]
    rfl

/-! Step equations of the scanner. -/

theorem finditer_skip {mfuel G H : Nat} {re : RE} {c : Char} {K : List Char} {b : Bool}
    (h : (msplits mfuel re ⟨c :: K, b⟩ []).head? = none) :
    finditer mfuel re H (G + 1) ⟨c :: K, b⟩
      = finditer mfuel re H G ⟨K, c = '\n'⟩ := by
  rw [finditer, h]

theorem finditer_nil {mfuel G H : Nat} {re : RE} {b : Bool}
    (h : (msplits mfuel re ⟨[], b⟩ []).head? = none) :
    finditer mfuel re H (G + 1) ⟨[], b⟩ = [] := by
  rw [finditer, h]

theorem finditer_match {mfuel G H : Nat} {re : RE} {st : MSt} {r : MSt × Caps}
    (h : (msplits mfuel re st []).head? = some r)
    (hlt : r.1.rem.length < st.rem.length) (htot : st.rem.length ≤ H) :
    finditer mfuel re H (G + 1) st
      = ⟨H - st.rem.length, H - r.1.rem.length, r.2⟩
          :: finditer mfuel re H G r.1 := by
  rw [finditer, h]
  show (if H - st.rem.length < H - r.1.rem.length
      then (⟨H - st.rem.length, H - r.1.rem.length, r.2⟩ : RMatch)
        :: finditer mfuel re H G r.1
      else match st.rem with
        | [] => [(⟨H - st.rem.length, H - r.1.rem.length, r.2⟩ : RMatch)]
        | c :: K => (⟨H - st.rem.length, H - r.1.rem.length, r.2⟩ : RMatch)
            :: finditer mfuel re H G ⟨K, c = '\n'⟩) = _
  rw [if_pos (by omega)]

theorem pyFloatCore_numTok {i f : List Char} (hi : digitsOk i) (hf : digitsOk f) :
    pyFloatCore? (i ++ '.' :: f) = some (decimalValue i f 0) := by
  have hid : ∀ c ∈ i, c.isDigit = true := fun c hc => List.all_eq_true.mp hi.2 c hc
  have hfd : ∀ c ∈ f, c.isDigit = true := fun c hc => List.all_eq_true.mp hf.2 c hc
  have hspan1 : spanDigits (i ++ '.' :: f) = (i, '.' :: f) := by
    refine spanDigits_append hid ?_
    intro c hc
    simp only [List.head?] at hc
    obtain rfl := Option.some_inj.mp hc
    decide
  have hspan2 : spanDigits f = (f, []) := by
    have := spanDigits_append (d := f) (r := []) hfd (by intro c hc; simp at hc)
    simpa using this
  simp only [pyFloatCore?, hspan1]
  rw [if_pos trivial]
  simp only [hspan2]
  rw [if_neg (by simp [hi.1])]
  rfl

/-- `float()` on the text `ipart.fpart` returns its exact decimal
value. -/
theorem pyFloat_numTok {i f : List Char} (hi : digitsOk i) (hf : digitsOk f) :
    pyFloat? (numTok i f) = some (numValQ i f) := by
  have hfd : ∀ c ∈ f, c.isDigit = true := fun c hc => List.all_eq_true.mp hf.2 c hc
  rcases hieq : i with _ | ⟨j, i'⟩
  · exact absurd hieq hi.1
  subst hieq
  have hjd : j.isDigit = true := by
    have := hi.2
    simp only [List.all_cons, Bool.and_eq_true] at this
    exact this.1
  have hid' : ∀ c ∈ i', c.isDigit = true := by
    have := hi.2
    simp only [List.all_cons, Bool.and_eq_true] at this
    exact fun c hc => List.all_eq_true.mp this.2 c hc
  have htrim : trimWs (j :: (i' ++ '.' :: f)) = j :: (i' ++ '.' :: f) := by
    refine trimWs_eq_self ?_
    intro c hc
    rcases List.mem_cons.mp hc with rfl | hc2
    · exact isPyWs_digit hjd
    rcases List.mem_append.mp hc2 with h1 | h2
    · exact isPyWs_digit (hid' c h1)
    rcases List.mem_cons.mp h2 with rfl | h3
    · decide
    · exact isPyWs_digit (hfd c h3)
  show pyFloat? ((j :: i') ++ '.' :: f) = _
  simp only [pyFloat?, List.cons_append, htrim]
  rw [if_neg (by rintro rfl; exact absurd hjd (by decide)),
    if_neg (by rintro rfl; exact absurd hjd (by decide))]
  have hcore := pyFloatCore_numTok (i := j :: i') (f := f) hi hf
  simp only [List.cons_append] at hcore
  rw [hcore]
  have : decimalValue (j :: i') f 0 = numValQ (j :: i') f := by
    simp [decimalValue, numValQ]
  rw [this]

theorem sptab_ne_nl {c : Char} (h : CC.sptab.test c = true) : c ≠ '\n' := by
  simp only [CC.test, decide_eq_true_eq] at h
  rcases h with rfl | rfl <;> decide

theorem dotC_ne_nl {c : Char} (h : CC.dotC.test c = true) : c ≠ '\n' := by
  simp only [CC.test, decide_eq_true_eq] at h
  exact h

/-- A committed position match built from an atom line converts to
exactly the expected record. -/
theorem recordOf_atom {a : AtomSpec} (hok : a.ok) (ms me : Nat) :
    recordOf false ⟨ms, me, (gZ, numTok a.i3 a.f3) :: (gY, numTok a.i2 a.f2)
      :: (gX, numTok a.i1 a.f1) :: (gSym, a.sym) :: []⟩ = some a.record := by
  obtain ⟨hsne, hsall, hi1, hf1, hi2, hf2, hi3, hf3⟩ := hok
  have hgx : pyFloat? (groupStr gX (⟨ms, me, (gZ, numTok a.i3 a.f3) :: (gY, numTok a.i2 a.f2)
      :: (gX, numTok a.i1 a.f1) :: (gSym, a.sym) :: []⟩ : RMatch))
      = some (numValQ a.i1 a.f1) := by
    show pyFloat? (numTok a.i1 a.f1) = _
    exact pyFloat_numTok hi1 hf1
  have hgy : pyFloat? (groupStr gY (⟨ms, me, (gZ, numTok a.i3 a.f3) :: (gY, numTok a.i2 a.f2)
      :: (gX, numTok a.i1 a.f1) :: (gSym, a.sym) :: []⟩ : RMatch))
      = some (numValQ a.i2 a.f2) := by
    show pyFloat? (numTok a.i2 a.f2) = _
    exact pyFloat_numTok hi2 hf2
  have hgz : pyFloat? (groupStr gZ (⟨ms, me, (gZ, numTok a.i3 a.f3) :: (gY, numTok a.i2 a.f2)
      :: (gX, numTok a.i1 a.f1) :: (gSym, a.sym) :: []⟩ : RMatch))
      = some (numValQ a.i3 a.f3) := by
    show pyFloat? (numTok a.i3 a.f3) = _
    exact pyFloat_numTok hi3 hf3
  simp only [recordOf, hgx, hgy, hgz]
  rfl

/-- Skipping the rest of a failing line character by character (the
anchored pattern fails at every non-line-start position). -/
theorem finditer_skip_tail :
    ∀ (u : List Char), (∀ c ∈ u, c ≠ '\n') →
    ∀ (M H G : Nat) (K : List Char),
      finditer (M + 1) pos_regex H (G + u.length + 1) ⟨u ++ '\n' :: K, false⟩
        = finditer (M + 1) pos_regex H G ⟨K, true⟩ := by
  intro u
  induction u with
  | nil =>
    intro _ M H G K
    have hf : (msplits (M + 1) pos_regex ⟨'\n' :: K, false⟩ []).head? = none := by
      rw [pos_regex_fail_notbol]
      rfl
    have hstep := finditer_skip (H := H) (G := G) hf
    simp only [List.length_nil, Nat.add_zero, List.nil_append]
    rw [hstep]
    rfl
  | cons c u' ih =>
    intro hu M H G K
    have hcn : c ≠ '\n' := hu c (List.mem_cons_self c u')
    have hf : (msplits (M + 1) pos_regex ⟨c :: (u' ++ '\n' :: K), false⟩ []).head? = none := by
      rw [pos_regex_fail_notbol]
      rfl
    have hstep := finditer_skip (H := H) (G := G + u'.length + 1) hf
    have hb : (decide (c = '\n')) = false := decide_eq_false hcn
    rw [hb] at hstep
    show finditer (M + 1) pos_regex H ((G + u'.length + 1) + 1)
      ⟨c :: (u' ++ '\n' :: K), false⟩ = _
    rw [hstep]
    exact ih (fun d hd => hu d (List.mem_cons_of_mem c hd)) M H G K

/-- Skipping one whole non-matching line from its start: the scan
resumes at the start of the next line. -/
theorem finditer_skip_bline {M H G : Nat} {u K : List Char}
    (hu : ∀ c ∈ u, c ≠ '\n')
    (hfail : msplits (M + 1) pos_regex ⟨u ++ '\n' :: K, true⟩ [] = []) :
    finditer (M + 1) pos_regex H (G + u.length + 1) ⟨u ++ '\n' :: K, true⟩
      = finditer (M + 1) pos_regex H G ⟨K, true⟩ := by
  cases u with
  | nil =>
    have hf : (msplits (M + 1) pos_regex ⟨'\n' :: K, true⟩ []).head? = none := by
      have hfail' : msplits (M + 1) pos_regex ⟨'\n' :: K, true⟩ [] = [] := hfail
      rw [hfail']
      rfl
    have hstep := finditer_skip (H := H) (G := G) hf
    simp only [List.length_nil, Nat.add_zero, List.nil_append]
    rw [hstep]
    rfl
  | cons c u' =>
    have hcn : c ≠ '\n' := hu c (List.mem_cons_self c u')
    have hf : (msplits (M + 1) pos_regex ⟨c :: (u' ++ '\n' :: K), true⟩ []).head? = none := by
      have hfail' : msplits (M + 1) pos_regex ⟨c :: (u' ++ '\n' :: K), true⟩ [] = [] := hfail
      rw [hfail']
      rfl
    have hstep := finditer_skip (H := H) (G := G + u'.length + 1) hf
    have hb : (decide (c = '\n')) = false := decide_eq_false hcn
    rw [hb] at hstep
    show finditer (M + 1) pos_regex H ((G + u'.length + 1) + 1)
      ⟨c :: (u' ++ '\n' :: K), true⟩ = _
    rw [hstep]
    exact finditer_skip_tail u' (fun d hd => hu d (List.mem_cons_of_mem c hd)) M H G K

theorem linesRender_cons {l : PLine} {ls : List PLine} :
    linesRender (l :: ls) = l.render ++ linesRender ls := by
  simp [linesRender]

/-- The scan of a rendered positions block commits to exactly one match
per atom line, in order of appearance, each converting to that line's
record; blank and `#`-comment lines contribute nothing. -/
theorem pos_scan :
    ∀ (ls : List PLine), (∀ l ∈ ls, l.ok) →
    ∀ (M H G : Nat),
      (linesRender ls).length + 1 ≤ G → (linesRender ls).length ≤ H →
      List.Forall₂ (fun (m : RMatch) (a : AtomSpec) => recordOf false m = some a.record)
        (finditer (M + 1) pos_regex H G ⟨linesRender ls, true⟩)
        (ls.flatMap PLine.atoms) := by
  intro ls
  induction ls with
  | nil =>
    intro _ M H G hfuel _
    rcases G with _ | g
    · omega
    have hf : msplits (M + 1) pos_regex ⟨([] : List Char), true⟩ [] = [] :=
      pos_regex_fail_head (w := []) (r := []) (by simp) (by intro c hc; simp at hc)
    have hnil : finditer (M + 1) pos_regex H (g + 1) ⟨([] : List Char), true⟩ = [] :=
      finditer_nil (by rw [hf]; rfl)
    rw [show linesRender ([] : List PLine) = [] from rfl, hnil]
    exact List.Forall₂.nil
  | cons l ls' ih =>
    intro hok M H G hfuel htot
    have hokl : l.ok := hok l (List.mem_cons_self l ls')
    have hok' : ∀ x ∈ ls', x.ok := fun x hx => hok x (List.mem_cons_of_mem l hx)
    rw [linesRender_cons] at hfuel htot ⊢
    cases l with
    | atomL a =>
      simp only [PLine.render] at hfuel htot ⊢
      have hline2 : 2 ≤ a.line.length := by
        simp only [AtomSpec.line, numTok, List.length_append, List.length_cons]
        omega
      rcases G with _ | g
      · exfalso; omega
      obtain ⟨b3, junk, hm⟩ := pos_regex_atom_first (f := M) (a := a)
        (K := linesRender ls') (A := []) hokl
      have hhead : (msplits (M + 1) pos_regex ⟨a.line ++ linesRender ls', true⟩ []).head?
          = some ((⟨'\n' :: linesRender ls', b3⟩ : MSt),
              (gZ, numTok a.i3 a.f3) :: (gY, numTok a.i2 a.f2) :: (gX, numTok a.i1 a.f1)
                :: (gSym, a.sym) :: []) := by
        rw [hm]
        rfl
      have hlt : ((⟨'\n' :: linesRender ls', b3⟩ : MSt), (gZ, numTok a.i3 a.f3)
            :: (gY, numTok a.i2 a.f2) :: (gX, numTok a.i1 a.f1) :: (gSym, a.sym)
            :: ([] : Caps)).1.rem.length
          < ((⟨a.line ++ linesRender ls', true⟩ : MSt)).rem.length := by
        simp only [List.length_cons, List.length_append]
        omega
      have htot' : ((⟨a.line ++ linesRender ls', true⟩ : MSt)).rem.length ≤ H := by
        simp only [List.length_append] at htot ⊢
        omega
      rw [finditer_match (G := g) hhead hlt htot']
      rcases g with _ | g'
      · exfalso
        simp only [List.length_append] at hfuel
        omega
      have hf2 : msplits (M + 1) pos_regex ⟨'\n' :: linesRender ls', b3⟩ [] = [] := by
        refine pos_regex_fail_head (w := []) (r := '\n' :: linesRender ls') (by simp) ?_
        intro c hc
        simp only [List.head?] at hc
        have hcc : '\n' = c := Option.some_inj.mp hc
        subst hcc
        exact ⟨by decide, by decide⟩
      rw [finditer_skip (H := H) (G := g') (by rw [hf2]; rfl)]
      rw [show (⟨linesRender ls', decide ('\n' = '\n')⟩ : MSt) = ⟨linesRender ls', true⟩
        from rfl]
      simp only [List.flatMap_cons, PLine.atoms, List.singleton_append]
      refine List.Forall₂.cons ?_ (ih hok' M H g' ?_ ?_)
      · exact recordOf_atom hokl _ _
      · simp only [List.length_append] at hfuel
        omega
      · simp only [List.length_append] at htot
        omega
    | blankL ws =>
      simp only [PLine.render] at hfuel htot hokl ⊢
      have hshape : (ws ++ ['\n']) ++ linesRender ls' = ws ++ '\n' :: linesRender ls' := by
        simp
      rw [hshape] at hfuel htot ⊢
      have hw : ∀ c ∈ ws, CC.sptab.test c = true := by
        simp only [PLine.ok] at hokl
        exact fun c hc => List.all_eq_true.mp hokl c hc
      have hu : ∀ c ∈ ws, c ≠ '\n' := fun c hc => sptab_ne_nl (hw c hc)
      have hfail : msplits (M + 1) pos_regex ⟨ws ++ '\n' :: linesRender ls', true⟩ [] = [] := by
        refine pos_regex_fail_head hw ?_
        intro c hc
        simp only [List.head?] at hc
        have hcc : '\n' = c := Option.some_inj.mp hc
        subst hcc
        exact ⟨by decide, by decide⟩
      simp only [List.length_append, List.length_cons] at hfuel htot
      obtain ⟨fuel', rfl⟩ : ∃ f', G = f' + ws.length + 1 :=
        ⟨G - (ws.length + 1), by omega⟩
      rw [finditer_skip_bline hu hfail]
      simp only [List.flatMap_cons, PLine.atoms, List.nil_append]
      exact ih hok' M H fuel' (by omega) (by omega)
    | hashL lead tl =>
      simp only [PLine.render] at hfuel htot hokl ⊢
      have hshape : (lead ++ '#' :: (tl ++ ['\n'])) ++ linesRender ls'
          = (lead ++ '#' :: tl) ++ '\n' :: linesRender ls' := by
        simp
      rw [hshape] at hfuel htot ⊢
      simp only [PLine.ok] at hokl
      have hw : ∀ c ∈ lead, CC.sptab.test c = true :=
        fun c hc => List.all_eq_true.mp hokl.1 c hc
      have htl : ∀ c ∈ tl, CC.dotC.test c = true :=
        fun c hc => List.all_eq_true.mp hokl.2 c hc
      have hu : ∀ c ∈ lead ++ '#' :: tl, c ≠ '\n' := by
        intro c hc
        rcases List.mem_append.mp hc with h1 | h2
        · exact sptab_ne_nl (hw c h1)
        rcases List.mem_cons.mp h2 with rfl | h3
        · decide
        · exact dotC_ne_nl (htl c h3)
      have hfail : msplits (M + 1) pos_regex
          ⟨(lead ++ '#' :: tl) ++ '\n' :: linesRender ls', true⟩ [] = [] := by
        have h0 := pos_regex_fail_head (M := M) (w := lead)
          (r := '#' :: (tl ++ '\n' :: linesRender ls')) (b := true) (A := []) hw
          (by intro c hc
              simp only [List.head?] at hc
              have hcc : '#' = c := Option.some_inj.mp hc
              subst hcc
              exact ⟨by decide, by decide⟩)
        have hsh : lead ++ '#' :: (tl ++ '\n' :: linesRender ls')
            = (lead ++ '#' :: tl) ++ '\n' :: linesRender ls' := by
          simp
        rw [hsh] at h0
        exact h0
      simp only [List.length_append, List.length_cons] at hfuel htot
      obtain ⟨fuel', rfl⟩ : ∃ f', G = f' + (lead ++ '#' :: tl).length + 1 :=
        ⟨G - ((lead ++ '#' :: tl).length + 1), by
          simp only [List.length_append, List.length_cons]
          omega⟩
      rw [finditer_skip_bline hu hfail]
      simp only [List.flatMap_cons, PLine.atoms, List.nil_append]
      refine ih hok' M H fuel' ?_ ?_
      · simp only [List.length_append, List.length_cons] at hfuel
        omega
      · omega

/-- `pos_regex.finditer` over a rendered positions block, as invoked by
the generator. -/
theorem pos_scan_run (ls : List PLine) (hok : ∀ l ∈ ls, l.ok) :
    List.Forall₂ (fun (m : RMatch) (a : AtomSpec) => recordOf false m = some a.record)
      (finditerRun pos_regex (linesRender ls)) (ls.flatMap PLine.atoms) := by
  have := pos_scan ls hok ((linesRender ls).length + 1) (linesRender ls).length
    ((linesRender ls).length + 1) (by omega) (by omega)
  exact this

/-- A single-character class fails when the head (if any) fails the
test. -/
theorem cls_fail_head {f : Nat} {p : CC} {st : MSt} {A : Caps}
    (h : ∀ c, st.rem.head? = some c → p.test c = false) :
    msplits (f + 1) (.cls p) st A = [] := by
  rcases hrem : st.rem with _ | ⟨c, t⟩
  · rw [msplits_cls, hrem]
  · have hst : st = ⟨c :: t, st.bol⟩ := by
      cases st
      simp only at hrem
      rw [hrem]
    rw [hst, cls_fail (h c (by rw [hrem]; rfl))]

/-- Committed result of the bare element-symbol pattern. -/
theorem symPat_first {f : Nat} {sym r : List Char} {b : Bool} {A : Caps}
    (hne : sym ≠ []) (hall : sym.all Char.isAlpha = true)
    (hr : ∀ c, r.head? = some c → CC.alnumC.test c = false) :
    ∃ b' junk, msplits (f + 1) symPat ⟨sym ++ r, b⟩ A
      = ((⟨r, b'⟩ : MSt), A) :: junk := by
  rcases hsym : sym with _ | ⟨c, s'⟩
  · exact absurd hsym hne
  subst hsym
  have hca : c.isAlpha = true := by
    simp only [List.all_cons, Bool.and_eq_true] at hall
    exact hall.1
  have hs' : ∀ x ∈ s', x.isAlpha = true := by
    simp only [List.all_cons, Bool.and_eq_true] at hall
    exact fun x hx => List.all_eq_true.mp hall.2 x hx
  obtain ⟨b1, junk1, hplus⟩ := plusCls_first (f := f) (p := .alphaC) (c := c) (s := s')
    (r := r) (b := b) (A := A) hca hs'
    (fun x hx => alnum_false_alpha (hr x hx))
  obtain ⟨b2, junk2, hstar⟩ := starCls_first (f := f) (p := .alnumC) (s := [])
    (r := r) (b := b1) (A := A) (by simp) hr
  obtain ⟨junk3, hcat⟩ := cat_first (B := []) (C := junk1) (D := [])
    (F := ((⟨r, b1⟩ : MSt), A)) hplus (by simp) hstar
  exact ⟨b2, junk3, hcat⟩

/-- Committed result of one numeric item of the `{3}` repetition: a
single space, no sign, and the digits-dot-digits mantissa. -/
theorem numItem_first {f : Nat} {i I R : List Char} {b : Bool} {A : Caps}
    (hi : digitsOk i) (hf : digitsOk I)
    (hR : ∀ c, R.head? = some c → c.isDigit = false) :
    ∃ b' junk, msplits (f + 1) numItem ⟨' ' :: (i ++ '.' :: (I ++ R)), b⟩ A
      = ((⟨R, b'⟩ : MSt), A) :: junk := by
  -- the leading whitespace
  obtain ⟨b1, junkW, hws⟩ := plusCls_first (f := f) (p := .wsC) (c := ' ') (s := [])
    (r := i ++ '.' :: (I ++ R)) (b := b) (A := A) (by decide) (by simp)
    (fun x hx => digit_not_ws (digitsOk_append_head hi hx))
  -- the optional sign is skipped
  have hsign : msplits (f + 1) (optR (.cls .signSp)) ⟨i ++ '.' :: (I ++ R), b1⟩ A
      = [((⟨i ++ '.' :: (I ++ R), b1⟩ : MSt), A)] := by
    refine opt_fail_first (cls_fail_head ?_)
    intro c hc
    have hcd : c.isDigit = true := digitsOk_append_head hi hc
    simp only [CC.test, decide_eq_false_iff_not]
    rintro (rfl | rfl | rfl | rfl) <;> exact absurd hcd (by decide)
  -- the mantissa
  obtain ⟨b2, junkD1, hd1⟩ := starCls_first (f := f) (p := .digit) (s := i)
    (r := '.' :: (I ++ R)) (b := b1) (A := A)
    (fun c hc => List.all_eq_true.mp hi.2 c hc)
    (by intro c hc
        simp only [List.head?] at hc
        have : '.' = c := Option.some_inj.mp hc
        subst this
        decide)
  have hdot : msplits (f + 1) (chR '.') ⟨'.' :: (I ++ R), b2⟩ A
      = [((⟨I ++ R, decide ('.' = '\n')⟩ : MSt), A)] := cls_first (by decide)
  rcases hfr : I with _ | ⟨j, fr'⟩
  · exact absurd hfr hf.1
  subst hfr
  have hjd : j.isDigit = true := by
    have := hf.2
    simp only [List.all_cons, Bool.and_eq_true] at this
    exact this.1
  have hfr' : ∀ x ∈ fr', x.isDigit = true := by
    have := hf.2
    simp only [List.all_cons, Bool.and_eq_true] at this
    exact fun x hx => List.all_eq_true.mp this.2 x hx
  obtain ⟨b3, junkD2, hd2⟩ := plusCls_first (f := f) (p := .digit) (c := j) (s := fr')
    (r := R) (b := decide ('.' = '\n')) (A := A) hjd hfr' hR
  -- assemble mantA
  obtain ⟨junkA1, hA1⟩ := cat_first (B := []) (C := [])
    (D := []) (E := junkD2)
    (F := ((⟨(j :: fr') ++ R, decide ('.' = '\n')⟩ : MSt), A)) hdot (by simp)
    (by show msplits (f + 1) (plusCls .digit) ⟨(j :: fr') ++ R, decide ('.' = '\n')⟩ A = _
        exact hd2)
  obtain ⟨C, hA⟩ := cat_first (B := []) (C := junkD1) (D := []) (E := junkA1)
    (F := ((⟨'.' :: ((j :: fr') ++ R), b2⟩ : MSt), A))
    (by show msplits (f + 1) (.starCls .digit) ⟨i ++ '.' :: ((j :: fr') ++ R), b1⟩ A = _
        exact hd1)
    (by simp) hA1
  -- assemble the signed mantissa and the whitespace
  obtain ⟨junkS, hS⟩ := cat_first (B := []) (C := []) (D := []) (E := C)
    (F := ((⟨i ++ '.' :: ((j :: fr') ++ R), b1⟩ : MSt), A)) hsign (by simp) hA
  obtain ⟨junkT, hT⟩ := cat_first (B := []) (C := junkW) (D := []) (E := junkS)
    (F := ((⟨i ++ '.' :: ((j :: fr') ++ R), b1⟩ : MSt), A)) hws (by simp) hS
  obtain ⟨junkF, hF⟩ := alt_first_left (L := []) (b := .catR mantB (optR expPart)) hT
  exact ⟨b3, junkF, hF⟩

/-- Committed result of the element alternative on an atom line: symbol
then the three numeric items. -/
theorem elemAtom_first {f : Nat} {a : AtomSpec} {X : List Char} {b : Bool} {A : Caps}
    (hok : a.ok) (hX : ∀ c, X.head? = some c → c.isDigit = false) :
    ∃ b' junk, msplits (f + 1) elemChoice ⟨a.lineNoNl ++ X, b⟩ A
      = ((⟨X, b'⟩ : MSt), A) :: junk := by
  obtain ⟨hsne, hsall, hi1, hf1, hi2, hf2, hi3, hf3⟩ := hok
  have hline : a.lineNoNl ++ X
      = a.sym ++ ' ' :: (a.i1 ++ '.' :: (a.f1 ++ (' '
          :: (a.i2 ++ '.' :: (a.f2 ++ (' ' :: (a.i3 ++ '.' :: (a.f3 ++ X)))))))) := by
    simp [AtomSpec.lineNoNl, numTok]
  rw [hline]
  obtain ⟨b1, junkS, hsym⟩ := symPat_first (f := f)
    (r := ' ' :: (a.i1 ++ '.' :: (a.f1 ++ (' '
      :: (a.i2 ++ '.' :: (a.f2 ++ (' ' :: (a.i3 ++ '.' :: (a.f3 ++ X)))))))))
    (b := b) (A := A) hsne hsall
    (by intro c hc
        simp only [List.head?] at hc
        have : ' ' = c := Option.some_inj.mp hc
        subst this
        decide)
  obtain ⟨b2, junk1, h1⟩ := numItem_first (f := f) (i := a.i1) (I := a.f1)
    (R := ' ' :: (a.i2 ++ '.' :: (a.f2 ++ (' ' :: (a.i3 ++ '.' :: (a.f3 ++ X))))))
    (b := b1) (A := A) hi1 hf1
    (by intro c hc
        simp only [List.head?] at hc
        have : ' ' = c := Option.some_inj.mp hc
        subst this
        decide)
  obtain ⟨b3, junk2, h2⟩ := numItem_first (f := f) (i := a.i2) (I := a.f2)
    (R := ' ' :: (a.i3 ++ '.' :: (a.f3 ++ X)))
    (b := b2) (A := A) hi2 hf2
    (by intro c hc
        simp only [List.head?] at hc
        have : ' ' = c := Option.some_inj.mp hc
        subst this
        decide)
  obtain ⟨b4, junk3, h3⟩ := numItem_first (f := f) (i := a.i3) (I := a.f3)
    (R := X) (b := b3) (A := A) hi3 hf3 hX
  obtain ⟨junk23, h23⟩ := cat_first (B := []) (C := junk2) (D := []) (E := junk3)
    (F := ((⟨' ' :: (a.i3 ++ '.' :: (a.f3 ++ X)), b3⟩ : MSt), A)) h2 (by simp) h3
  obtain ⟨junk123, h123⟩ := cat_first (B := []) (C := junk1) (D := [])
    (E := junk23)
    (F := ((⟨' ' :: (a.i2 ++ '.' :: (a.f2 ++ (' ' :: (a.i3 ++ '.' :: (a.f3 ++ X))))), b2⟩
      : MSt), A)) h1 (by simp) h23
  obtain ⟨junkE, hE⟩ := cat_first (B := []) (C := junkS) (D := []) (E := junk123)
    (F := ((⟨' ' :: (a.i1 ++ '.' :: (a.f1 ++ (' '
      :: (a.i2 ++ '.' :: (a.f2 ++ (' ' :: (a.i3 ++ '.' :: (a.f3 ++ X)))))))), b1⟩ : MSt), A))
    hsym (by simp) h123
  obtain ⟨junkF, hF⟩ := alt_first_left (L := []) (b := chR '#') hE
  exact ⟨b4, junkF, hF⟩

/-- The element alternative on a `#`-comment line: the symbol branch
fails outright and the `\#` branch consumes the hash. -/
theorem elemHash_first {f : Nat} {t : List Char} {b : Bool} {A : Caps} :
    msplits (f + 1) elemChoice ⟨'#' :: t, b⟩ A
      = [((⟨t, decide ('#' = '\n')⟩ : MSt), A)] := by
  have hsf : msplits (f + 1) (.catR symPat (.catR numItem (.catR numItem numItem)))
      ⟨'#' :: t, b⟩ A = [] := by
    refine cat_fail_left (cat_fail_left (plusCls_fail ?_))
    intro c hc
    simp only [List.head?] at hc
    have : '#' = c := Option.some_inj.mp hc
    subst this
    decide
  show msplits (f + 1) (.altR _ _) _ _ = _
  rw [msplits_alt, hsf, List.nil_append]
  exact cls_first (by decide)

/-- The element alternative fails when the head is neither a letter nor
a hash (or the input is empty). -/
theorem elemChoice_fail {f : Nat} {B : MSt} {A : Caps}
    (h : ∀ c, B.rem.head? = some c → c.isAlpha = false ∧ c ≠ '#') :
    msplits (f + 1) elemChoice ⟨B.rem, B.bol⟩ A = [] := by
  refine alt_fail (cat_fail_left (cat_fail_left (plusCls_fail ?_))) (cls_fail_head ?_)
  · exact fun c hc => (h c hc).1
  · intro c hc
    simp only [CC.test, decide_eq_false_iff_not]
    exact (h c hc).2

theorem alpha_head_append {s t : List Char} {c : Char} (hne : s ≠ [])
    (hall : s.all Char.isAlpha = true) (h : (s ++ t).head? = some c) : c.isAlpha = true := by
  rcases hse : s with _ | ⟨x, s'⟩
  · exact absurd hse hne
  · rw [hse] at h
    simp only [List.cons_append, List.head?] at h
    have hxc : x = c := Option.some_inj.mp h
    subst hxc
    rw [hse] at hall
    simp only [List.all_cons, Bool.and_eq_true] at hall
    exact hall.1

/-- A greedy class run stops immediately when the head fails the test. -/
theorem clsRuns_stop {p : CC} {r : List Char} {b : Bool}
    (hr : ∀ c, r.head? = some c → p.test c = false) : clsRuns p r b = [⟨r, b⟩] := by
  cases r with
  | nil => rfl
  | cons c t =>
    simp only [clsRuns]
    rw [if_neg (by simp [hr c rfl])]

/-- The two most-consuming results of a greedy class run over
`u ++ [c0]` followed by a stopping character. -/
theorem clsRuns_max2 {p : CC} {u r : List Char} {N : Char} {b : Bool}
    (hu : ∀ c ∈ u, p.test c = true) (hc0 : p.test N = true)
    (hr : ∀ c, r.head? = some c → p.test c = false) :
    ∃ b1 b2 junk, clsRuns p ((u ++ [N]) ++ r) b
      = (⟨r, b1⟩ : MSt) :: (⟨N :: r, b2⟩ : MSt) :: junk := by
  induction u generalizing b with
  | nil =>
    refine ⟨decide (N = '\n'), b, [], ?_⟩
    show clsRuns p (N :: r) b = _
    simp only [clsRuns]
    rw [if_pos hc0, clsRuns_stop hr]
    rfl
  | cons c u' ih =>
    obtain ⟨b1, b2, junk, hj⟩ := ih (fun d hd => hu d (List.mem_cons_of_mem c hd))
      (b := decide (c = '\n'))
    refine ⟨b1, b2, junk ++ [⟨c :: ((u' ++ [N]) ++ r), b⟩], ?_⟩
    show clsRuns p (c :: ((u' ++ [N]) ++ r)) b = _
    simp only [clsRuns]
    rw [if_pos (hu c (List.mem_cons_self c u')), hj]
    rfl

/-- A non-empty run of blank lines renders as whitespace ending in a
newline. -/
theorem blanks_split :
    ∀ (O : List PLine), O ≠ [] → (∀ p ∈ O, p.isBlank = true ∧ p.ok) →
      ∃ u, linesRender O = u ++ ['\n'] ∧ (∀ c ∈ u, CC.wsC.test c = true) := by
  intro O
  induction O with
  | nil => intro h; exact absurd rfl h
  | cons p bs' ih =>
    intro _ hbs
    obtain ⟨hpb, hpok⟩ := hbs p (List.mem_cons_self p bs')
    cases p with
    | atomL a => simp [PLine.isBlank] at hpb
    | hashL lead tl => simp [PLine.isBlank] at hpb
    | blankL ws =>
      simp only [PLine.ok] at hpok
      have hwsw : ∀ c ∈ ws, CC.wsC.test c = true :=
        fun c hc => sptab_ws (List.all_eq_true.mp hpok c hc)
      by_cases hbs0 : bs' = []
      · refine ⟨ws, ?_, hwsw⟩
        subst hbs0
        simp [linesRender, PLine.render]
      · obtain ⟨u', hu', hw'⟩ := ih hbs0
          (fun q hq => hbs q (List.mem_cons_of_mem (PLine.blankL ws) hq))
        refine ⟨ws ++ '\n' :: u', ?_, ?_⟩
        · rw [linesRender_cons, hu']
          simp [PLine.render]
        · intro c hc
          rcases List.mem_append.mp hc with h1 | h2
          · exact hwsw c h1
          rcases List.mem_cons.mp h2 with rfl | h3
          · decide
          · exact hw' c h3

/-- Committed result of one line pattern at a line consisting of
optional whitespace then an atom line: the whole line including its
newline is consumed. -/
theorem linePat_atom_first {f : Nat} {W : List Char} {a : AtomSpec} {X : List Char}
    {b : Bool} {A : Caps}
    (hW : ∀ c ∈ W, CC.wsC.test c = true) (hok : a.ok) :
    ∃ junk, msplits (f + 1) linePat ⟨W ++ (a.line ++ X), b⟩ A
      = ((⟨X, true⟩ : MSt), A) :: junk := by
  have hline : a.line ++ X = a.lineNoNl ++ '\n' :: X := by
    simp [AtomSpec.line, AtomSpec.lineNoNl, numTok]
  rw [hline]
  obtain ⟨b1, junkW, hws⟩ := starCls_first (f := f) (p := .wsC) (s := W)
    (r := a.lineNoNl ++ '\n' :: X) (b := b) (A := A) hW
    (by intro c hc
        simp only [AtomSpec.lineNoNl, List.append_assoc, List.cons_append] at hc
        exact alpha_not_ws (alpha_head_append hok.1 hok.2.1 hc))
  obtain ⟨b2, junkE, helem⟩ := elemAtom_first (f := f) (X := '\n' :: X) (b := b1) (A := A)
    hok
    (by intro c hc
        simp only [List.head?] at hc
        have : '\n' = c := Option.some_inj.mp hc
        subst this
        decide)
  obtain ⟨b3, junkD, hdots⟩ := starCls_first (f := f) (p := .dotC) (s := [])
    (r := '\n' :: X) (b := b2) (A := A) (by simp)
    (by intro c hc
        simp only [List.head?] at hc
        have : '\n' = c := Option.some_inj.mp hc
        subst this
        decide)
  have hnl : msplits (f + 1) (chR '\n') ⟨'\n' :: X, b3⟩ A
      = [((⟨X, decide ('\n' = '\n')⟩ : MSt), A)] := cls_first (by decide)
  obtain ⟨junkED, hED⟩ := cat_first (B := []) (C := junkE) (D := []) (E := junkD)
    (F := ((⟨'\n' :: X, b2⟩ : MSt), A)) helem (by simp) hdots
  obtain ⟨junkB1, hB1⟩ := cat_first (B := []) (C := junkW) (D := []) (E := junkED)
    (F := ((⟨a.lineNoNl ++ '\n' :: X, b1⟩ : MSt), A)) hws (by simp) hED
  obtain ⟨junkLB, hLB⟩ := alt_first_left (L := []) (b := .starCls .wsC) hB1
  obtain ⟨junkLP, hLP⟩ := cat_first (B := []) (C := junkLB) (D := []) (E := [])
    (F := ((⟨'\n' :: X, b3⟩ : MSt), A)) hLB (by simp) hnl
  refine ⟨junkLP, ?_⟩
  rw [show (⟨X, decide ('\n' = '\n')⟩ : MSt) = ⟨X, true⟩ from rfl] at hLP
  exact hLP

/-- Committed result of one line pattern at a `#`-comment line (with any
preceding whitespace): the whole line including its newline is
consumed. -/
theorem linePat_hash_first {f : Nat} {W lead tl X : List Char} {b : Bool} {A : Caps}
    (hW : ∀ c ∈ W, CC.wsC.test c = true)
    (hlead : ∀ c ∈ lead, CC.sptab.test c = true)
    (htl : ∀ c ∈ tl, CC.dotC.test c = true) :
    ∃ junk, msplits (f + 1) linePat ⟨W ++ ((lead ++ '#' :: (tl ++ ['\n'])) ++ X), b⟩ A
      = ((⟨X, true⟩ : MSt), A) :: junk := by
  have hshape : W ++ ((lead ++ '#' :: (tl ++ ['\n'])) ++ X)
      = (W ++ lead) ++ '#' :: (tl ++ '\n' :: X) := by
    simp
  rw [hshape]
  obtain ⟨b1, junkW, hws⟩ := starCls_first (f := f) (p := .wsC) (s := W ++ lead)
    (r := '#' :: (tl ++ '\n' :: X)) (b := b) (A := A)
    (by intro c hc
        rcases List.mem_append.mp hc with h1 | h2
        · exact hW c h1
        · exact sptab_ws (hlead c h2))
    (by intro c hc
        simp only [List.head?] at hc
        have : '#' = c := Option.some_inj.mp hc
        subst this
        decide)
  have helem : msplits (f + 1) elemChoice ⟨'#' :: (tl ++ '\n' :: X), b1⟩ A
      = [((⟨tl ++ '\n' :: X, decide ('#' = '\n')⟩ : MSt), A)] := elemHash_first
  obtain ⟨b3, junkD, hdots⟩ := starCls_first (f := f) (p := .dotC) (s := tl)
    (r := '\n' :: X) (b := decide ('#' = '\n')) (A := A) htl
    (by intro c hc
        simp only [List.head?] at hc
        have : '\n' = c := Option.some_inj.mp hc
        subst this
        decide)
  have hnl : msplits (f + 1) (chR '\n') ⟨'\n' :: X, b3⟩ A
      = [((⟨X, decide ('\n' = '\n')⟩ : MSt), A)] := cls_first (by decide)
  obtain ⟨junkED, hED⟩ := cat_first (B := []) (C := []) (D := []) (E := junkD)
    (F := ((⟨tl ++ '\n' :: X, decide ('#' = '\n')⟩ : MSt), A)) helem (by simp) hdots
  obtain ⟨junkB1, hB1⟩ := cat_first (B := []) (C := junkW) (D := []) (E := junkED)
    (F := ((⟨'#' :: (tl ++ '\n' :: X), b1⟩ : MSt), A)) hws (by simp) hED
  obtain ⟨junkLB, hLB⟩ := alt_first_left (L := []) (b := .starCls .wsC) hB1
  obtain ⟨junkLP, hLP⟩ := cat_first (B := []) (C := junkLB) (D := []) (E := [])
    (F := ((⟨'\n' :: X, b3⟩ : MSt), A)) hLB (by simp) hnl
  refine ⟨junkLP, ?_⟩
  rw [show (⟨X, decide ('\n' = '\n')⟩ : MSt) = ⟨X, true⟩ from rfl] at hLP
  exact hLP

/-- Any word of the line pattern's language contains a newline. -/
theorem inL_linePat_nl {s : List Char} (h : InL linePat s) : '\n' ∈ s := by
  obtain ⟨u, v, rfl, _, hv⟩ := inL_cat h
  obtain ⟨c, rfl, hc⟩ := inL_cls hv
  have : c = '\n' := of_decide_eq_true hc
  subst this
  simp

/-- The line pattern fails where a positions block must end: at the end
of the input, at a digit-led line (the next frame's count line), and on
text containing no newline. -/
theorem linePat_fail {f : Nat} {K : List Char} {b : Bool} {A : Caps} (h : RestStop K) :
    msplits (f + 1) linePat ⟨K, b⟩ A = [] := by
  have hnl : ¬ '\n' ∈ K → msplits (f + 1) linePat ⟨K, b⟩ A = [] := by
    intro hmem
    refine List.eq_nil_iff_forall_not_mem.mpr (fun z hz => ?_)
    have hms := msplits_sound (f + 1) linePat ⟨K, b⟩ A z hz
    obtain ⟨s, hs, hinL⟩ := hms.1
    have hrs : K = s ++ z.1.rem := hs
    exact hmem (hrs ▸ List.mem_append_left _ (inL_linePat_nl hinL))
  rcases h with rfl | ⟨d, t, rfl, hd⟩ | hmem
  · exact hnl (by simp)
  · have hws : msplits (f + 1) (.starCls .wsC) ⟨d :: t, b⟩ A = [((⟨d :: t, b⟩ : MSt), A)] := by
      rw [msplits_star]
      show (clsRuns CC.wsC (d :: t) b).map (fun st' => (st', A)) = _
      rw [clsRuns_stop (by
        intro c hc
        simp only [List.head?] at hc
        have : d = c := Option.some_inj.mp hc
        subst this
        exact digit_not_ws hd)]
      rfl
    have helem : msplits (f + 1) elemChoice ⟨d :: t, b⟩ A = [] := by
      have h0 := elemChoice_fail (f := f) (B := ⟨d :: t, b⟩) (A := A) (by
        intro c hc
        simp only [List.head?] at hc
        have : d = c := Option.some_inj.mp hc
        subst this
        refine ⟨digit_not_alpha hd, ?_⟩
        rintro rfl
        exact absurd hd (by decide))
      exact h0
    have halt1 : msplits (f + 1)
        (.catR (.starCls .wsC) (.catR elemChoice (.starCls .dotC))) ⟨d :: t, b⟩ A = [] := by
      rw [msplits_cat, hws, List.flatMap_cons, List.flatMap_nil, List.append_nil]
      exact cat_fail_left helem
    have hbody : msplits (f + 1) lineBody ⟨d :: t, b⟩ A = [((⟨d :: t, b⟩ : MSt), A)] := by
      show msplits (f + 1) (.altR _ _) _ _ = _
      rw [msplits_alt, halt1, List.nil_append, hws]
    show msplits (f + 1) (.catR lineBody (chR '\n')) _ _ = []
    rw [msplits_cat, hbody, List.flatMap_cons, List.flatMap_nil, List.append_nil]
    refine cls_fail_head ?_
    intro c hc
    simp only [List.head?] at hc
    have : d = c := Option.some_inj.mp hc
    subst this
    simp only [CC.test, decide_eq_false_iff_not]
    rintro rfl
    exact absurd hd (by decide)
  · exact hnl hmem

/-- The repeated line pattern fails at a block boundary, for every fuel
value. -/
theorem plusLinePat_fail {K : List Char} {b : Bool} {A : Caps} (h : RestStop K) :
    ∀ G, msplits G (.plusR linePat) ⟨K, b⟩ A = [] := by
  intro G
  cases G with
  | zero => rfl
  | succ g =>
    rw [msplits_plus, linePat_fail h]
    rfl

theorem ws_ne_hash {c : Char} (h : CC.wsC.test c = true) : c ≠ '#' := by
  simp only [CC.test, decide_eq_true_eq] at h
  rcases h with rfl | rfl | rfl | rfl | rfl | rfl <;> decide

/-- Committed result of one line pattern on a trailing run of blank
lines followed by a block boundary: the greedy whitespace backtracks to
just before the final newline, and the whole blank run is consumed in a
single iteration. -/
theorem linePat_blanks_first {f : Nat} {O : List PLine} {K : List Char} {b : Bool}
    {A : Caps} (hne : O ≠ []) (hbs : ∀ p ∈ O, p.isBlank = true ∧ p.ok)
    (hstop : ∀ c, K.head? = some c → CC.wsC.test c = false ∧ c.isAlpha = false ∧ c ≠ '#') :
    ∃ junk, msplits (f + 1) linePat ⟨linesRender O ++ K, b⟩ A
      = ((⟨K, true⟩ : MSt), A) :: junk := by
  obtain ⟨u, hu, hwsu⟩ := blanks_split O hne hbs
  rw [hu]
  have hW : ∀ c ∈ u ++ ['\n'], CC.wsC.test c = true := by
    intro c hc
    rcases List.mem_append.mp hc with h1 | h2
    · exact hwsu c h1
    · rw [List.mem_singleton.mp h2]
      decide
  obtain ⟨b1, b2, junkR, hruns⟩ := clsRuns_max2 (p := .wsC) (u := u) (N := '\n')
    (r := K) (b := b) hwsu (by decide) (fun c hc => (hstop c hc).1)
  have halt1 : msplits (f + 1)
      (.catR (.starCls .wsC) (.catR elemChoice (.starCls .dotC)))
      ⟨(u ++ ['\n']) ++ K, b⟩ A = [] := by
    refine cat_fail_all ?_
    intro z hz
    rw [msplits_star] at hz
    obtain ⟨st', hst', rfl⟩ := List.mem_map.mp hz
    obtain ⟨u0, v, hsv, hu0, hrem⟩ := clsRuns_mem hst'
    have hsv' : (u ++ ['\n']) ++ K = u0 ++ v := hsv
    have hv : ∀ c, v.head? = some c → c.isAlpha = false ∧ c ≠ '#' := by
      rcases List.append_eq_append_iff.mp hsv' with ⟨a', hu0eq, hrest⟩ | ⟨c', hWeq, hveq⟩
      · rcases ha : a' with _ | ⟨x, t⟩
        · subst ha
          simp only [List.nil_append] at hrest
          intro c hc
          rw [← hrest] at hc
          exact ⟨(hstop c hc).2.1, (hstop c hc).2.2⟩
        · subst ha
          have hxw : CC.wsC.test x = true := hu0 x (by rw [hu0eq]; simp)
          have hxr : CC.wsC.test x = false := (hstop x (by rw [hrest]; rfl)).1
          rw [hxw] at hxr
          cases hxr
      · rcases hcc : c' with _ | ⟨x, t⟩
        · subst hcc
          simp only [List.nil_append] at hveq
          intro c hc
          rw [hveq] at hc
          exact ⟨(hstop c hc).2.1, (hstop c hc).2.2⟩
        · subst hcc
          intro c hc
          rw [hveq] at hc
          simp only [List.cons_append, List.head?] at hc
          have hcx : x = c := Option.some_inj.mp hc
          subst hcx
          have hxw : CC.wsC.test x = true := hW x (by rw [hWeq]; simp)
          exact ⟨ws_not_alpha hxw, ws_ne_hash hxw⟩
    refine cat_fail_left ?_
    have h0 := elemChoice_fail (f := f) (B := st') (A := A) (by
      intro c hc
      rw [hrem] at hc
      exact hv c hc)
    exact h0
  have hbody : msplits (f + 1) lineBody ⟨(u ++ ['\n']) ++ K, b⟩ A
      = ((⟨K, b1⟩ : MSt), A) :: ((⟨'\n' :: K, b2⟩ : MSt), A)
          :: junkR.map (fun st' => (st', A)) := by
    show msplits (f + 1) (.altR _ _) _ _ = _
    rw [msplits_alt, halt1, List.nil_append, msplits_star]
    show (clsRuns CC.wsC ((u ++ ['\n']) ++ K) b).map (fun st' => (st', A)) = _
    rw [hruns]
    rfl
  have hfail1 : msplits (f + 1) (chR '\n') ⟨K, b1⟩ A = [] := by
    refine cls_fail_head ?_
    intro c hc
    have h1 := (hstop c hc).1
    simp only [CC.test, decide_eq_false_iff_not]
    rintro rfl
    exact absurd h1 (by decide)
  have hgood : msplits (f + 1) (chR '\n') ⟨'\n' :: K, b2⟩ A
      = [((⟨K, decide ('\n' = '\n')⟩ : MSt), A)] := cls_first (by decide)
  refine ⟨(junkR.map fun st' => (st', A)).flatMap
    (fun r => msplits (f + 1) (chR '\n') r.1 r.2), ?_⟩
  show msplits (f + 1) (.catR lineBody (chR '\n')) ⟨(u ++ ['\n']) ++ K, b⟩ A = _
  rw [msplits_cat, hbody, List.flatMap_cons, List.flatMap_cons, hfail1, hgood, List.nil_append]
  rw [show (⟨K, decide ('\n' = '\n')⟩ : MSt) = ⟨K, true⟩ from rfl]
  rfl

theorem linesRender_append {xs ys : List PLine} :
    linesRender (xs ++ ys) = linesRender xs ++ linesRender ys := by
  simp [linesRender]

theorem blanksRender_ws :
    ∀ (O : List PLine), (∀ p ∈ O, p.isBlank = true ∧ p.ok) →
      ∀ c ∈ linesRender O, CC.wsC.test c = true := by
  intro O
  induction O with
  | nil => intro _ c hc; simp [linesRender] at hc
  | cons p bs' ih =>
    intro hbs c hc
    rw [linesRender_cons] at hc
    rcases List.mem_append.mp hc with h1 | h2
    · obtain ⟨hpb, hpok⟩ := hbs p (List.mem_cons_self p bs')
      cases p with
      | atomL a => simp [PLine.isBlank] at hpb
      | hashL lead tl => simp [PLine.isBlank] at hpb
      | blankL ws =>
        simp only [PLine.render] at h1
        rcases List.mem_append.mp h1 with h3 | h4
        · exact sptab_ws (List.all_eq_true.mp hpok c h3)
        · rw [List.mem_singleton.mp h4]
          decide
    · exact ih (fun q hq => hbs q (List.mem_cons_of_mem p hq)) c h2

theorem dropWhile_head_false {α : Type} (p : α → Bool) :
    ∀ (l : List α) (x : α) (xs : List α), l.dropWhile p = x :: xs → p x = false := by
  intro l
  induction l with
  | nil => intro x xs h; simp [List.dropWhile] at h
  | cons a t ih =>
    intro x xs h
    by_cases hp : p a = true
    · rw [List.dropWhile_cons_of_pos hp] at h
      exact ih x xs h
    · rw [List.dropWhile_cons_of_neg hp] at h
      obtain ⟨h1, _⟩ := List.cons_eq_cons.mp h
      rw [← h1]
      exact (Bool.not_eq_true _).mp hp

/-- The committed parse of the repeated line pattern on a rendered
positions block followed by a block boundary consumes every line and
resumes at a line start. -/
theorem plusLines_first :
    ∀ (G : Nat) (ls : List PLine), ls ≠ [] → (∀ l ∈ ls, l.ok) → ls.length ≤ G →
    ∀ (K : List Char) (b : Bool) (A : Caps),
      (K = [] ∨ ∃ d t, K = d :: t ∧ d.isDigit = true) →
      ∃ junk, msplits (G + 1) (.plusR linePat) ⟨linesRender ls ++ K, b⟩ A
        = ((⟨K, true⟩ : MSt), A) :: junk := by
  intro G
  induction G with
  | zero =>
    intro ls hne _ hlen
    cases ls with
    | nil => exact absurd rfl hne
    | cons l ls' => simp at hlen
  | succ g ih =>
    intro ls hne hok hlen K b A hstop
    have hstop' : ∀ c, K.head? = some c
        → CC.wsC.test c = false ∧ c.isAlpha = false ∧ c ≠ '#' := by
      rcases hstop with rfl | ⟨d, t, rfl, hd⟩
      · intro c hc; simp at hc
      · intro c hc
        simp only [List.head?] at hc
        have hdc : d = c := Option.some_inj.mp hc
        subst hdc
        exact ⟨digit_not_ws hd, digit_not_alpha hd, by rintro rfl; exact absurd hd (by decide)⟩
    have hRS : RestStop K := by
      rcases hstop with rfl | ⟨d, t, rfl, hd⟩
      · exact Or.inl rfl
      · exact Or.inr (Or.inl ⟨d, t, rfl, hd⟩)
    have hls : ls.takeWhile PLine.isBlank ++ ls.dropWhile PLine.isBlank = ls :=
      List.takeWhile_append_dropWhile PLine.isBlank ls
    have hbsfacts : ∀ p ∈ ls.takeWhile PLine.isBlank, p.isBlank = true ∧ p.ok := by
      intro p hp
      refine ⟨List.mem_takeWhile_imp hp, hok p ?_⟩
      rw [← hls]
      exact List.mem_append_left _ hp
    rcases hsplit : ls.dropWhile PLine.isBlank with _ | ⟨l0, ls2⟩
    · -- the whole block is blank lines
      rw [hsplit] at hls
      simp only [List.append_nil] at hls
      obtain ⟨junkL, hiter⟩ := linePat_blanks_first (f := g + 1) (O := ls) (K := K)
        (b := b) (A := A) hne (by rw [← hls]; exact hbsfacts) hstop'
      refine ⟨junkL.flatMap (fun r => msplits (g + 1) (.plusR linePat) r.1 r.2 ++ [r]), ?_⟩
      rw [msplits_plus, hiter, List.flatMap_cons, plusLinePat_fail hRS (g + 1)]
      rfl
    · -- a non-blank line follows the blank prefix
      have hl0nb : l0.isBlank = false := dropWhile_head_false _ ls l0 ls2 hsplit
      have hlseq : ls.takeWhile PLine.isBlank ++ l0 :: ls2 = ls := by
        rw [← hsplit]
        exact hls
      have hl0ok : l0.ok := hok l0 (by rw [← hlseq]; simp)
      have hls2ok : ∀ x ∈ ls2, x.ok := by
        intro x hx
        refine hok x ?_
        rw [← hlseq]
        exact List.mem_append_right _ (List.mem_cons_of_mem l0 hx)
      have hrender : linesRender ls ++ K
          = linesRender (ls.takeWhile PLine.isBlank)
              ++ (l0.render ++ (linesRender ls2 ++ K)) := by
        have hlr : linesRender ls
            = linesRender (ls.takeWhile PLine.isBlank) ++ (l0.render ++ linesRender ls2) := by
          conv_lhs => rw [← hlseq]
          rw [linesRender_append, linesRender_cons]
        rw [hlr]
        simp
      have hWws := blanksRender_ws (ls.takeWhile PLine.isBlank) hbsfacts
      -- the committed iteration consumes the blanks and the line
      have hiter : ∃ junkL, msplits ((g + 1) + 1) linePat
          ⟨linesRender (ls.takeWhile PLine.isBlank)
            ++ (l0.render ++ (linesRender ls2 ++ K)), b⟩ A
          = ((⟨linesRender ls2 ++ K, true⟩ : MSt), A) :: junkL := by
        cases l0 with
        | atomL a =>
          simp only [PLine.render]
          exact linePat_atom_first (f := g + 1) hWws hl0ok
        | blankL ws => simp [PLine.isBlank] at hl0nb
        | hashL lead tl =>
          simp only [PLine.render]
          simp only [PLine.ok] at hl0ok
          exact linePat_hash_first (f := g + 1) hWws
            (fun c hc => List.all_eq_true.mp hl0ok.1 c hc)
            (fun c hc => List.all_eq_true.mp hl0ok.2 c hc)
      obtain ⟨junkL, hiter⟩ := hiter
      rw [hrender]
      -- the continuation
      have hcont : ∃ junk2, msplits (g + 1) (.plusR linePat)
          ⟨linesRender ls2 ++ K, true⟩ A ++ [((⟨linesRender ls2 ++ K, true⟩ : MSt), A)]
          = ((⟨K, true⟩ : MSt), A) :: junk2 := by
        rcases hls2 : ls2 with _ | ⟨m, ms⟩
        · refine ⟨[], ?_⟩
          have hr0 : linesRender ([] : List PLine) ++ K = K := by
            simp [linesRender]
          rw [hr0, plusLinePat_fail hRS (g + 1)]
          rfl
        · rw [← hls2]
          have hlen2 : ls2.length ≤ g := by
            rw [← hlseq] at hlen
            simp only [List.length_append, List.length_cons] at hlen
            omega
          rcases g with _ | g'
          · rw [hls2] at hlen2; simp at hlen2
          obtain ⟨junk2, hrec⟩ := ih ls2 (by rw [hls2]; simp) hls2ok hlen2 K true A hstop
          exact ⟨junk2 ++ [((⟨linesRender ls2 ++ K, true⟩ : MSt), A)],
            by rw [hrec]; rfl⟩
      obtain ⟨junk2, hcont⟩ := hcont
      refine ⟨junk2 ++ junkL.flatMap (fun r => msplits (g + 1) (.plusR linePat) r.1 r.2 ++ [r]),
        ?_⟩
      rw [msplits_plus, hiter, List.flatMap_cons, hcont]
      rfl

/-- Variant of the committed block parse for a run of non-blank lines
followed by any block boundary (including a newline-free leftover). -/
theorem plusLines_first_nb :
    ∀ (G : Nat) (ls : List PLine), ls ≠ [] → (∀ l ∈ ls, l.ok) →
      (∀ l ∈ ls, l.isBlank = false) → ls.length ≤ G →
    ∀ (K : List Char) (b : Bool) (A : Caps), RestStop K →
      ∃ junk, msplits (G + 1) (.plusR linePat) ⟨linesRender ls ++ K, b⟩ A
        = ((⟨K, true⟩ : MSt), A) :: junk := by
  intro G
  induction G with
  | zero =>
    intro ls hne _ _ hlen
    cases ls with
    | nil => exact absurd rfl hne
    | cons l ls' => simp at hlen
  | succ g ih =>
    intro ls hne hok hnb hlen K b A hRS
    cases ls with
    | nil => exact absurd rfl hne
    | cons l0 ls2 =>
      have hl0ok : l0.ok := hok l0 (List.mem_cons_self l0 ls2)
      have hl0nb : l0.isBlank = false := hnb l0 (List.mem_cons_self l0 ls2)
      have hrender : linesRender (l0 :: ls2) ++ K
          = l0.render ++ (linesRender ls2 ++ K) := by
        rw [linesRender_cons]
        simp
      have hiter : ∃ junkL, msplits ((g + 1) + 1) linePat
          ⟨l0.render ++ (linesRender ls2 ++ K), b⟩ A
          = ((⟨linesRender ls2 ++ K, true⟩ : MSt), A) :: junkL := by
        cases l0 with
        | atomL a =>
          simp only [PLine.render]
          obtain ⟨junkL, hj⟩ := linePat_atom_first (f := g + 1) (W := [])
            (X := linesRender ls2 ++ K) (b := b) (A := A) (by simp) hl0ok
          exact ⟨junkL, hj⟩
        | blankL ws => simp [PLine.isBlank] at hl0nb
        | hashL lead tl =>
          simp only [PLine.render]
          simp only [PLine.ok] at hl0ok
          obtain ⟨junkL, hj⟩ := linePat_hash_first (f := g + 1) (W := [])
            (X := linesRender ls2 ++ K) (b := b) (A := A) (by simp)
            (fun c hc => List.all_eq_true.mp hl0ok.1 c hc)
            (fun c hc => List.all_eq_true.mp hl0ok.2 c hc)
          exact ⟨junkL, hj⟩
      obtain ⟨junkL, hiter⟩ := hiter
      rw [hrender]
      have hcont : ∃ junk2, msplits (g + 1) (.plusR linePat)
          ⟨linesRender ls2 ++ K, true⟩ A ++ [((⟨linesRender ls2 ++ K, true⟩ : MSt), A)]
          = ((⟨K, true⟩ : MSt), A) :: junk2 := by
        rcases hls2 : ls2 with _ | ⟨m, ms⟩
        · refine ⟨[], ?_⟩
          have hr0 : linesRender ([] : List PLine) ++ K = K := by
            simp [linesRender]
          rw [hr0, plusLinePat_fail hRS (g + 1)]
          rfl
        · rw [← hls2]
          have hlen2 : ls2.length ≤ g := by
            simp only [List.length_cons] at hlen
            omega
          rcases g with _ | g'
          · rw [hls2] at hlen2; simp at hlen2
          obtain ⟨junk2, hrec⟩ := ih ls2 (by rw [hls2]; simp)
            (fun x hx => hok x (List.mem_cons_of_mem l0 hx))
            (fun x hx => hnb x (List.mem_cons_of_mem l0 hx)) hlen2 K true A hRS
          exact ⟨junk2 ++ [((⟨linesRender ls2 ++ K, true⟩ : MSt), A)],
            by rw [hrec]; rfl⟩
      obtain ⟨junk2, hcont⟩ := hcont
      refine ⟨junk2 ++ junkL.flatMap (fun r => msplits (g + 1) (.plusR linePat) r.1 r.2 ++ [r]),
        ?_⟩
      rw [msplits_plus, hiter, List.flatMap_cons, hcont]
      rfl

/-- Committed result of the full framing pattern on one frame's text:
the whole frame is consumed and the three named groups capture the
count, the comment and the positions block. -/
theorem pos_block_first {f : Nat} {natStr comment : List Char} {ls : List PLine}
    {K : List Char} {A : Caps}
    (hnat : digitsOk natStr) (hcom : commentOk comment)
    (hplus : ∀ (b' : Bool) (cp' : Caps), ∃ junk,
      msplits (f + 1) (.plusR linePat) ⟨linesRender ls ++ K, b'⟩ cp'
        = ((⟨K, true⟩ : MSt), cp') :: junk) :
    ∃ junk, msplits (f + 1) pos_block_regex ⟨frameText natStr comment ls ++ K, true⟩ A
      = ((⟨K, true⟩ : MSt),
          (gPositions, linesRender ls) :: (gComment, comment) :: (gNatoms, natStr) :: A)
          :: junk := by
  have hshape : frameText natStr comment ls ++ K
      = natStr ++ '\n' :: (comment ++ '\n' :: (linesRender ls ++ K)) := by
    simp [frameText]
  rw [hshape]
  -- leading optional blanks: zero run
  obtain ⟨bs1, junk1, hsp1⟩ := starCls_first (f := f) (p := .sptab) (s := [])
    (r := natStr ++ '\n' :: (comment ++ '\n' :: (linesRender ls ++ K)))
    (b := true) (A := A) (by simp)
    (fun c hc => digit_not_sptab (digitsOk_append_head hnat hc))
  -- the atom-count group
  rcases hnse : natStr with _ | ⟨n0, ns⟩
  · exact absurd hnse hnat.1
  subst hnse
  have hn0 : n0.isDigit = true := by
    have := hnat.2
    simp only [List.all_cons, Bool.and_eq_true] at this
    exact this.1
  have hns : ∀ x ∈ ns, x.isDigit = true := by
    have := hnat.2
    simp only [List.all_cons, Bool.and_eq_true] at this
    exact fun x hx => List.all_eq_true.mp this.2 x hx
  obtain ⟨bn, junk2, hplusn⟩ := plusCls_first (f := f) (p := .digit) (c := n0) (s := ns)
    (r := '\n' :: (comment ++ '\n' :: (linesRender ls ++ K)))
    (b := bs1) (A := A) hn0 hns
    (by intro c hc
        simp only [List.head?] at hc
        have : '\n' = c := Option.some_inj.mp hc
        subst this
        decide)
  obtain ⟨junk2g, hgnat⟩ := grp_first (n := gNatoms) hplusn
  -- blanks after the count: zero run
  obtain ⟨bs2, junk3, hsp2⟩ := starCls_first (f := f) (p := .sptab) (s := [])
    (r := '\n' :: (comment ++ '\n' :: (linesRender ls ++ K)))
    (b := bn) (A := (gNatoms, n0 :: ns) :: A) (by simp)
    (by intro c hc
        simp only [List.head?] at hc
        have : '\n' = c := Option.some_inj.mp hc
        subst this
        decide)
  have hnl1 : msplits (f + 1) (chR '\n')
      ⟨'\n' :: (comment ++ '\n' :: (linesRender ls ++ K)), bs2⟩ ((gNatoms, n0 :: ns) :: A)
      = [((⟨comment ++ '\n' :: (linesRender ls ++ K), decide ('\n' = '\n')⟩ : MSt),
          (gNatoms, n0 :: ns) :: A)] := cls_first (by decide)
  -- the comment group
  obtain ⟨bc, junk4, hsc⟩ := starCls_first (f := f) (p := .dotC) (s := comment)
    (r := '\n' :: (linesRender ls ++ K)) (b := decide ('\n' = '\n'))
    (A := (gNatoms, n0 :: ns) :: A)
    (fun c hc => List.all_eq_true.mp hcom c hc)
    (by intro c hc
        simp only [List.head?] at hc
        have : '\n' = c := Option.some_inj.mp hc
        subst this
        decide)
  obtain ⟨junk4g, hgcom⟩ := grp_first (n := gComment) hsc
  have hnl2 : msplits (f + 1) (chR '\n')
      ⟨'\n' :: (linesRender ls ++ K), bc⟩
      ((gComment, comment) :: (gNatoms, n0 :: ns) :: A)
      = [((⟨linesRender ls ++ K, decide ('\n' = '\n')⟩ : MSt),
          (gComment, comment) :: (gNatoms, n0 :: ns) :: A)] := cls_first (by decide)
  -- the positions group
  obtain ⟨junk5, hpl⟩ := hplus (decide ('\n' = '\n'))
    ((gComment, comment) :: (gNatoms, n0 :: ns) :: A)
  obtain ⟨junk5g, hgpos⟩ := grp_first (n := gPositions) hpl
  -- assemble back to front
  obtain ⟨junk6, h6⟩ := cat_first (B := []) (C := []) (D := []) (E := junk5g)
    (F := ((⟨linesRender ls ++ K, decide ('\n' = '\n')⟩ : MSt),
      (gComment, comment) :: (gNatoms, n0 :: ns) :: A)) hnl2 (by simp) hgpos
  obtain ⟨junk7, h7⟩ := cat_first (B := []) (C := junk4g) (D := []) (E := junk6)
    (F := ((⟨'\n' :: (linesRender ls ++ K), bc⟩ : MSt),
      (gComment, comment) :: (gNatoms, n0 :: ns) :: A)) hgcom (by simp) h6
  obtain ⟨junk8, h8⟩ := cat_first (B := []) (C := []) (D := []) (E := junk7)
    (F := ((⟨comment ++ '\n' :: (linesRender ls ++ K), decide ('\n' = '\n')⟩ : MSt),
      (gNatoms, n0 :: ns) :: A)) hnl1 (by simp) h7
  obtain ⟨junk9, h9⟩ := cat_first (B := []) (C := junk3) (D := []) (E := junk8)
    (F := ((⟨'\n' :: (comment ++ '\n' :: (linesRender ls ++ K)), bs2⟩ : MSt),
      (gNatoms, n0 :: ns) :: A)) hsp2 (by simp) h8
  obtain ⟨junk10, h10⟩ := cat_first (B := []) (C := junk2g) (D := []) (E := junk9)
    (F := ((⟨'\n' :: (comment ++ '\n' :: (linesRender ls ++ K)), bn⟩ : MSt),
      (gNatoms, n0 :: ns) :: A)) hgnat (by simp) h9
  obtain ⟨junk11, h11⟩ := cat_first (B := []) (C := junk1) (D := []) (E := junk10)
    (F := ((⟨(n0 :: ns) ++ '\n' :: (comment ++ '\n' :: (linesRender ls ++ K)), bs1⟩ : MSt),
      A)) hsp1 (by simp) h10
  refine ⟨junk11, ?_⟩
  show msplits (f + 1) (.catR .bolR _) _ _ = _
  rw [msplits_cat, msplits_bol, if_pos rfl, List.flatMap_cons, List.flatMap_nil, List.append_nil]
  exact h11

theorem inL_plus_linePat_nl {w : List Char} (h : InL (.plusR linePat) w) : '\n' ∈ w := by
  cases h with
  | plusOne h1 => exact inL_linePat_nl h1
  | plusMore h1 _ => exact List.mem_append_left _ (inL_linePat_nl h1)

/-- Any word of the framing pattern's language contains at least three
newlines: one after the count, one after the comment, one inside the
positions block. -/
theorem inL_block_nl3 {s : List Char} (h : InL pos_block_regex s) : 3 ≤ s.count '\n' := by
  obtain ⟨u0, v0, rfl, _, hv0⟩ := inL_cat h
  obtain ⟨u1, v1, rfl, _, hv1⟩ := inL_cat hv0
  obtain ⟨u2, v2, rfl, _, hv2⟩ := inL_cat hv1
  obtain ⟨u3, v3, rfl, _, hv3⟩ := inL_cat hv2
  obtain ⟨u4, v4, rfl, hnl1, hv4⟩ := inL_cat hv3
  obtain ⟨u5, v5, rfl, _, hv5⟩ := inL_cat hv4
  obtain ⟨u6, v6, rfl, hnl2, hv6⟩ := inL_cat hv5
  obtain ⟨c4, rfl, hc4⟩ := inL_cls hnl1
  obtain rfl : c4 = '\n' := of_decide_eq_true hc4
  obtain ⟨c6, rfl, hc6⟩ := inL_cls hnl2
  obtain rfl : c6 = '\n' := of_decide_eq_true hc6
  have hpos : '\n' ∈ v6 := inL_plus_linePat_nl (inL_grp hv6)
  have hv6c : v6.count '\n' ≠ 0 := fun h0 => (List.count_eq_zero.mp h0) hpos
  have hone : (['\n'] : List Char).count '\n' = 1 := by decide
  simp only [List.count_append, hone]
  omega

/-- The framing pattern fails on any input with fewer than three
newlines. -/
theorem block_fail_nl3 {s : List Char} {b : Bool} {A : Caps} (h : s.count '\n' < 3) :
    ∀ G, msplits G pos_block_regex ⟨s, b⟩ A = [] := by
  intro G
  cases G with
  | zero => rfl
  | succ f =>
    refine List.eq_nil_iff_forall_not_mem.mpr (fun z hz => ?_)
    have hms := msplits_sound (f + 1) pos_block_regex ⟨s, b⟩ A z hz
    obtain ⟨w, hw, hinL⟩ := hms.1
    have hws : s = w ++ z.1.rem := hw
    have h3 := inL_block_nl3 hinL
    have hcnt : s.count '\n' = w.count '\n' + z.1.rem.count '\n' := by
      rw [hws, List.count_append]
    omega

/-- A scan over text on which the pattern fails everywhere finds no
match. -/
theorem finditer_fail_all {M H : Nat} {re : RE} (P : List Char → Prop)
    (hfail : ∀ u (b : Bool), P u → msplits M re ⟨u, b⟩ [] = [])
    (hstep : ∀ c u, P (c :: u) → P u) :
    ∀ (G : Nat) (u : List Char) (b : Bool),
      u.length + 1 ≤ G → P u → finditer M re H G ⟨u, b⟩ = [] := by
  intro G
  induction G with
  | zero => intro u b _ _; rfl
  | succ g ih =>
    intro u b hlen hP
    cases u with
    | nil => exact finditer_nil (by rw [hfail [] b hP]; rfl)
    | cons c t =>
      rw [finditer_skip (by rw [hfail (c :: t) b hP]; rfl)]
      refine ih t _ ?_ (hstep c t hP)
      simp only [List.length_cons] at hlen
      omega

theorem render_len_pos (l : PLine) : 1 ≤ (PLine.render l).length := by
  cases l with
  | atomL a =>
    simp only [PLine.render, AtomSpec.line, List.length_append, List.length_cons]
    omega
  | blankL ws =>
    simp only [PLine.render, List.length_append, List.length_cons, List.length_nil]
    omega
  | hashL lead tl =>
    simp only [PLine.render, List.length_append, List.length_cons, List.length_nil]
    omega

theorem linesRender_len : ∀ ls : List PLine, ls.length ≤ (linesRender ls).length := by
  intro ls
  induction ls with
  | nil => simp [linesRender]
  | cons l ls' ih =>
    rw [linesRender_cons]
    simp only [List.length_cons, List.length_append]
    have := render_len_pos l
    omega

theorem forall2_map_record {ms : List RMatch} {as : List AtomSpec}
    (h : List.Forall₂ (fun m a => recordOf false m = some a.record) ms as) :
    List.Forall₂ (fun m r => recordOf false m = some r) ms (as.map AtomSpec.record) := by
  induction h with
  | nil => exact List.Forall₂.nil
  | cons ha _ ih =>
    simp only [List.map_cons]
    exact List.Forall₂.cons ha ih

theorem forall2_recordOf_isSome {ms : List RMatch} {as : List AtomSpec}
    (h : List.Forall₂ (fun m a => recordOf false m = some a.record) ms as) :
    ∀ m ∈ ms, (recordOf false m).isSome = true := by
  induction h with
  | nil => intro m hm; simp at hm
  | cons ha _ ih =>
    intro m hm
    rcases List.mem_cons.mp hm with rfl | hm'
    · rw [ha]; rfl
    · exact ih m hm'

/-- Parsing one well-formed frame: exactly one tuple is yielded, built
from the three captures of the committed block match, which spans the
whole input. -/
theorem single_frame_parse {natStr comment : List Char} {ls : List PLine}
    (hnat : digitsOk natStr) (hcom : commentOk comment) (hne : ls ≠ [])
    (hok : ∀ l ∈ ls, l.ok) :
    xyz_parser_iterator (frameText natStr comment ls) false
      = [some ⟨digitsVal natStr, comment,
          ⟨finditerRun pos_regex (linesRender ls), digitsVal natStr, 0, false⟩,
          ⟨0, (frameText natStr comment ls).length,
            [(gPositions, linesRender ls), (gComment, comment), (gNatoms, natStr)]⟩⟩] := by
  have hlslen : ls.length ≤ (frameText natStr comment ls).length := by
    have h1 := linesRender_len ls
    simp only [frameText, List.length_append, List.length_cons]
    omega
  have hslen : 1 ≤ (frameText natStr comment ls).length := by
    simp only [frameText, List.length_append, List.length_cons]
    omega
  have hplus : ∀ (b' : Bool) (cp' : Caps), ∃ junk,
      msplits ((frameText natStr comment ls).length + 1 + 1) (.plusR linePat)
        ⟨linesRender ls ++ [], b'⟩ cp' = ((⟨([] : List Char), true⟩ : MSt), cp') :: junk := by
    intro b' cp'
    exact plusLines_first ((frameText natStr comment ls).length + 1) ls hne hok
      (by omega) [] b' cp' (Or.inl rfl)
  obtain ⟨E, hblock⟩ := pos_block_first (f := (frameText natStr comment ls).length + 1)
    (K := []) (A := []) hnat hcom hplus
  rw [List.append_nil] at hblock
  have hblock' : msplits ((frameText natStr comment ls).length + 2) pos_block_regex
      ⟨frameText natStr comment ls, true⟩ []
      = ((⟨([] : List Char), true⟩ : MSt),
          (gPositions, linesRender ls) :: (gComment, comment) :: (gNatoms, natStr) :: [])
          :: E := hblock
  have hhead : (msplits ((frameText natStr comment ls).length + 2) pos_block_regex
      ⟨frameText natStr comment ls, true⟩ []).head?
      = some ((⟨([] : List Char), true⟩ : MSt),
          (gPositions, linesRender ls) :: (gComment, comment) :: (gNatoms, natStr) :: []) := by
    rw [hblock']
    rfl
  have hrest : finditer ((frameText natStr comment ls).length + 2) pos_block_regex
      (frameText natStr comment ls).length (frameText natStr comment ls).length
      ⟨([] : List Char), true⟩ = [] := by
    refine finditer_fail_all (fun u => u.count '\n' < 3)
      (fun u b hP => block_fail_nl3 hP _)
      (fun c u hP => by
        have hle : u.count '\n' ≤ (c :: u).count '\n' := by
          rw [List.count_cons]
          exact Nat.le_add_right _ _
        omega)
      (frameText natStr comment ls).length [] true (by simp; omega) (by simp)
  show (finditer ((frameText natStr comment ls).length + 2) pos_block_regex
      (frameText natStr comment ls).length ((frameText natStr comment ls).length + 1)
      ⟨frameText natStr comment ls, true⟩).map (frameOfBlock false) = _
  rw [finditer_match (G := (frameText natStr comment ls).length) hhead
    (by simp only [List.length_nil]
        omega)
    (Nat.le_refl _)]
  rw [hrest]
  have hm : (⟨(frameText natStr comment ls).length
        - ((⟨frameText natStr comment ls, true⟩ : MSt)).rem.length,
      (frameText natStr comment ls).length - (([] : List Char)).length,
      (gPositions, linesRender ls) :: (gComment, comment) :: (gNatoms, natStr) :: []⟩ : RMatch)
      = ⟨0, (frameText natStr comment ls).length,
          [(gPositions, linesRender ls), (gComment, comment), (gNatoms, natStr)]⟩ := by
    simp
  rw [hm]
  simp only [List.map_cons, List.map_nil]
  have hfob : frameOfBlock false
      (⟨0, (frameText natStr comment ls).length,
        [(gPositions, linesRender ls), (gComment, comment), (gNatoms, natStr)]⟩ : RMatch)
      = some ⟨digitsVal natStr, comment,
          ⟨finditerRun pos_regex (linesRender ls), digitsVal natStr, 0, false⟩,
          ⟨0, (frameText natStr comment ls).length,
            [(gPositions, linesRender ls), (gComment, comment), (gNatoms, natStr)]⟩⟩ := by
    have h1 : groupStr gNatoms
        (⟨0, (frameText natStr comment ls).length,
          [(gPositions, linesRender ls), (gComment, comment), (gNatoms, natStr)]⟩ : RMatch)
        = natStr := rfl
    have h2 : groupStr gComment
        (⟨0, (frameText natStr comment ls).length,
          [(gPositions, linesRender ls), (gComment, comment), (gNatoms, natStr)]⟩ : RMatch)
        = comment := rfl
    have h3 : groupStr gPositions
        (⟨0, (frameText natStr comment ls).length,
          [(gPositions, linesRender ls), (gComment, comment), (gNatoms, natStr)]⟩ : RMatch)
        = linesRender ls := rfl
    simp only [frameOfBlock, h1, h2, h3, pyInt_digitsOk hnat]
  rw [hfob]

/-- A well-formed frame whose declared count equals its number of atom
lines parses to one frame tuple whose atom sequence drains to exactly
the expected records with no error. -/
theorem single_frame_drain {natStr comment : List Char} {D : List PLine}
    (hnat : digitsOk natStr) (hcom : commentOk comment) (hne : D ≠ [])
    (hok : ∀ l ∈ D, l.ok)
    (hcount : digitsVal natStr = (D.flatMap PLine.atoms).length) :
    ∃ I : Frame, xyz_parser_iterator (frameText natStr comment D) false = [some I]
      ∧ I.natoms = digitsVal natStr
      ∧ I.comment = comment
      ∧ I.blockMatch.mstart = 0
      ∧ I.blockMatch.mend = (frameText natStr comment D).length
      ∧ I.atomiter.drain = ((D.flatMap PLine.atoms).map AtomSpec.record, none) := by
  refine ⟨⟨digitsVal natStr, comment,
      ⟨finditerRun pos_regex (linesRender D), digitsVal natStr, 0, false⟩,
      ⟨0, (frameText natStr comment D).length,
        [(gPositions, linesRender D), (gComment, comment), (gNatoms, natStr)]⟩⟩,
    single_frame_parse hnat hcom hne hok, rfl, rfl, rfl, rfl, ?_⟩
  have hF := pos_scan_run D hok
  have hlen := List.Forall₂.length_eq hF
  show drainGo ((finditerRun pos_regex (linesRender D)).length + 1)
      ⟨finditerRun pos_regex (linesRender D), digitsVal natStr, 0, false⟩ = _
  exact drain_exact (finditerRun pos_regex (linesRender D))
    ((D.flatMap PLine.atoms).map AtomSpec.record) (digitsVal natStr) 0 false
    ((finditerRun pos_regex (linesRender D)).length + 1) (Nat.le_refl _)
    (by omega) (forall2_map_record hF)

theorem flatMap_atoms_map_atomL (as : List AtomSpec) :
    (as.map PLine.atomL).flatMap PLine.atoms = as := by
  induction as with
  | nil => rfl
  | cons a t ih => simp [PLine.atoms, ih]

/-- C6: for every well-formed single-frame input — a digit string `N`,
a comment line, then a list of atom lines whose number equals the value
of `N` — the parse yields exactly one frame tuple carrying the declared
count and the comment, and draining its atom sequence returns exactly
the records of those lines, in order, with no error.  (The water-monomer
scenario of the specification is this statement at a concrete input; see
the accompanying witness.) -/
theorem C6_wellformed_single_frame (natStr comment : List Char) (as : List AtomSpec)
    (hnat : digitsOk natStr) (hcom : commentOk comment) (hne : as ≠ [])
    (hok : ∀ a ∈ as, a.ok) (hcount : digitsVal natStr = as.length) :
    ∃ I : Frame, xyz_parser_iterator (frameText natStr comment (as.map PLine.atomL)) false
        = [some I]
      ∧ I.natoms = digitsVal natStr
      ∧ I.comment = comment
      ∧ I.atomiter.drain = (as.map AtomSpec.record, none) := by
  have h1 : (as.map PLine.atomL).flatMap PLine.atoms = as := flatMap_atoms_map_atomL as
  obtain ⟨I, ha, hb, hc, _, _, hf⟩ := single_frame_drain (D := as.map PLine.atomL) hnat hcom
    (fun h0 => hne (List.map_eq_nil_iff.mp h0))
    (by intro l hl
        obtain ⟨a, ha', rfl⟩ := List.mem_map.mp hl
        exact hok a ha')
    (by rw [h1]; exact hcount)
  rw [h1] at hf
  exact ⟨I, ha, hb, hc, hf⟩

theorem C6_wellformed_single_frame_witness :
    ∃ I : Frame, xyz_parser_iterator waterInput false = [some I]
      ∧ I.natoms = 2
      ∧ I.comment = "water monomer".data
      ∧ I.atomiter.drain
          = ([⟨"O".data, 0, 0, 0, none⟩, ⟨"H".data, 0, 0, mkRat 957 1000, none⟩], none) := by
  obtain ⟨I, ha, hb, hc, hd⟩ := C6_wellformed_single_frame "2".data "water monomer".data
    [⟨"O".data, "0".data, "000".data, "0".data, "000".data, "0".data, "000".data⟩,
     ⟨"H".data, "0".data, "000".data, "0".data, "000".data, "0".data, "957".data⟩]
    (by decide) (by decide) (by decide) (by decide) (by decide)
  refine ⟨I, ?_, ?_, hc, ?_⟩
  · rw [show waterInput = frameText "2".data "water monomer".data
      (([⟨"O".data, "0".data, "000".data, "0".data, "000".data, "0".data, "000".data⟩,
         ⟨"H".data, "0".data, "000".data, "0".data, "000".data, "0".data, "957".data⟩]
        : List AtomSpec).map PLine.atomL) from by decide]
    exact ha
  · rw [hb]
    decide
  · rw [hd]
    decide

/-- C8: blank lines and `#`-comment lines inside a positions block
produce no atom record and do not count toward the declared atom count:
a frame declaring exactly the number of its atom lines drains to exactly
those lines' records, with no error, whatever blank or `#` lines are
interleaved. -/
theorem C8_blank_hash_lines_skipped (natStr comment : List Char) (ls : List PLine)
    (hnat : digitsOk natStr) (hcom : commentOk comment) (hne : ls ≠ [])
    (hok : ∀ l ∈ ls, l.ok)
    (hcount : digitsVal natStr = (ls.flatMap PLine.atoms).length) :
    ∃ I : Frame, xyz_parser_iterator (frameText natStr comment ls) false = [some I]
      ∧ I.natoms = (ls.flatMap PLine.atoms).length
      ∧ I.atomiter.drain = ((ls.flatMap PLine.atoms).map AtomSpec.record, none) := by
  obtain ⟨I, ha, hb, _, _, _, hf⟩ := single_frame_drain hnat hcom hne hok hcount
  refine ⟨I, ha, ?_, hf⟩
  rw [hb, hcount]

theorem C8_blank_hash_lines_skipped_witness :
    ∃ I : Frame,
      xyz_parser_iterator "2\nc\n \nO 0.125 0.25 0.5\n# note\nH 1.5 2.5 3.5\n\n".data false
        = [some I]
      ∧ I.natoms = 2
      ∧ I.atomiter.drain
          = ([⟨"O".data, mkRat 1 8, mkRat 1 4, mkRat 1 2, none⟩,
              ⟨"H".data, mkRat 3 2, mkRat 5 2, mkRat 7 2, none⟩], none) := by
  obtain ⟨I, ha, hb, hd⟩ := C8_blank_hash_lines_skipped "2".data "c".data
    [PLine.blankL [' '],
     PLine.atomL ⟨"O".data, "0".data, "125".data, "0".data, "25".data, "0".data, "5".data⟩,
     PLine.hashL [] " note".data,
     PLine.atomL ⟨"H".data, "1".data, "5".data, "2".data, "5".data, "3".data, "5".data⟩,
     PLine.blankL []]
    (by decide) (by decide) (by decide) (by decide) (by decide)
  refine ⟨I, ?_, ?_, ?_⟩
  · rw [show ("2\nc\n \nO 0.125 0.25 0.5\n# note\nH 1.5 2.5 3.5\n\n".data : List Char)
      = frameText "2".data "c".data
        [PLine.blankL [' '],
         PLine.atomL ⟨"O".data, "0".data, "125".data, "0".data, "25".data, "0".data, "5".data⟩,
         PLine.hashL [] " note".data,
         PLine.atomL ⟨"H".data, "1".data, "5".data, "2".data, "5".data, "3".data, "5".data⟩,
         PLine.blankL []] from by decide]
    exact ha
  · rw [hb]
    decide
  · rw [hd]
    decide

/-- One scanner step committing to a block match that leaves `rest`. -/
theorem finditer_frame_step {M H G : Nat} {u K : List Char} {cps : Caps}
    (hhead : (msplits M pos_block_regex ⟨u, true⟩ []).head?
      = some ((⟨K, true⟩ : MSt), cps))
    (hlt : K.length < u.length) (htot : u.length ≤ H) (hfuel : 1 ≤ G) :
    finditer M pos_block_regex H G ⟨u, true⟩
      = ⟨H - u.length, H - K.length, cps⟩
          :: finditer M pos_block_regex H (G - 1) ⟨K, true⟩ := by
  rcases G with _ | f
  · omega
  · have h := finditer_match (G := f) hhead hlt htot
    simpa using h

/-- Parsing two concatenated well-formed frames: two tuples, in order,
each built from its own frame's captures, with adjacent spans. -/
theorem two_frame_parse {n1 c1 : List Char} {ls1 : List PLine} {n2 c2 : List Char}
    {ls2 : List PLine}
    (hnat1 : digitsOk n1) (hcom1 : commentOk c1) (hne1 : ls1 ≠ []) (hok1 : ∀ l ∈ ls1, l.ok)
    (hnat2 : digitsOk n2) (hcom2 : commentOk c2) (hne2 : ls2 ≠ []) (hok2 : ∀ l ∈ ls2, l.ok) :
    xyz_parser_iterator (frameText n1 c1 ls1 ++ frameText n2 c2 ls2) false
      = [some ⟨digitsVal n1, c1,
            ⟨finditerRun pos_regex (linesRender ls1), digitsVal n1, 0, false⟩,
            ⟨0, (frameText n1 c1 ls1).length,
              [(gPositions, linesRender ls1), (gComment, c1), (gNatoms, n1)]⟩⟩,
         some ⟨digitsVal n2, c2,
            ⟨finditerRun pos_regex (linesRender ls2), digitsVal n2, 0, false⟩,
            ⟨(frameText n1 c1 ls1).length,
              (frameText n1 c1 ls1).length + (frameText n2 c2 ls2).length,
              [(gPositions, linesRender ls2), (gComment, c2), (gNatoms, n2)]⟩⟩] := by
  have hL1 : 2 ≤ (frameText n1 c1 ls1).length := by
    simp only [frameText, List.length_append, List.length_cons]
    omega
  have hL2 : 2 ≤ (frameText n2 c2 ls2).length := by
    simp only [frameText, List.length_append, List.length_cons]
    omega
  have hL12 : (frameText n1 c1 ls1 ++ frameText n2 c2 ls2).length
      = (frameText n1 c1 ls1).length + (frameText n2 c2 ls2).length :=
    List.length_append _ _
  have hlsl1 : ls1.length ≤ (frameText n1 c1 ls1).length := by
    have := linesRender_len ls1
    simp only [frameText, List.length_append, List.length_cons]
    omega
  have hlsl2 : ls2.length ≤ (frameText n2 c2 ls2).length := by
    have := linesRender_len ls2
    simp only [frameText, List.length_append, List.length_cons]
    omega
  -- frame 2's text starts with a digit
  have hstop2 : frameText n2 c2 ls2 = [] ∨ ∃ d t, frameText n2 c2 ls2 = d :: t
      ∧ d.isDigit = true := by
    rcases hn2 : n2 with _ | ⟨d, ns⟩
    · exact absurd hn2 hnat2.1
    refine Or.inr ⟨d, ns ++ '\n' :: (c2 ++ '\n' :: linesRender ls2), by simp [frameText], ?_⟩
    have := hnat2.2
    rw [hn2] at this
    simp only [List.all_cons, Bool.and_eq_true] at this
    exact this.1
  -- the committed match of frame 1
  have hplus1 : ∀ (b' : Bool) (cp' : Caps), ∃ junk,
      msplits ((frameText n1 c1 ls1 ++ frameText n2 c2 ls2).length + 1 + 1) (.plusR linePat)
        ⟨linesRender ls1 ++ frameText n2 c2 ls2, b'⟩ cp'
        = ((⟨frameText n2 c2 ls2, true⟩ : MSt), cp') :: junk :=
    fun b' cp' => plusLines_first _ ls1 hne1 hok1 (by omega) _ b' cp' hstop2
  obtain ⟨junkB1, hblock1⟩ := pos_block_first
    (f := (frameText n1 c1 ls1 ++ frameText n2 c2 ls2).length + 1)
    (K := frameText n2 c2 ls2) (A := []) hnat1 hcom1 hplus1
  have hhead1 : (msplits ((frameText n1 c1 ls1 ++ frameText n2 c2 ls2).length + 2)
      pos_block_regex ⟨frameText n1 c1 ls1 ++ frameText n2 c2 ls2, true⟩ []).head?
      = some ((⟨frameText n2 c2 ls2, true⟩ : MSt),
          [(gPositions, linesRender ls1), (gComment, c1), (gNatoms, n1)]) := by
    have hb : msplits ((frameText n1 c1 ls1 ++ frameText n2 c2 ls2).length + 2)
        pos_block_regex ⟨frameText n1 c1 ls1 ++ frameText n2 c2 ls2, true⟩ []
        = ((⟨frameText n2 c2 ls2, true⟩ : MSt),
            [(gPositions, linesRender ls1), (gComment, c1), (gNatoms, n1)]) :: junkB1 := hblock1
    rw [hb]
    rfl
  -- the committed match of frame 2
  have hplus2 : ∀ (b' : Bool) (cp' : Caps), ∃ junk,
      msplits ((frameText n1 c1 ls1 ++ frameText n2 c2 ls2).length + 1 + 1) (.plusR linePat)
        ⟨linesRender ls2 ++ [], b'⟩ cp'
        = ((⟨([] : List Char), true⟩ : MSt), cp') :: junk :=
    fun b' cp' => plusLines_first _ ls2 hne2 hok2 (by omega) [] b' cp' (Or.inl rfl)
  obtain ⟨junkB2, hblock2⟩ := pos_block_first
    (f := (frameText n1 c1 ls1 ++ frameText n2 c2 ls2).length + 1)
    (K := []) (A := []) hnat2 hcom2 hplus2
  rw [List.append_nil] at hblock2
  have hhead2 : (msplits ((frameText n1 c1 ls1 ++ frameText n2 c2 ls2).length + 2)
      pos_block_regex ⟨frameText n2 c2 ls2, true⟩ []).head?
      = some ((⟨([] : List Char), true⟩ : MSt),
          [(gPositions, linesRender ls2), (gComment, c2), (gNatoms, n2)]) := by
    have hb : msplits ((frameText n1 c1 ls1 ++ frameText n2 c2 ls2).length + 2)
        pos_block_regex ⟨frameText n2 c2 ls2, true⟩ []
        = ((⟨([] : List Char), true⟩ : MSt),
            [(gPositions, linesRender ls2), (gComment, c2), (gNatoms, n2)]) :: junkB2 := hblock2
    rw [hb]
    rfl
  -- the scan
  show (finditer ((frameText n1 c1 ls1 ++ frameText n2 c2 ls2).length + 2) pos_block_regex
      (frameText n1 c1 ls1 ++ frameText n2 c2 ls2).length
      ((frameText n1 c1 ls1 ++ frameText n2 c2 ls2).length + 1)
      ⟨frameText n1 c1 ls1 ++ frameText n2 c2 ls2, true⟩).map (frameOfBlock false) = _
  rw [finditer_frame_step hhead1 (by omega) (Nat.le_refl _) (by omega)]
  rw [finditer_frame_step hhead2 (by simp only [List.length_nil]; omega) (by omega) (by omega)]
  rw [finditer_fail_all (fun u => u.count '\n' < 3)
    (fun u b hP => block_fail_nl3 hP _)
    (fun c u hP => by
      have hle : u.count '\n' ≤ (c :: u).count '\n' := by
        rw [List.count_cons]
        exact Nat.le_add_right _ _
      omega)
    _ [] true (by simp only [List.length_nil]; omega) (by simp)]
  have hm1 : (⟨(frameText n1 c1 ls1 ++ frameText n2 c2 ls2).length
        - (frameText n1 c1 ls1 ++ frameText n2 c2 ls2).length,
      (frameText n1 c1 ls1 ++ frameText n2 c2 ls2).length - (frameText n2 c2 ls2).length,
      [(gPositions, linesRender ls1), (gComment, c1), (gNatoms, n1)]⟩ : RMatch)
      = ⟨0, (frameText n1 c1 ls1).length,
          [(gPositions, linesRender ls1), (gComment, c1), (gNatoms, n1)]⟩ := by
    have h1 : (frameText n1 c1 ls1 ++ frameText n2 c2 ls2).length
        - (frameText n1 c1 ls1 ++ frameText n2 c2 ls2).length = 0 := by omega
    have h2 : (frameText n1 c1 ls1 ++ frameText n2 c2 ls2).length
        - (frameText n2 c2 ls2).length = (frameText n1 c1 ls1).length := by omega
    rw [h1, h2]
  have hm2 : (⟨(frameText n1 c1 ls1 ++ frameText n2 c2 ls2).length
        - (frameText n2 c2 ls2).length,
      (frameText n1 c1 ls1 ++ frameText n2 c2 ls2).length - (([] : List Char)).length,
      [(gPositions, linesRender ls2), (gComment, c2), (gNatoms, n2)]⟩ : RMatch)
      = ⟨(frameText n1 c1 ls1).length,
          (frameText n1 c1 ls1).length + (frameText n2 c2 ls2).length,
          [(gPositions, linesRender ls2), (gComment, c2), (gNatoms, n2)]⟩ := by
    have h1 : (frameText n1 c1 ls1 ++ frameText n2 c2 ls2).length
        - (frameText n2 c2 ls2).length = (frameText n1 c1 ls1).length := by omega
    have h2 : (frameText n1 c1 ls1 ++ frameText n2 c2 ls2).length
        - (([] : List Char)).length
        = (frameText n1 c1 ls1).length + (frameText n2 c2 ls2).length := by
      simp only [List.length_nil]
      omega
    rw [h1, h2]
  rw [hm1, hm2]
  simp only [List.map_cons, List.map_nil]
  have hfob1 : frameOfBlock false
      (⟨0, (frameText n1 c1 ls1).length,
        [(gPositions, linesRender ls1), (gComment, c1), (gNatoms, n1)]⟩ : RMatch)
      = some ⟨digitsVal n1, c1,
          ⟨finditerRun pos_regex (linesRender ls1), digitsVal n1, 0, false⟩,
          ⟨0, (frameText n1 c1 ls1).length,
            [(gPositions, linesRender ls1), (gComment, c1), (gNatoms, n1)]⟩⟩ := by
    have h1 : groupStr gNatoms
        (⟨0, (frameText n1 c1 ls1).length,
          [(gPositions, linesRender ls1), (gComment, c1), (gNatoms, n1)]⟩ : RMatch) = n1 := rfl
    have h2 : groupStr gComment
        (⟨0, (frameText n1 c1 ls1).length,
          [(gPositions, linesRender ls1), (gComment, c1), (gNatoms, n1)]⟩ : RMatch) = c1 := rfl
    have h3 : groupStr gPositions
        (⟨0, (frameText n1 c1 ls1).length,
          [(gPositions, linesRender ls1), (gComment, c1), (gNatoms, n1)]⟩ : RMatch)
        = linesRender ls1 := rfl
    simp only [frameOfBlock, h1, h2, h3, pyInt_digitsOk hnat1]
  have hfob2 : frameOfBlock false
      (⟨(frameText n1 c1 ls1).length,
        (frameText n1 c1 ls1).length + (frameText n2 c2 ls2).length,
        [(gPositions, linesRender ls2), (gComment, c2), (gNatoms, n2)]⟩ : RMatch)
      = some ⟨digitsVal n2, c2,
          ⟨finditerRun pos_regex (linesRender ls2), digitsVal n2, 0, false⟩,
          ⟨(frameText n1 c1 ls1).length,
            (frameText n1 c1 ls1).length + (frameText n2 c2 ls2).length,
            [(gPositions, linesRender ls2), (gComment, c2), (gNatoms, n2)]⟩⟩ := by
    have h1 : groupStr gNatoms
        (⟨(frameText n1 c1 ls1).length,
          (frameText n1 c1 ls1).length + (frameText n2 c2 ls2).length,
          [(gPositions, linesRender ls2), (gComment, c2), (gNatoms, n2)]⟩ : RMatch) = n2 := rfl
    have h2 : groupStr gComment
        (⟨(frameText n1 c1 ls1).length,
          (frameText n1 c1 ls1).length + (frameText n2 c2 ls2).length,
          [(gPositions, linesRender ls2), (gComment, c2), (gNatoms, n2)]⟩ : RMatch) = c2 := rfl
    have h3 : groupStr gPositions
        (⟨(frameText n1 c1 ls1).length,
          (frameText n1 c1 ls1).length + (frameText n2 c2 ls2).length,
          [(gPositions, linesRender ls2), (gComment, c2), (gNatoms, n2)]⟩ : RMatch)
        = linesRender ls2 := rfl
    simp only [frameOfBlock, h1, h2, h3, pyInt_digitsOk hnat2]
  rw [hfob1, hfob2]

/-- Draining the atom iterator of a frame whose declared count equals
its atom-line count. -/
theorem blockIter_drain_exact {n : Nat} {ls : List PLine}
    (hok : ∀ l ∈ ls, l.ok) (hcount : n = (ls.flatMap PLine.atoms).length) :
    BlockIterator.drain ⟨finditerRun pos_regex (linesRender ls), n, 0, false⟩
      = ((ls.flatMap PLine.atoms).map AtomSpec.record, none) := by
  have hF := pos_scan_run ls hok
  have hlen := List.Forall₂.length_eq hF
  show drainGo ((finditerRun pos_regex (linesRender ls)).length + 1)
      ⟨finditerRun pos_regex (linesRender ls), n, 0, false⟩ = _
  exact drain_exact (finditerRun pos_regex (linesRender ls))
    ((ls.flatMap PLine.atoms).map AtomSpec.record) n 0 false
    ((finditerRun pos_regex (linesRender ls)).length + 1) (Nat.le_refl _)
    (by omega) (forall2_map_record hF)

/-- C9: two well-formed frames concatenated back-to-back parse to
exactly two frame tuples in order of appearance, each carrying its own
count, comment and atom records (each drain returns exactly the records
of its own frame's lines, so no record leaks across frames), and the
two block matches span adjacent, non-overlapping substrings of the
input. -/
theorem C9_two_frames_independent (n1 c1 : List Char) (ls1 : List PLine)
    (n2 c2 : List Char) (ls2 : List PLine)
    (hnat1 : digitsOk n1) (hcom1 : commentOk c1) (hne1 : ls1 ≠ []) (hok1 : ∀ l ∈ ls1, l.ok)
    (hcnt1 : digitsVal n1 = (ls1.flatMap PLine.atoms).length)
    (hnat2 : digitsOk n2) (hcom2 : commentOk c2) (hne2 : ls2 ≠ []) (hok2 : ∀ l ∈ ls2, l.ok)
    (hcnt2 : digitsVal n2 = (ls2.flatMap PLine.atoms).length) :
    ∃ fr1 fr2 : Frame,
      xyz_parser_iterator (frameText n1 c1 ls1 ++ frameText n2 c2 ls2) false
        = [some fr1, some fr2]
      ∧ fr1.natoms = digitsVal n1 ∧ fr1.comment = c1
      ∧ fr1.atomiter.drain = ((ls1.flatMap PLine.atoms).map AtomSpec.record, none)
      ∧ fr2.natoms = digitsVal n2 ∧ fr2.comment = c2
      ∧ fr2.atomiter.drain = ((ls2.flatMap PLine.atoms).map AtomSpec.record, none)
      ∧ fr1.blockMatch.mstart = 0
      ∧ fr1.blockMatch.mend = (frameText n1 c1 ls1).length
      ∧ fr2.blockMatch.mstart = (frameText n1 c1 ls1).length
      ∧ fr2.blockMatch.mend
          = (frameText n1 c1 ls1).length + (frameText n2 c2 ls2).length := by
  refine ⟨⟨digitsVal n1, c1,
      ⟨finditerRun pos_regex (linesRender ls1), digitsVal n1, 0, false⟩,
      ⟨0, (frameText n1 c1 ls1).length,
        [(gPositions, linesRender ls1), (gComment, c1), (gNatoms, n1)]⟩⟩,
    ⟨digitsVal n2, c2,
      ⟨finditerRun pos_regex (linesRender ls2), digitsVal n2, 0, false⟩,
      ⟨(frameText n1 c1 ls1).length,
        (frameText n1 c1 ls1).length + (frameText n2 c2 ls2).length,
        [(gPositions, linesRender ls2), (gComment, c2), (gNatoms, n2)]⟩⟩,
    two_frame_parse hnat1 hcom1 hne1 hok1 hnat2 hcom2 hne2 hok2,
    rfl, rfl, blockIter_drain_exact hok1 hcnt1,
    rfl, rfl, blockIter_drain_exact hok2 hcnt2,
    rfl, rfl, rfl, rfl⟩

theorem C9_two_frames_independent_witness :
    ∃ fr1 fr2 : Frame,
      xyz_parser_iterator "1\na\nH 1.0 2.0 3.0\n2\nb\nO 0.5 0.5 0.5\nN 1.5 1.5 1.5\n".data false
        = [some fr1, some fr2]
      ∧ fr1.natoms = 1 ∧ fr1.comment = "a".data
      ∧ fr1.atomiter.drain = ([⟨"H".data, 1, 2, 3, none⟩], none)
      ∧ fr2.natoms = 2 ∧ fr2.comment = "b".data
      ∧ fr2.atomiter.drain
          = ([⟨"O".data, mkRat 1 2, mkRat 1 2, mkRat 1 2, none⟩,
              ⟨"N".data, mkRat 3 2, mkRat 3 2, mkRat 3 2, none⟩], none)
      ∧ fr1.blockMatch.mend = 18 ∧ fr2.blockMatch.mstart = 18 := by
  obtain ⟨fr1, fr2, ha, hb1, hc1, hd1, hb2, hc2, hd2, _, he1, he2, _⟩ :=
    C9_two_frames_independent "1".data "a".data
      [PLine.atomL ⟨"H".data, "1".data, "0".data, "2".data, "0".data, "3".data, "0".data⟩]
      "2".data "b".data
      [PLine.atomL ⟨"O".data, "0".data, "5".data, "0".data, "5".data, "0".data, "5".data⟩,
       PLine.atomL ⟨"N".data, "1".data, "5".data, "1".data, "5".data, "1".data, "5".data⟩]
      (by decide) (by decide) (by decide) (by decide) (by decide)
      (by decide) (by decide) (by decide) (by decide) (by decide)
  refine ⟨fr1, fr2, ?_, ?_, hc1, ?_, ?_, hc2, ?_, ?_, ?_⟩
  · rw [show ("1\na\nH 1.0 2.0 3.0\n2\nb\nO 0.5 0.5 0.5\nN 1.5 1.5 1.5\n".data : List Char)
      = frameText "1".data "a".data
          [PLine.atomL ⟨"H".data, "1".data, "0".data, "2".data, "0".data, "3".data, "0".data⟩]
        ++ frameText "2".data "b".data
          [PLine.atomL ⟨"O".data, "0".data, "5".data, "0".data, "5".data, "0".data, "5".data⟩,
           PLine.atomL ⟨"N".data, "1".data, "5".data, "1".data, "5".data, "1".data, "5".data⟩]
      from by decide]
    exact ha
  · rw [hb1]
    decide
  · rw [hd1]
    decide
  · rw [hb2]
    decide
  · rw [hd2]
    decide
  · rw [he1]
    decide
  · rw [he2]
    decide

theorem numTok_chars {i f : List Char} {c : Char} (hi : digitsOk i) (hf : digitsOk f)
    (hc : c ∈ numTok i f) : c.isDigit = true ∨ c = '.' := by
  simp only [numTok] at hc
  rcases List.mem_append.mp hc with h | h
  · exact Or.inl (List.all_eq_true.mp hi.2 c h)
  · rcases List.mem_cons.mp h with rfl | h
    · exact Or.inr rfl
    · exact Or.inl (List.all_eq_true.mp hf.2 c h)

theorem lineNoNl_chars {a : AtomSpec} (hok : a.ok) :
    ∀ c ∈ a.lineNoNl, c.isAlpha = true ∨ c.isDigit = true ∨ c = ' ' ∨ c = '.' := by
  intro c hc
  obtain ⟨hsne, hsall, hi1, hf1, hi2, hf2, hi3, hf3⟩ := hok
  simp only [AtomSpec.lineNoNl] at hc
  rcases List.mem_append.mp hc with h | h
  · exact Or.inl (List.all_eq_true.mp hsall c h)
  rcases List.mem_cons.mp h with rfl | h
  · exact Or.inr (Or.inr (Or.inl rfl))
  rcases List.mem_append.mp h with h | h
  · rcases numTok_chars hi1 hf1 h with h1 | h1
    · exact Or.inr (Or.inl h1)
    · exact Or.inr (Or.inr (Or.inr h1))
  rcases List.mem_cons.mp h with rfl | h
  · exact Or.inr (Or.inr (Or.inl rfl))
  rcases List.mem_append.mp h with h | h
  · rcases numTok_chars hi2 hf2 h with h1 | h1
    · exact Or.inr (Or.inl h1)
    · exact Or.inr (Or.inr (Or.inr h1))
  rcases List.mem_cons.mp h with rfl | h
  · exact Or.inr (Or.inr (Or.inl rfl))
  rcases numTok_chars hi3 hf3 h with h1 | h1
  · exact Or.inr (Or.inl h1)
  · exact Or.inr (Or.inr (Or.inr h1))

theorem lineNoNl_no_nl {a : AtomSpec} (hok : a.ok) : ¬ '\n' ∈ a.lineNoNl := by
  intro hm
  rcases lineNoNl_chars hok '\n' hm with h | h | h | h
  · exact absurd h (by decide)
  · exact absurd h (by decide)
  · exact absurd h (by decide)
  · exact absurd h (by decide)

theorem digits_no_nl {l : List Char} (h : digitsOk l) : ¬ '\n' ∈ l := by
  intro hm
  exact absurd (List.all_eq_true.mp h.2 '\n' hm) (by decide)

theorem comment_no_nl {l : List Char} (h : commentOk l) : ¬ '\n' ∈ l := by
  intro hm
  have := List.all_eq_true.mp h '\n' hm
  exact absurd this (by decide)

/-- C10: a positions-block line must end in a newline to belong to the
frame.  If the only candidate line after the comment lacks its newline,
the framing grammar finds no frame at all; if an otherwise well-formed
frame declaring one atom more than its terminated lines is followed by
an unterminated atom line, that line is excluded: the frame's sequence
yields one record fewer than its atom lines and draining raises the
underpopulation error. -/
theorem C10_unterminated_last_line :
    (∀ (natStr comment : List Char) (a : AtomSpec),
      digitsOk natStr → commentOk comment → a.ok →
      xyz_parser_iterator (natStr ++ '\n' :: (comment ++ '\n' :: a.lineNoNl)) false = [])
    ∧ (∀ (natStr comment : List Char) (ls : List PLine) (a : AtomSpec),
      digitsOk natStr → commentOk comment → a.ok → ls ≠ [] →
      (∀ l ∈ ls, l.ok) → (∀ l ∈ ls, l.isBlank = false) →
      digitsVal natStr = (ls.flatMap PLine.atoms).length + 1 →
      ∃ (I : Frame) (recs : List AtomRecord),
        xyz_parser_iterator (frameText natStr comment ls ++ a.lineNoNl) false = [some I]
        ∧ I.natoms = (ls.flatMap PLine.atoms).length + 1
        ∧ I.atomiter.drain
            = (recs, some (.underpopulated (ls.flatMap PLine.atoms).length
                ((ls.flatMap PLine.atoms).length + 1)))
        ∧ recs.length = (ls.flatMap PLine.atoms).length) := by
  constructor
  · intro natStr comment a hnat hcom hok
    have e1 : natStr.count '\n' = 0 := List.count_eq_zero.mpr (digits_no_nl hnat)
    have e2 : comment.count '\n' = 0 := List.count_eq_zero.mpr (comment_no_nl hcom)
    have e3 : a.lineNoNl.count '\n' = 0 := List.count_eq_zero.mpr (lineNoNl_no_nl hok)
    have hcnt : (natStr ++ '\n' :: (comment ++ '\n' :: a.lineNoNl)).count '\n' < 3 := by
      rw [List.count_append, List.count_cons_self, List.count_append, List.count_cons_self,
        e1, e2, e3]
      omega
    have hz : finditerRun pos_block_regex (natStr ++ '\n' :: (comment ++ '\n' :: a.lineNoNl))
        = [] := by
      simp only [finditerRun]
      exact finditer_fail_all (fun u => u.count '\n' < 3)
        (fun u b hP => block_fail_nl3 hP _)
        (fun c u hP => by
          have hle : u.count '\n' ≤ (c :: u).count '\n' := by
            rw [List.count_cons]
            exact Nat.le_add_right _ _
          omega)
        _ _ true (Nat.le_refl _) hcnt
    show (finditerRun pos_block_regex _).map (frameOfBlock false) = []
    rw [hz]
    rfl
  · intro natStr comment ls a hnat hcom hoka hne hok hnb hcount
    have hRS : RestStop a.lineNoNl := Or.inr (Or.inr (lineNoNl_no_nl hoka))
    have hlsl : ls.length ≤ (frameText natStr comment ls).length := by
      have := linesRender_len ls
      simp only [frameText, List.length_append, List.length_cons]
      omega
    have hfl : 2 ≤ (frameText natStr comment ls).length := by
      simp only [frameText, List.length_append, List.length_cons]
      omega
    have hLapp : (frameText natStr comment ls ++ a.lineNoNl).length
        = (frameText natStr comment ls).length + a.lineNoNl.length :=
      List.length_append _ _
    have hplus : ∀ (b' : Bool) (cp' : Caps), ∃ junk,
        msplits ((frameText natStr comment ls ++ a.lineNoNl).length + 1 + 1) (.plusR linePat)
          ⟨linesRender ls ++ a.lineNoNl, b'⟩ cp'
          = ((⟨a.lineNoNl, true⟩ : MSt), cp') :: junk :=
      fun b' cp' => plusLines_first_nb _ ls hne hok hnb (by omega) a.lineNoNl b' cp' hRS
    obtain ⟨E, hblock⟩ := pos_block_first
      (f := (frameText natStr comment ls ++ a.lineNoNl).length + 1)
      (K := a.lineNoNl) (A := []) hnat hcom hplus
    have hhead : (msplits ((frameText natStr comment ls ++ a.lineNoNl).length + 2)
        pos_block_regex ⟨frameText natStr comment ls ++ a.lineNoNl, true⟩ []).head?
        = some ((⟨a.lineNoNl, true⟩ : MSt),
            [(gPositions, linesRender ls), (gComment, comment), (gNatoms, natStr)]) := by
      have hb : msplits ((frameText natStr comment ls ++ a.lineNoNl).length + 2)
          pos_block_regex ⟨frameText natStr comment ls ++ a.lineNoNl, true⟩ []
          = ((⟨a.lineNoNl, true⟩ : MSt),
              [(gPositions, linesRender ls), (gComment, comment), (gNatoms, natStr)])
              :: E := hblock
      rw [hb]
      rfl
    have e3 : a.lineNoNl.count '\n' = 0 := List.count_eq_zero.mpr (lineNoNl_no_nl hoka)
    have hscan : xyz_parser_iterator (frameText natStr comment ls ++ a.lineNoNl) false
        = [frameOfBlock false
            ⟨0, (frameText natStr comment ls).length,
              [(gPositions, linesRender ls), (gComment, comment), (gNatoms, natStr)]⟩] := by
      show (finditer ((frameText natStr comment ls ++ a.lineNoNl).length + 2) pos_block_regex
          (frameText natStr comment ls ++ a.lineNoNl).length
          ((frameText natStr comment ls ++ a.lineNoNl).length + 1)
          ⟨frameText natStr comment ls ++ a.lineNoNl, true⟩).map (frameOfBlock false) = _
      rw [finditer_frame_step hhead (by omega) (Nat.le_refl _) (by omega)]
      rw [finditer_fail_all (fun u => u.count '\n' < 3)
        (fun u b hP => block_fail_nl3 hP _)
        (fun c u hP => by
          have hle : u.count '\n' ≤ (c :: u).count '\n' := by
            rw [List.count_cons]
            exact Nat.le_add_right _ _
          omega)
        _ a.lineNoNl true (by omega) (by omega)]
      have hm : (⟨(frameText natStr comment ls ++ a.lineNoNl).length
            - (frameText natStr comment ls ++ a.lineNoNl).length,
          (frameText natStr comment ls ++ a.lineNoNl).length - a.lineNoNl.length,
          [(gPositions, linesRender ls), (gComment, comment), (gNatoms, natStr)]⟩ : RMatch)
          = ⟨0, (frameText natStr comment ls).length,
              [(gPositions, linesRender ls), (gComment, comment), (gNatoms, natStr)]⟩ := by
        have h1 : (frameText natStr comment ls ++ a.lineNoNl).length
            - (frameText natStr comment ls ++ a.lineNoNl).length = 0 := by omega
        have h2 : (frameText natStr comment ls ++ a.lineNoNl).length - a.lineNoNl.length
            = (frameText natStr comment ls).length := by omega
        rw [h1, h2]
      rw [hm]
      rfl
    have hfob : frameOfBlock false
        (⟨0, (frameText natStr comment ls).length,
          [(gPositions, linesRender ls), (gComment, comment), (gNatoms, natStr)]⟩ : RMatch)
        = some ⟨digitsVal natStr, comment,
            ⟨finditerRun pos_regex (linesRender ls), digitsVal natStr, 0, false⟩,
            ⟨0, (frameText natStr comment ls).length,
              [(gPositions, linesRender ls), (gComment, comment), (gNatoms, natStr)]⟩⟩ := by
      have h1 : groupStr gNatoms
          (⟨0, (frameText natStr comment ls).length,
            [(gPositions, linesRender ls), (gComment, comment), (gNatoms, natStr)]⟩ : RMatch)
          = natStr := rfl
      have h2 : groupStr gComment
          (⟨0, (frameText natStr comment ls).length,
            [(gPositions, linesRender ls), (gComment, comment), (gNatoms, natStr)]⟩ : RMatch)
          = comment := rfl
      have h3 : groupStr gPositions
          (⟨0, (frameText natStr comment ls).length,
            [(gPositions, linesRender ls), (gComment, comment), (gNatoms, natStr)]⟩ : RMatch)
          = linesRender ls := rfl
      simp only [frameOfBlock, h1, h2, h3, pyInt_digitsOk hnat]
    have hF := pos_scan_run ls hok
    have hmslen := List.Forall₂.length_eq hF
    obtain ⟨recs, hdr, hreclen⟩ := drain_under (finditerRun pos_regex (linesRender ls))
      (digitsVal natStr) 0 false ((finditerRun pos_regex (linesRender ls)).length + 1)
      (Nat.le_refl _) (by omega) (forall2_recordOf_isSome hF)
    have hnorm : 0 + (finditerRun pos_regex (linesRender ls)).length
        = (ls.flatMap PLine.atoms).length := by omega
    rw [hnorm] at hdr
    refine ⟨⟨digitsVal natStr, comment,
        ⟨finditerRun pos_regex (linesRender ls), digitsVal natStr, 0, false⟩,
        ⟨0, (frameText natStr comment ls).length,
          [(gPositions, linesRender ls), (gComment, comment), (gNatoms, natStr)]⟩⟩,
      recs, ?_, ?_, ?_, ?_⟩
    · rw [hscan, hfob]
    · rw [show (⟨digitsVal natStr, comment,
          ⟨finditerRun pos_regex (linesRender ls), digitsVal natStr, 0, false⟩,
          ⟨0, (frameText natStr comment ls).length,
            [(gPositions, linesRender ls), (gComment, comment), (gNatoms, natStr)]⟩⟩
          : Frame).natoms = digitsVal natStr from rfl]
      exact hcount
    · rw [← hcount]
      show drainGo ((finditerRun pos_regex (linesRender ls)).length + 1)
        ⟨finditerRun pos_regex (linesRender ls), digitsVal natStr, 0, false⟩ = _
      exact hdr
    · rw [hreclen, hmslen]

theorem C10_unterminated_last_line_witness :
    xyz_parser_iterator "1\nc\nH 1.0 2.0 3.0".data false = []
    ∧ ∃ (I : Frame) (recs : List AtomRecord),
        xyz_parser_iterator "2\nc\nH 1.0 2.0 3.0\nO 4.0 5.0 6.0".data false = [some I]
        ∧ I.natoms = 2
        ∧ I.atomiter.drain = (recs, some (.underpopulated 1 2))
        ∧ recs.length = 1 := by
  constructor
  · have h := C10_unterminated_last_line.1 "1".data "c".data
      ⟨"H".data, "1".data, "0".data, "2".data, "0".data, "3".data, "0".data⟩
      (by decide) (by decide) (by decide)
    rw [show ("1\nc\nH 1.0 2.0 3.0".data : List Char)
      = "1".data ++ '\n' :: ("c".data ++ '\n' :: AtomSpec.lineNoNl
          ⟨"H".data, "1".data, "0".data, "2".data, "0".data, "3".data, "0".data⟩)
      from by decide]
    exact h
  · obtain ⟨I, recs, ha, hb, hc, hd⟩ := C10_unterminated_last_line.2 "2".data "c".data
      [PLine.atomL ⟨"H".data, "1".data, "0".data, "2".data, "0".data, "3".data, "0".data⟩]
      ⟨"O".data, "4".data, "0".data, "5".data, "0".data, "6".data, "0".data⟩
      (by decide) (by decide) (by decide) (by decide) (by decide) (by decide) (by decide)
    refine ⟨I, recs, ?_, ?_, ?_, ?_⟩
    · rw [show ("2\nc\nH 1.0 2.0 3.0\nO 4.0 5.0 6.0".data : List Char)
        = frameText "2".data "c".data
            [PLine.atomL ⟨"H".data, "1".data, "0".data, "2".data, "0".data, "3".data, "0".data⟩]
          ++ AtomSpec.lineNoNl
            ⟨"O".data, "4".data, "0".data, "5".data, "0".data, "6".data, "0".data⟩
        from by decide]
      exact ha
    · rw [hb]
      decide
    · rw [hc]
      rfl
    · rw [hd]
      decide
